import Mathlib

/-!
# Verification of the Blessed object-composition library

A shallow embedding of `src/blessed.js`: JavaScript values, an explicit
object heap (own enumerable and non-enumerable properties, prototype
chains through heap references, callable function data), and the six
library operations `unBindAt`, `bless`, `extend`, `mixin`,
`assertImplements` and `interpolate`, translated statement by statement
from the source.  Machine-level JS numbers are modelled as integers
(every position, arity and template index used by the library is
integral); `NaN` shows up only through the `toNum` partiality.
-/

set_option autoImplicit false

deriving instance DecidableEq for Except

namespace Blessed

/-- JavaScript values: `undefined`, `null`, booleans, (integral) numbers,
strings, references into the object heap, and the unique `LAST_ARG`
marker object (compared by identity only, so a dedicated constructor). -/
inductive JSVal where
  | undef : JSVal
  | null : JSVal
  | bool : Bool → JSVal
  | num : Int → JSVal
  | str : String → JSVal
  | ref : Nat → JSVal
  | lastArg : JSVal
deriving DecidableEq, Repr

/-- The body of a callable object: either an opaque native function
(indexed behaviour supplied as a parameter to the evaluator) or a
delegate closure created by `unBindAt` (captures the context object, the
resolved target function and the insertion position). -/
inductive FuncBody where
  | native : Nat → FuncBody
  | delegate : JSVal → JSVal → Nat → FuncBody
deriving DecidableEq, Repr

/-- Callable data of a function object: its body, its declared arity
(the JS `length` own property) and the value of its `prototype` own
property. -/
structure FuncData where
  body : FuncBody
  length : Nat
  protoProp : JSVal
deriving DecidableEq, Repr

/-- A heap object: own enumerable properties (in insertion order), own
non-enumerable properties (such as `constructor` on a prototype object),
the internal `[[Prototype]]` reference, and callable data when the
object is a function. -/
structure JSObject where
  props : List (String × JSVal)
  nonEnum : List (String × JSVal)
  proto : Option Nat
  call : Option FuncData
deriving DecidableEq, Repr

/-- The object heap: a reference is an index into this list. -/
abbrev Heap := List JSObject

/-- The `LAST_ARG` marker exported by the library. -/
def LAST_ARG : JSVal := JSVal.lastArg

/-- JS `x == null` (true exactly for `null` and `undefined`). -/
def isNullish : JSVal → Bool
  | JSVal.undef => true
  | JSVal.null => true
  | _ => false

/-- JS truthiness. -/
def truthy : JSVal → Bool
  | JSVal.undef => false
  | JSVal.null => false
  | JSVal.bool b => b
  | JSVal.num n => n != 0
  | JSVal.str s => s != ""
  | JSVal.ref _ => true
  | JSVal.lastArg => true

/-- JS strict equality `===` on our value type; references compare by
identity. -/
def jsStrictEq : JSVal → JSVal → Bool
  | JSVal.undef, JSVal.undef => true
  | JSVal.null, JSVal.null => true
  | JSVal.bool a, JSVal.bool b => a == b
  | JSVal.num a, JSVal.num b => a == b
  | JSVal.str a, JSVal.str b => a == b
  | JSVal.ref a, JSVal.ref b => a == b
  | JSVal.lastArg, JSVal.lastArg => true
  | _, _ => false

/-- Parse a (trimmed, integral) numeric string literal, as JS
`Number(string)` does on the integral literals this library can meet;
the empty string converts to `0`. -/
def parseIntCL : List Char → Option Int
  | [] => some 0
  | '-' :: c :: cs =>
    (parseIntCL (c :: cs)).bind fun n => if 0 ≤ n then some (-n) else none
  | cs =>
    if cs.all Char.isDigit then
      some (Int.ofNat (cs.foldl (fun a c => a * 10 + (c.toNat - 48)) 0))
    else none

/-- JS `Number(x)` restricted to integral results; `none` plays the role
of `NaN`. -/
def toNum : JSVal → Option Int
  | JSVal.undef => none
  | JSVal.null => some 0
  | JSVal.bool b => some (if b then 1 else 0)
  | JSVal.num n => some n
  | JSVal.str s => parseIntCL s.data
  | JSVal.ref _ => none
  | JSVal.lastArg => none

/-- Own-property lookup on a single object, including the built-in
non-enumerable `length` and `prototype` own properties of function
objects. -/
def getOwnV (o : JSObject) (k : String) : Option JSVal :=
  match o.props.find? (fun kv => kv.1 == k) with
  | some kv => some kv.2
  | none =>
    match o.nonEnum.find? (fun kv => kv.1 == k) with
    | some kv => some kv.2
    | none =>
      match o.call with
      | some fd =>
        if k == "length" then some (JSVal.num (Int.ofNat fd.length))
        else if k == "prototype" then some fd.protoProp
        else none
      | none => none

/-- Property lookup along the prototype chain, with fuel (a well-formed
heap's chains strictly descend, so `r + 1` fuel always settles). -/
def getPropAux (H : Heap) : Nat → Nat → String → JSVal
  | 0, _, _ => JSVal.undef
  | f + 1, r, k =>
    match H[r]? with
    | none => JSVal.undef
    | some o =>
      match getOwnV o k with
      | some v => v
      | none =>
        match o.proto with
        | some p => getPropAux H f p k
        | none => JSVal.undef

/-- JS property read `v[k]` (primitive receivers yield `undefined`;
the library never reads a meaningful property off a primitive). -/
def getPropV (H : Heap) (v : JSVal) (k : String) : JSVal :=
  match v with
  | JSVal.ref r => getPropAux H (H.length + 1) r k
  | _ => JSVal.undef

/-- Callable data of a value, when it is a function reference. -/
def funcDataOf (H : Heap) : JSVal → Option FuncData
  | JSVal.ref r =>
    match H[r]? with
    | some o => o.call
    | none => none
  | _ => none

/-- JS `typeof v === 'function'`. -/
def isCallable (H : Heap) (v : JSVal) : Bool :=
  (funcDataOf H v).isSome

/-- The string produced by JS `typeof`. -/
def typeofName (H : Heap) : JSVal → String
  | JSVal.undef => "undefined"
  | JSVal.null => "object"
  | JSVal.bool _ => "boolean"
  | JSVal.num _ => "number"
  | JSVal.str _ => "string"
  | JSVal.lastArg => "object"
  | JSVal.ref r =>
    match H[r]? with
    | some o => if o.call.isSome then "function" else "object"
    | none => "object"

/-- JS `Object.prototype.hasOwnProperty.call(v, k)`. -/
def hasOwnV (H : Heap) (v : JSVal) (k : String) : Bool :=
  match v with
  | JSVal.ref r =>
    match H[r]? with
    | some o => (getOwnV o k).isSome
    | none => false
  | _ => false

/-- Every own key of an object, enumerable or not, including the
built-in `length` and `prototype` of a function object; these shadow
inherited properties during `for..in` enumeration. -/
def allOwnKeys (o : JSObject) : List String :=
  o.props.map Prod.fst ++ o.nonEnum.map Prod.fst ++
    (if o.call.isSome then ["length", "prototype"] else [])

/-- `for..in` key enumeration: own enumerable keys in insertion order,
then the prototype chain's, with every own key of an already-visited
object (enumerable or not) blocking re-enumeration. -/
def enumKeysAux (H : Heap) : Nat → Option Nat → List String → List String
  | _, none, _ => []
  | 0, some _, _ => []
  | f + 1, some r, blocked =>
    match H[r]? with
    | none => []
    | some o =>
      (o.props.map Prod.fst).filter (fun k => !blocked.contains k) ++
        enumKeysAux H f o.proto (blocked ++ allOwnKeys o)

/-- The keys a `for..in` loop over `v` visits. -/
def enumKeysV (H : Heap) (v : JSVal) : List String :=
  match v with
  | JSVal.ref r => enumKeysAux H (H.length + 1) (some r) []
  | _ => []

/-- JS property assignment on a single object: update an own property in
place (enumerable or not), silently ignore a write to a function's
non-writable `length`, route a write to a function's `prototype` to its
callable data, and otherwise create a fresh own enumerable property. -/
def setObjProp (o : JSObject) (k : String) (v : JSVal) : JSObject :=
  if (o.props.find? (fun kv => kv.1 == k)).isSome then
    { o with props := o.props.map (fun kv => if kv.1 == k then (k, v) else kv) }
  else if (o.nonEnum.find? (fun kv => kv.1 == k)).isSome then
    { o with nonEnum := o.nonEnum.map (fun kv => if kv.1 == k then (k, v) else kv) }
  else
    match o.call with
    | some fd =>
      if k == "length" then o
      else if k == "prototype" then { o with call := some { fd with protoProp := v } }
      else { o with props := o.props ++ [(k, v)] }
    | none => { o with props := o.props ++ [(k, v)] }

/-- Assignment `H[r][k] := v` at the heap level. -/
def setAt (H : Heap) (r : Nat) (k : String) (v : JSVal) : Heap :=
  match H[r]? with
  | some o => H.set r (setObjProp o k v)
  | none => H

/-- Assignment through a value receiver (assignments to primitives are
dropped; the library only assigns through object references on the paths
the claims exercise). -/
def setV (H : Heap) (v : JSVal) (k : String) (w : JSVal) : Heap :=
  match v with
  | JSVal.ref r => setAt H r k w
  | _ => H

/-- `objOrPrototype` from the source: a function with a non-null
`prototype` stands for that prototype, anything else stands for
itself. -/
def objOrPrototype (H : Heap) (v : JSVal) : JSVal :=
  match v with
  | JSVal.ref r =>
    match H[r]? with
    | some o =>
      match o.call with
      | some fd => if isNullish fd.protoProp then v else fd.protoProp
      | none => v
    | none => v
  | _ => v

/-- Well-formedness of prototype links: each object's `[[Prototype]]`
reference is strictly smaller than its own address (allocation order),
which makes every prototype chain finite. -/
def protoLtAux : Nat → List JSObject → Bool
  | _, [] => true
  | i, o :: t =>
    (match o.proto with
     | some p => decide (p < i)
     | none => true) && protoLtAux (i + 1) t

/-- Prototype links of the whole heap descend. -/
def protoLt (H : Heap) : Bool := protoLtAux 0 H

/-- A value's references stay inside the first `n` heap cells. -/
def valBound (n : Nat) : JSVal → Bool
  | JSVal.ref r => decide (r < n)
  | _ => true

/-- Well-formedness of one object in a heap of size `n`: distinct own
keys, no shadowing of a function's built-in `length`/`prototype`, and
all embedded references in bounds. -/
def objWF (n : Nat) (o : JSObject) : Bool :=
  decide ((o.props.map Prod.fst ++ o.nonEnum.map Prod.fst).Nodup) &&
  (match o.call with
   | some fd =>
     !(o.props.map Prod.fst ++ o.nonEnum.map Prod.fst).contains "length" &&
     !(o.props.map Prod.fst ++ o.nonEnum.map Prod.fst).contains "prototype" &&
     valBound n fd.protoProp &&
     (match fd.body with
      | FuncBody.native _ => true
      | FuncBody.delegate a b _ => valBound n a && valBound n b)
   | none => true) &&
  (o.props.map Prod.snd).all (valBound n) &&
  (o.nonEnum.map Prod.snd).all (valBound n)

/-- Heap well-formedness: descending prototype links and per-object
well-formedness. -/
def heapWF (H : Heap) : Bool :=
  protoLt H && H.all (objWF H.length)

/-- The structured errors the library throws (`new Error(...)` with a
message built by `interpolate` from `ERROR_MESSAGES`). -/
inductive JSErr where
  | undefinedArg : String → String → JSErr
  | notFunc : String → String → JSVal → String → JSErr
  | notNumber : String → String → String → JSErr
  | negativeArg : String → String → Int → JSErr
  | unimplemented : String → JSErr
  | extendedProp : String → String → String → JSErr
  | alreadyExtended : JSErr
deriving DecidableEq, Repr

/-- The message-template table from the source. -/
def ERROR_MESSAGES (k : String) : String :=
  if k == "undefined" then "\x7b0\x7d: Bad argument: parameter '\x7b1\x7d' was null or undefined."
  else if k == "notFunc" then "\x7b0\x7d: Bad argument: parameter '\x7b1\x7d' should be a function or the name of a function. Was '\x7b2\x7d' (type \x7b3\x7d)."
  else if k == "notNumber" then "\x7b0\x7d: Bad argument: parameter '\x7b1\x7d' should be a number. Was '\x7b2\x7d' (type \x7b3\x7d)."
  else if k == "negative" then "\x7b0\x7d: Bad argument: parameter '\x7b1\x7d' may not be negative, was '\x7b2\x7d'."
  else if k == "unimplemented" then "Interface property '\x7b0\x7d' is not implemented."
  else if k == "extendedProp" then "\x7b0\x7d: Already extended: prototype has property '\x7b1\x7d' (type \x7b2\x7d)."
  else if k == "alreadyExtended" then "extend: Already extended."
  else ""

/-- `String(v)` for the values that can reach `interpolate` (objects
stringify generically; `LAST_ARG` carries its own `toString`). -/
def jsToString : JSVal → String
  | JSVal.undef => "undefined"
  | JSVal.null => "null"
  | JSVal.bool b => if b then "true" else "false"
  | JSVal.num n => toString n
  | JSVal.str s => s
  | JSVal.ref _ => "[object Object]"
  | JSVal.lastArg => "LAST_ARG"

/-- Character-list prefix test. -/
def isPrefixCL : List Char → List Char → Bool
  | [], _ => true
  | _ :: _, [] => false
  | p :: ps, c :: cs => p == c && isPrefixCL ps cs

/-- Split a character list around the first occurrence of `pat`,
returning the part before the match and the part after it. -/
def splitFirst (pat : List Char) : List Char → Option (List Char × List Char)
  | [] => if pat.isEmpty then some ([], []) else none
  | c :: cs =>
    if isPrefixCL pat (c :: cs) then some ([], (c :: cs).drop pat.length)
    else
      match splitFirst pat cs with
      | some pp => some (c :: pp.1, pp.2)
      | none => none

/-- The `$`-substitution `String.prototype.replace` performs on its
replacement string when the pattern is a plain string (no capture
groups): `$$`, `$&`, the matched text, and the before/after portions.
A `$` followed by a non-special character leaves both literal (the
follower is consumed too, which is sound because it is not `$`). -/
def expandRep (pat pre post : List Char) : List Char → List Char
  | [] => []
  | c :: cs =>
    if c == '$' then
      match cs with
      | [] => ['$']
      | d :: ds =>
        if d == '$' then '$' :: expandRep pat pre post ds
        else if d == '&' then pat ++ expandRep pat pre post ds
        else if d == Char.ofNat 96 then pre ++ expandRep pat pre post ds
        else if d == Char.ofNat 39 then post ++ expandRep pat pre post ds
        else '$' :: d :: expandRep pat pre post ds
    else c :: expandRep pat pre post cs

/-- JS `s.replace(pat, rep)` with a string pattern: first occurrence
only, with `$`-substitution in the replacement. -/
def replaceFirstCL (s pat rep : List Char) : List Char :=
  match splitFirst pat s with
  | none => s
  | some pp => pp.1 ++ expandRep pat pp.1 pp.2 rep ++ pp.2

/-- String-level wrapper of `replaceFirstCL`. -/
def jsReplaceFirst (s pat rep : String) : String :=
  String.mk (replaceFirstCL s.data pat.data rep.data)

/-- The loop of `interpolate`: for argument `i` replace the first
occurrence of `{i}` with the stringified argument, a falsy argument
being replaced by the empty string (`arguments[i] || ""`). -/
def interpLoop : List JSVal → Nat → String → String
  | [], _, s => s
  | a :: rest, i, s =>
    interpLoop rest (i + 1)
      (jsReplaceFirst s ("\x7b" ++ toString i ++ "\x7d")
        (jsToString (if truthy a then a else JSVal.str "")))

/-- `interpolate(str, ...)` from the source: `null`/`undefined`
templates return `null`; a non-string template without extra arguments
is returned untouched (with arguments the first `replace` call would
throw, modelled as `none`). -/
def interpolate (template : JSVal) (args : List JSVal) : Option JSVal :=
  match template with
  | JSVal.null => some JSVal.null
  | JSVal.undef => some JSVal.null
  | JSVal.str s => some (JSVal.str (interpLoop args 0 s))
  | v => if args.isEmpty then some v else none

/-- Line 70 of the source: a string argument naming a callable property
of `object` resolves to that property. -/
def resolveF (H : Heap) (object f : JSVal) : JSVal :=
  match f with
  | JSVal.str s => if isCallable H (getPropV H object s) then getPropV H object s else f
  | _ => f

/-- Lines 72–75 of the source: default a nullish position to `0`,
resolve the `LAST_ARG` marker through `func["_applyLength"] ||
func.length` minus one, then apply the `isNaN` and negativity checks. -/
def resolveArgPos (H : Heap) (fv : JSVal) (fd : FuncData) (t : JSVal) : Except JSErr Nat :=
  if isNullish t then Except.ok 0
  else if jsStrictEq t LAST_ARG then
    match toNum (if truthy (getPropV H fv "_applyLength") then getPropV H fv "_applyLength"
                 else JSVal.num (Int.ofNat fd.length)) with
    | none => Except.error (JSErr.notNumber "unBindAt" "thisArgNumber" "number")
    | some m =>
      if m - 1 < 0 then Except.error (JSErr.negativeArg "unBindAt" "thisArgNumber" (m - 1))
      else Except.ok (m - 1).toNat
  else
    match toNum t with
    | none => Except.error (JSErr.notNumber "unBindAt" "thisArgNumber" (typeofName H t))
    | some m =>
      if m < 0 then Except.error (JSErr.negativeArg "unBindAt" "thisArgNumber" m)
      else Except.ok m.toNat

/-- `unBindAt(object, func, thisArgNumber)`: validation and closure
creation.  The returned `FuncData` is the delegate closure the source
builds on lines 77–81 (arity 0, as for any anonymous `function()`). -/
def unBindAt (H : Heap) (object f thisArg : JSVal) : Except JSErr FuncData :=
  if isNullish object then Except.error (JSErr.undefinedArg "unBindAt" "object")
  else if isNullish f then Except.error (JSErr.undefinedArg "unBindAt" "func")
  else
    match funcDataOf H (resolveF H object f) with
    | none =>
      Except.error (JSErr.notFunc "unBindAt" "func" (resolveF H object f)
        (typeofName H (resolveF H object f)))
    | some fd =>
      match resolveArgPos H (resolveF H object f) fd thisArg with
      | Except.error e => Except.error e
      | Except.ok k => Except.ok ⟨FuncBody.delegate object (resolveF H object f) k, 0, JSVal.undef⟩

/-- Function application: a native body applies the opaque behaviour
table; a delegate body splices its receiver into the argument list at
the captured position and applies the captured target with the captured
context object, consuming one unit of fuel. -/
def callFn (native : Nat → JSVal → List JSVal → JSVal) (H : Heap) :
    Nat → FuncData → JSVal → List JSVal → Option JSVal
  | fuel, fd, thisV, args =>
    match fd.body with
    | FuncBody.native c => some (native c thisV args)
    | FuncBody.delegate obj fv k =>
      match fuel with
      | 0 => none
      | fuel' + 1 =>
        match funcDataOf H fv with
        | some tfd => callFn native H fuel' tfd obj (args.take k ++ thisV :: args.drop k)
        | none => none

/-- Apply a function value (`v.apply(thisV, args)`). -/
def callVal (native : Nat → JSVal → List JSVal → JSVal) (H : Heap) (fuel : Nat)
    (f thisV : JSVal) (args : List JSVal) : Option JSVal :=
  match funcDataOf H f with
  | some fd => callFn native H fuel fd thisV args
  | none => none

/-- The heap object allocated for a delegate closure. -/
def funcObj (fd : FuncData) : JSObject := ⟨[], [], none, some fd⟩

/-- The `for..in` body of `bless` over the pre-computed key list:
properties that already resolve to non-null on the blessee are skipped;
callable benediction properties are wrapped by `unBindAt` (allocating
the closure), the rest are copied verbatim.  An error from `unBindAt`
propagates, leaving the mutations performed so far in place. -/
def blessLoop (bv nArg bl : JSVal) : List String → Heap → Heap × Option JSErr
  | [], H => (H, none)
  | p :: ps, H =>
    if isNullish (getPropV H bl p) then
      if isCallable H (getPropV H bv p) then
        match unBindAt H bv (JSVal.str p) nArg with
        | Except.error e => (H, some e)
        | Except.ok fd =>
          blessLoop bv nArg bl ps (setV (H ++ [funcObj fd]) bl p (JSVal.ref H.length))
      else blessLoop bv nArg bl ps (setV H bl p (getPropV H bv p))
    else blessLoop bv nArg bl ps H

/-- `bless(blessee, benediction, inWhichArg)` from the source. -/
def bless (H : Heap) (blessee benediction inWhichArg : JSVal) : Heap × Option JSErr :=
  if isNullish benediction then (H, some (JSErr.undefinedArg "bless" "benediction"))
  else if isNullish blessee then (H, some (JSErr.undefinedArg "bless" "blessee"))
  else
    blessLoop (objOrPrototype H benediction) inWhichArg (objOrPrototype H blessee)
      (enumKeysV H (objOrPrototype H benediction)) H

/-- The `for..in`/`hasOwnProperty` scan of `extend`: the first
enumerated key that is an own property of the prototype, with its
value. -/
def firstOwnEnum (H : Heap) (pv : JSVal) : Option (String × JSVal) :=
  match (enumKeysV H pv).find? (fun k => hasOwnV H pv k) with
  | some k => some (k, getPropV H pv k)
  | none => none

/-- The mutating tail of `extend` (lines 179–182 of the source), run
once every check has passed: `subclass["parent"] = superclass`, then the
prototype replacement by a fresh `new _Clazz()` object whose internal
prototype is `superclass.prototype`. -/
def extendBody (H : Heap) (sub sup : JSVal) : Heap :=
  let H1 := setV H sub "parent" sup
  let supProto := getPropV H1 sup "prototype"
  let pobj : JSObject :=
    ⟨[], [], (match supProto with | JSVal.ref p => some p | _ => none), none⟩
  setV (H1 ++ [pobj]) sub "prototype" (JSVal.ref H1.length)

/-- `extend(subclass, superclass)` from the source: argument checks, the
"not already extended" guard, then the structural mutation. -/
def extend (H : Heap) (sub sup : JSVal) : Heap × Option JSErr :=
  if isNullish sub then (H, some (JSErr.undefinedArg "extend" "subclass"))
  else if isNullish sup then (H, some (JSErr.undefinedArg "extend" "superclass"))
  else
    if truthy (getPropV H sub "prototype") &&
        jsStrictEq (getPropV H (getPropV H sub "prototype") "constructor") sub then
      match firstOwnEnum H (getPropV H sub "prototype") with
      | some kv => (H, some (JSErr.extendedProp "extend" kv.1 (typeofName H kv.2)))
      | none => (extendBody H sub sup, none)
    else (H, some JSErr.alreadyExtended)

/-- The inner `for..in` of `mixin` over one resolved ingredient: copy
each enumerated key that is not already an own property of the child. -/
def copyKeys (ing c : JSVal) : List String → Heap → Heap
  | [], H => H
  | k :: ks, H =>
    if hasOwnV H c k then copyKeys ing c ks H
    else copyKeys ing c ks (setV H c k (getPropV H ing k))

/-- The outer loop of `mixin` over the sources, left to right. -/
def mixinLoop (c : JSVal) : List JSVal → Heap → Heap
  | [], H => H
  | s :: ss, H =>
    mixinLoop c ss (copyKeys (objOrPrototype H s) c (enumKeysV H (objOrPrototype H s)) H)

/-- `mixin(child, ...)` from the source; returns the resolved child. -/
def mixin (H : Heap) (child : JSVal) (srcs : List JSVal) : Heap × Except JSErr JSVal :=
  if isNullish child then (H, Except.error (JSErr.undefinedArg "mixin" "child"))
  else (mixinLoop (objOrPrototype H child) srcs H, Except.ok (objOrPrototype H child))

/-- The `for..in` of `assertImplements`: fail on the first interface
property that resolves to null/undefined on the child. -/
def aiLoop (H : Heap) (child : JSVal) : List String → Except JSErr Unit
  | [] => Except.ok ()
  | p :: ps =>
    if isNullish (getPropV H child p) then Except.error (JSErr.unimplemented p)
    else aiLoop H child ps

/-- `assertImplements(child, interf)` from the source (only `interf` is
resolved through `objOrPrototype`). -/
def assertImplements (H : Heap) (child interf : JSVal) : Except JSErr Unit :=
  if isNullish child then Except.error (JSErr.undefinedArg "assertImplements" "child")
  else if isNullish interf then Except.error (JSErr.undefinedArg "assertImplements" "interf")
  else aiLoop H child (enumKeysV H (objOrPrototype H interf))

/-! ## Basic lemmas -/

/-- If every character of the replacement differs from `$`, the
`$`-substitution is the identity. -/
theorem expandRep_no_dollar (pat pre post : List Char) :
    ∀ rep : List Char, rep.all (fun c => c != '$') = true →
      expandRep pat pre post rep = rep := by
  intro rep
  induction rep with
  | nil => intro _; simp [expandRep]
  | cons c cs ih =>
    intro h
    simp only [List.all_cons, Bool.and_eq_true, bne_iff_ne] at h
    have hc : (c == '$') = false := by simp [h.1]
    cases cs with
    | nil => simp [expandRep, hc]
    | cons d ds =>
      simp only [expandRep, hc, Bool.false_eq_true, if_false]
      rw [ih h.2]

/-! ## C10 -/

/-- C10: whenever `extend` throws (null/undefined argument or the
`AlreadyExtended` family), it does so before performing any mutation, so
the heap — in particular the subclass's `parent` property and its
`prototype` — is exactly what it was before the call. -/
theorem extend_error_preserves_heap (H : Heap) (sub sup : JSVal) (H' : Heap) (e : JSErr)
    (h : extend H sub sup = (H', some e)) : H' = H := by
  unfold extend at h
  split at h
  · exact (Prod.mk.injEq _ _ _ _ ▸ h).1.symm
  · split at h
    · exact (Prod.mk.injEq _ _ _ _ ▸ h).1.symm
    · split at h
      · split at h
        · exact (Prod.mk.injEq _ _ _ _ ▸ h).1.symm
        · simp at h
      · exact (Prod.mk.injEq _ _ _ _ ▸ h).1.symm

/-- C10 witness: a concrete failing `extend` call leaves the (empty)
heap untouched. -/
theorem extend_error_preserves_heap_witness :
    (extend [] JSVal.null JSVal.null).1 = [] :=
  extend_error_preserves_heap [] JSVal.null JSVal.null
    (extend [] JSVal.null JSVal.null).1 (JSErr.undefinedArg "extend" "subclass") rfl

/-! ## C6 -/

/-- C6 counterexample: the claim says the empty string is substituted
exactly when the argument is null or undefined, and otherwise the
stringified argument (here `"0"`) is inserted.  The source computes
`(arguments[i] || "").toString()`, so the falsy number `0` is also
replaced by the empty string. -/
theorem interpolate_falsy_counterexample :
    interpolate (JSVal.str "\x7b0\x7d") [JSVal.num 0] = some (JSVal.str "") ∧
    interpolate (JSVal.str "\x7b0\x7d") [JSVal.num 0]
      ≠ some (JSVal.str (jsToString (JSVal.num 0))) := by
  exact ⟨by decide, by decide⟩

/-- C6 (amended): `interpolate` returns null on a null or undefined
template; taking arguments in index order it replaces only the first
occurrence of `\x7bi\x7d`, substituting the empty string exactly when
the argument is falsy (null, undefined, `0`, `false` or the empty
string) and the stringified argument otherwise (verbatim whenever it
contains no `$`, which `String.replace` treats specially); in particular
the claim's three examples hold. -/
theorem interpolate_spec :
    (∀ args : List JSVal, interpolate JSVal.null args = some JSVal.null) ∧
    (∀ args : List JSVal, interpolate JSVal.undef args = some JSVal.null) ∧
    (∀ v : JSVal, truthy v = false →
      interpolate (JSVal.str "\x7b0\x7d") [v] = some (JSVal.str "")) ∧
    (∀ v : JSVal, truthy v = true → (jsToString v).data.all (fun c => c != '$') = true →
      interpolate (JSVal.str "\x7b0\x7d") [v] = some (JSVal.str (jsToString v))) ∧
    interpolate (JSVal.str "\x7b0\x7d and \x7b1\x7d") [JSVal.str "x", JSVal.str "y"]
      = some (JSVal.str "x and y") ∧
    interpolate JSVal.null [] = some JSVal.null ∧
    interpolate (JSVal.str "\x7b0\x7d \x7b0\x7d") [JSVal.str "z"]
      = some (JSVal.str "z \x7b0\x7d") := by
  refine ⟨fun args => rfl, fun args => rfl, ?_, ?_, by decide, by decide, by decide⟩
  · intro v h
    simp only [interpolate, interpLoop, h, Bool.false_eq_true, if_false]
    decide
  · intro v h hd
    simp only [interpolate, interpLoop, h, if_true]
    unfold jsReplaceFirst replaceFirstCL
    rw [(by decide : ("\x7b" ++ toString (0 : Nat) ++ "\x7d" : String) = "\x7b0\x7d")]
    rw [(by decide : splitFirst "\x7b0\x7d".data "\x7b0\x7d".data = some ([], []))]
    show some (JSVal.str (String.mk
        ([] ++ expandRep "\x7b0\x7d".data [] [] (jsToString v).data ++ [])))
      = some (JSVal.str (jsToString v))
    rw [expandRep_no_dollar _ _ _ _ hd]
    simp

/-- C6 witness: the amended theorem applied to the truthy argument `5`
and to a null template with an argument. -/
theorem interpolate_spec_witness :
    truthy (JSVal.num 5) = true ∧
    interpolate (JSVal.str "\x7b0\x7d") [JSVal.num 5] = some (JSVal.str (jsToString (JSVal.num 5))) ∧
    interpolate JSVal.null [JSVal.str "x"] = some JSVal.null :=
  ⟨by decide, interpolate_spec.2.2.2.1 (JSVal.num 5) (by decide) (by decide),
    interpolate_spec.1 [JSVal.str "x"]⟩

/-! ## C7 -/

/-- The heap for the C7 counterexample: `ref 0` is a function of
declared arity 2 carrying an own `_applyLength` property with value `0`;
`ref 1` holds it under the name `"m"`. -/
def heapC7 : Heap :=
  [⟨[("_applyLength", JSVal.num 0)], [], none, some ⟨FuncBody.native 0, 2, JSVal.undef⟩⟩,
   ⟨[("m", JSVal.ref 0)], [], none, none⟩]

/-- C7 counterexample: `_applyLength` is present (with value `0`), so by
the claim the declared arity is `0` and `LAST_ARG` must behave like
position `0 - 1`, i.e. fail with the negativity error; the source
computes `func["_applyLength"] || func.length`, ignores the falsy
override, and succeeds at position `length - 1 = 1`. -/
theorem unBindAt_lastArg_counterexample :
    getPropV heapC7 (resolveF heapC7 (JSVal.ref 1) (JSVal.str "m")) "_applyLength"
      = JSVal.num 0 ∧
    unBindAt heapC7 (JSVal.ref 1) (JSVal.str "m") LAST_ARG
      = Except.ok ⟨FuncBody.delegate (JSVal.ref 1) (JSVal.ref 0) 1, 0, JSVal.undef⟩ ∧
    unBindAt heapC7 (JSVal.ref 1) (JSVal.str "m") (JSVal.num (0 - 1))
      = Except.error (JSErr.negativeArg "unBindAt" "thisArgNumber" (0 - 1)) := by
  exact ⟨by decide, by decide, by decide⟩

/-- `LAST_ARG` resolution at the position-checking level: when the
effective declared arity is `k` (a truthy numeric `_applyLength`, else
the function's `length`), the marker behaves exactly like the numeric
position `k - 1`. -/
theorem resolveArgPos_lastArg (H : Heap) (fv : JSVal) (fd : FuncData) (k : Int)
    (hk : (truthy (getPropV H fv "_applyLength") = true ∧
           toNum (getPropV H fv "_applyLength") = some k) ∨
          (truthy (getPropV H fv "_applyLength") = false ∧ k = Int.ofNat fd.length)) :
    resolveArgPos H fv fd LAST_ARG = resolveArgPos H fv fd (JSVal.num (k - 1)) := by
  have hr : resolveArgPos H fv fd (JSVal.num (k - 1)) =
      (if k - 1 < 0 then Except.error (JSErr.negativeArg "unBindAt" "thisArgNumber" (k - 1))
       else Except.ok (k - 1).toNat) := by
    unfold resolveArgPos
    rw [if_neg (by simp [isNullish]), if_neg (by simp [jsStrictEq, LAST_ARG])]
    rfl
  rw [hr]
  unfold resolveArgPos
  rw [if_neg (by decide), if_pos (by decide)]
  cases hk with
  | inl h => rw [if_pos h.1, h.2]
  | inr h =>
    rw [if_neg (by simp [h.1]), h.2]
    rfl

/-- C7 (amended): `unBindAt(obj, f, LAST_ARG)` behaves identically to
`unBindAt(obj, f, k - 1)` where the declared arity `k` is the function's
`_applyLength` attribute whenever that attribute is present *and truthy*
(so numeric and non-zero), and the function's natural declared-parameter
count otherwise — a present-but-falsy override is ignored. -/
theorem unBindAt_lastArg_spec (H : Heap) (o f : JSVal) (k : Int)
    (hk : (truthy (getPropV H (resolveF H o f) "_applyLength") = true ∧
           toNum (getPropV H (resolveF H o f) "_applyLength") = some k) ∨
          (truthy (getPropV H (resolveF H o f) "_applyLength") = false ∧
           (funcDataOf H (resolveF H o f)).map (fun fd => Int.ofNat fd.length) = some k)) :
    unBindAt H o f LAST_ARG = unBindAt H o f (JSVal.num (k - 1)) := by
  unfold unBindAt
  by_cases h1 : isNullish o = true
  · simp [h1]
  · simp only [h1, Bool.false_eq_true, if_false]
    by_cases h2 : isNullish f = true
    · simp [h2]
    · simp only [h2, Bool.false_eq_true, if_false]
      cases hfd : funcDataOf H (resolveF H o f) with
      | none => rfl
      | some fd =>
        have hr : resolveArgPos H (resolveF H o f) fd LAST_ARG
            = resolveArgPos H (resolveF H o f) fd (JSVal.num (k - 1)) := by
          apply resolveArgPos_lastArg
          cases hk with
          | inl h => exact Or.inl h
          | inr h =>
            refine Or.inr ⟨h.1, ?_⟩
            have h3 := h.2
            rw [hfd] at h3
            simpa using h3.symm
        simp only [hr]

/-- C7 witness: the amended theorem applied to a function of arity 2
with a truthy `_applyLength` of 3: `LAST_ARG` equals position 2. -/
def heapC7b : Heap :=
  [⟨[("_applyLength", JSVal.num 3)], [], none, some ⟨FuncBody.native 0, 2, JSVal.undef⟩⟩,
   ⟨[("m", JSVal.ref 0)], [], none, none⟩]

/-- C7 witness: concrete instance of the amended `LAST_ARG` law. -/
theorem unBindAt_lastArg_spec_witness :
    unBindAt heapC7b (JSVal.ref 1) (JSVal.str "m") LAST_ARG
      = unBindAt heapC7b (JSVal.ref 1) (JSVal.str "m") (JSVal.num (3 - 1)) ∧
    unBindAt heapC7b (JSVal.ref 1) (JSVal.str "m") LAST_ARG
      = Except.ok ⟨FuncBody.delegate (JSVal.ref 1) (JSVal.ref 0) 2, 0, JSVal.undef⟩ :=
  ⟨unBindAt_lastArg_spec heapC7b (JSVal.ref 1) (JSVal.str "m") 3 (Or.inl ⟨by decide, by decide⟩),
    by decide⟩

/-! ## C8 -/

/-- The `for..in` of `assertImplements` is a first-failure search. -/
theorem aiLoop_eq_find (H : Heap) (child : JSVal) :
    ∀ ks : List String, aiLoop H child ks =
      match ks.find? (fun p => isNullish (getPropV H child p)) with
      | some p => Except.error (JSErr.unimplemented p)
      | none => Except.ok () := by
  intro ks
  induction ks with
  | nil => rfl
  | cons p ps ih =>
    by_cases h : isNullish (getPropV H child p) = true
    · simp [aiLoop, List.find?_cons, h]
    · simp only [Bool.not_eq_true] at h
      simp [aiLoop, List.find?_cons, h, ih]

/-- C8: for non-null `child` and `interf`, `assertImplements` throws the
`UnimplementedMember` error naming the first enumerated property of the
resolved interface that resolves to null/undefined on `child` (stopping
there), and returns normally when every enumerated property resolves to
a non-null value. -/
theorem assertImplements_spec (H : Heap) (child interf : JSVal)
    (hc : isNullish child = false) (hi : isNullish interf = false) :
    assertImplements H child interf =
      match (enumKeysV H (objOrPrototype H interf)).find?
          (fun p => isNullish (getPropV H child p)) with
      | some p => Except.error (JSErr.unimplemented p)
      | none => Except.ok () := by
  unfold assertImplements
  rw [if_neg (by simp [hc]), if_neg (by simp [hi])]
  exact aiLoop_eq_find H child _

/-- The heap for the C8 witness: `ref 0` is an interface-like object
with an enumerable `foo`, `ref 1` an empty object. -/
def heapC8 : Heap := [⟨[("foo", JSVal.num 1)], [], none, none⟩, ⟨[], [], none, none⟩]

/-- C8 witness: the characterization applied to a child missing `foo`
(fails naming `"foo"`) and to a child providing it (succeeds). -/
theorem assertImplements_spec_witness :
    assertImplements heapC8 (JSVal.ref 1) (JSVal.ref 0)
      = Except.error (JSErr.unimplemented "foo") ∧
    assertImplements heapC8 (JSVal.ref 0) (JSVal.ref 0) = Except.ok () := by
  constructor
  · rw [assertImplements_spec heapC8 (JSVal.ref 1) (JSVal.ref 0) (by decide) (by decide)]
    decide
  · rw [assertImplements_spec heapC8 (JSVal.ref 0) (JSVal.ref 0) (by decide) (by decide)]
    decide

/-! ## C4 -/

/-- Three constructors `A = ref 0`, `B = ref 2`, `C = ref 4` with fresh
prototype objects whose non-enumerable `constructor` points back. -/
def heapC4 : Heap :=
  [⟨[], [], none, some ⟨FuncBody.native 0, 0, JSVal.ref 1⟩⟩,
   ⟨[], [("constructor", JSVal.ref 0)], none, none⟩,
   ⟨[], [], none, some ⟨FuncBody.native 1, 0, JSVal.ref 3⟩⟩,
   ⟨[], [("constructor", JSVal.ref 2)], none, none⟩,
   ⟨[], [], none, some ⟨FuncBody.native 2, 0, JSVal.ref 5⟩⟩,
   ⟨[], [("constructor", JSVal.ref 4)], none, none⟩]

/-- C4 counterexample: with non-null constructors `A = B = ref 0` and
`C = ref 4`, `extend(A, B)` succeeds, and the subsequent `extend(A, C)`
also succeeds instead of throwing `AlreadyExtended`: the fresh prototype
inherits `constructor === A` through `A`'s old prototype, so the guard
passes again. -/
theorem extend_twice_counterexample :
    (extend heapC4 (JSVal.ref 0) (JSVal.ref 0)).2 = none ∧
    (extend (extend heapC4 (JSVal.ref 0) (JSVal.ref 0)).1 (JSVal.ref 0) (JSVal.ref 4)).2
      = none := by
  exact ⟨by decide, by decide⟩

/-- C4 (amended): (a) after a successful `extend(A, B)`, a subsequent
`extend(A, C)` with non-null `C` throws the generic `AlreadyExtended`
error provided the constructor that `A`'s new prototype inherits is not
`A` itself (as with any ordinary `B ≠ A`); (b) `extend(sub, sup)` with
non-null arguments fails with `AlreadyExtended` whenever `sub`'s current
prototype is falsy or its `constructor` no longer points back to `sub`;
(c) when the guard passes but the prototype carries an own enumerable
property, the error names the first such property and the `typeof` of
its value. -/
theorem extend_already_extended :
    (∀ (H : Heap) (A B C : JSVal) (H' : Heap),
      extend H A B = (H', none) → isNullish C = false →
      jsStrictEq (getPropV H' (getPropV H' A "prototype") "constructor") A = false →
      extend H' A C = (H', some JSErr.alreadyExtended)) ∧
    (∀ (H : Heap) (A B : JSVal),
      isNullish A = false → isNullish B = false →
      (truthy (getPropV H A "prototype") = false ∨
        jsStrictEq (getPropV H (getPropV H A "prototype") "constructor") A = false) →
      extend H A B = (H, some JSErr.alreadyExtended)) ∧
    (∀ (H : Heap) (A B : JSVal) (pr : Nat) (po : JSObject) (k : String) (v : JSVal)
        (rest : List (String × JSVal)),
      isNullish A = false → isNullish B = false →
      getPropV H A "prototype" = JSVal.ref pr →
      jsStrictEq (getPropV H (JSVal.ref pr) "constructor") A = true →
      H[pr]? = some po → po.props = (k, v) :: rest →
      extend H A B = (H, some (JSErr.extendedProp "extend" k (typeofName H v)))) := by
  refine ⟨?_, ?_, ?_⟩
  · intro H A B C H' h hC hcons
    have hA : isNullish A = false := by
      by_contra hA'
      rw [Bool.not_eq_false] at hA'
      unfold extend at h
      rw [if_pos hA'] at h
      simp at h
    unfold extend
    rw [if_neg (by simp [hA]), if_neg (by simp [hC]), hcons]
    simp
  · intro H A B hA hB hbad
    unfold extend
    rw [if_neg (by simp [hA]), if_neg (by simp [hB])]
    cases hbad with
    | inl h => rw [h]; simp
    | inr h => rw [h]; simp
  · intro H A B pr po k v rest hA hB hproto hcons hget hprops
    have hown : getOwnV po k = some v := by
      unfold getOwnV
      rw [hprops]
      simp [List.find?_cons]
    have hkey : getPropV H (JSVal.ref pr) k = v := by
      simp [getPropV, getPropAux, hget, hown]
    have hfoe : firstOwnEnum H (JSVal.ref pr) = some (k, v) := by
      unfold firstOwnEnum
      have henum : ∃ tail, enumKeysV H (JSVal.ref pr) = k :: tail := by
        unfold enumKeysV
        rw [show H.length + 1 = Nat.succ H.length from rfl]
        simp only [enumKeysAux, hget, hprops]
        exact ⟨_, rfl⟩
      obtain ⟨tail, htail⟩ := henum
      rw [htail]
      have hho : hasOwnV H (JSVal.ref pr) k = true := by
        simp [hasOwnV, hget, hown]
      rw [List.find?_cons_of_pos _ hho]
      simp only [hkey]
    unfold extend
    rw [if_neg (by simp [hA]), if_neg (by simp [hB]), hproto, hcons]
    simp only [truthy, Bool.true_and, if_true, hfoe]

/-- The post-state of the first `extend` in the C4 witness. -/
def heapC4w : Heap := (extend heapC4 (JSVal.ref 0) (JSVal.ref 2)).1

/-- C4 witness: all three amended clauses at concrete inputs — a normal
double extension fails with the generic error, a broken constructor
back-link fails, and an own enumerable prototype property is reported
with its name and type. -/
theorem extend_already_extended_witness :
    extend heapC4w (JSVal.ref 0) (JSVal.ref 4) = (heapC4w, some JSErr.alreadyExtended) ∧
    extend heapC4 (JSVal.ref 1) (JSVal.ref 2) = (heapC4, some JSErr.alreadyExtended) ∧
    extend [⟨[], [], none, some ⟨FuncBody.native 0, 0, JSVal.ref 1⟩⟩,
            ⟨[("x", JSVal.num 5)], [("constructor", JSVal.ref 0)], none, none⟩]
        (JSVal.ref 0) (JSVal.ref 0)
      = ([⟨[], [], none, some ⟨FuncBody.native 0, 0, JSVal.ref 1⟩⟩,
          ⟨[("x", JSVal.num 5)], [("constructor", JSVal.ref 0)], none, none⟩],
         some (JSErr.extendedProp "extend" "x" "number")) :=
  ⟨extend_already_extended.1 heapC4 (JSVal.ref 0) (JSVal.ref 2) (JSVal.ref 4) heapC4w
      (by decide) (by decide) (by decide),
   extend_already_extended.2.1 heapC4 (JSVal.ref 1) (JSVal.ref 2) (by decide) (by decide)
      (Or.inl (by decide)),
   extend_already_extended.2.2
      [⟨[], [], none, some ⟨FuncBody.native 0, 0, JSVal.ref 1⟩⟩,
       ⟨[("x", JSVal.num 5)], [("constructor", JSVal.ref 0)], none, none⟩]
      (JSVal.ref 0) (JSVal.ref 0) 1
      ⟨[("x", JSVal.num 5)], [("constructor", JSVal.ref 0)], none, none⟩
      "x" (JSVal.num 5) [] (by decide) (by decide) (by decide) (by decide)
      (by decide) (by decide)⟩

/-! ## C1 -/

/-- A value `f` "names a callable" for `unBindAt`: it is a function
value, or a string naming a callable property of `object`. -/
theorem resolveF_callable (H : Heap) (o f : JSVal)
    (hf : isCallable H f = true ∨
      ∃ s, f = JSVal.str s ∧ isCallable H (getPropV H o s) = true) :
    isCallable H (resolveF H o f) = true := by
  cases hf with
  | inl h =>
    cases f with
    | str s => simp [isCallable, funcDataOf] at h
    | undef => exact h
    | null => exact h
    | bool b => exact h
    | num n => exact h
    | ref r => exact h
    | lastArg => exact h
  | inr h =>
    obtain ⟨s, rfl, hs⟩ := h
    show isCallable H
      (if isCallable H (getPropV H o s) = true then getPropV H o s else JSVal.str s) = true
    rw [if_pos hs]
    exact hs

/-- C1: for a non-null context object, a callable `func` (a function
value or a string naming a callable property of `object`) and a
non-negative numeric position `n`, `unBindAt` succeeds and returns the
delegate closure over `(object, resolved func, n)`; invoking that
delegate with any receiver `R` and any argument list `A` applies the
resolved function with invocation context `object` to `A` with `R`
inserted at index `n` (`A.take n ++ R :: A.drop n`): later arguments
shift right and pass through unchanged. -/
theorem unBindAt_delegate_correct (native : Nat → JSVal → List JSVal → JSVal)
    (H : Heap) (o f : JSVal) (n : Nat)
    (ho : isNullish o = false)
    (hf : isCallable H f = true ∨
      ∃ s, f = JSVal.str s ∧ isCallable H (getPropV H o s) = true)
    (R : JSVal) (A : List JSVal) (fuel : Nat) :
    unBindAt H o f (JSVal.num (Int.ofNat n))
      = Except.ok ⟨FuncBody.delegate o (resolveF H o f) n, 0, JSVal.undef⟩ ∧
    callFn native H (fuel + 1) ⟨FuncBody.delegate o (resolveF H o f) n, 0, JSVal.undef⟩ R A
      = callVal native H fuel (resolveF H o f) o (A.take n ++ R :: A.drop n) := by
  have hcall := resolveF_callable H o f hf
  rw [isCallable, Option.isSome_iff_exists] at hcall
  obtain ⟨fd, hfd⟩ := hcall
  have hfnn : isNullish f = false := by
    cases hf with
    | inl h =>
      cases f with
      | undef => simp [isCallable, funcDataOf] at h
      | null => simp [isCallable, funcDataOf] at h
      | bool b => rfl
      | num n => rfl
      | str s => rfl
      | ref r => rfl
      | lastArg => rfl
    | inr h => obtain ⟨s, rfl, _⟩ := h; rfl
  constructor
  · unfold unBindAt
    rw [if_neg (by simp [ho]), if_neg (by simp [hfnn]), hfd]
    have hpos : resolveArgPos H (resolveF H o f) fd (JSVal.num (Int.ofNat n))
        = Except.ok n := by
      unfold resolveArgPos
      rw [if_neg (by simp [isNullish]), if_neg (by simp [jsStrictEq, LAST_ARG])]
      simp only [toNum]
      have hnn : ¬ Int.ofNat n < 0 := Int.not_lt.mpr (Int.ofNat_zero_le n)
      have ht : (Int.ofNat n).toNat = n := rfl
      rw [if_neg hnn, ht]
    show (match resolveArgPos H (resolveF H o f) fd (JSVal.num (Int.ofNat n)) with
      | Except.error e => Except.error e
      | Except.ok k =>
        Except.ok (⟨FuncBody.delegate o (resolveF H o f) k, 0, JSVal.undef⟩ : FuncData))
      = Except.ok ⟨FuncBody.delegate o (resolveF H o f) n, 0, JSVal.undef⟩
    rw [hpos]
  · rfl

/-- The heap for the C1 witness: a binary native function held by an
object under the name `"m"`. -/
def heapC1 : Heap :=
  [⟨[], [], none, some ⟨FuncBody.native 0, 2, JSVal.undef⟩⟩,
   ⟨[("m", JSVal.ref 0)], [], none, none⟩]

/-- C1 witness: the delegate law applied at `n = 1` with receiver `"R"`
and arguments `["a", "b"]`. -/
theorem unBindAt_delegate_correct_witness :
    unBindAt heapC1 (JSVal.ref 1) (JSVal.str "m") (JSVal.num (Int.ofNat 1))
      = Except.ok ⟨FuncBody.delegate (JSVal.ref 1)
          (resolveF heapC1 (JSVal.ref 1) (JSVal.str "m")) 1, 0, JSVal.undef⟩ ∧
    callFn (fun _ th args => JSVal.str (jsToString th ++ String.join (args.map jsToString)))
        heapC1 2 ⟨FuncBody.delegate (JSVal.ref 1)
          (resolveF heapC1 (JSVal.ref 1) (JSVal.str "m")) 1, 0, JSVal.undef⟩
        (JSVal.str "R") [JSVal.str "a", JSVal.str "b"]
      = callVal (fun _ th args => JSVal.str (jsToString th ++ String.join (args.map jsToString)))
          heapC1 1 (resolveF heapC1 (JSVal.ref 1) (JSVal.str "m")) (JSVal.ref 1)
          ([JSVal.str "a", JSVal.str "b"].take 1 ++ JSVal.str "R"
            :: [JSVal.str "a", JSVal.str "b"].drop 1) :=
  unBindAt_delegate_correct
    (fun _ th args => JSVal.str (jsToString th ++ String.join (args.map jsToString)))
    heapC1 (JSVal.ref 1) (JSVal.str "m") 1 (by decide)
    (Or.inr ⟨"m", rfl, by decide⟩) (JSVal.str "R") [JSVal.str "a", JSVal.str "b"] 1

/-! ## Heap lemmas -/

/-- Own-property read of a value in a heap (used to state frame
properties of the mutating operations). -/
def ownOf (H : Heap) (v : JSVal) (k : String) : Option JSVal :=
  match v with
  | JSVal.ref r =>
    match H[r]? with
    | some o => getOwnV o k
    | none => none
  | _ => none

/-- Unfolding of `ownOf` at a reference. -/
theorem ownOf_ref (H : Heap) (r : Nat) (k : String) :
    ownOf H (JSVal.ref r) k =
      (match H[r]? with
       | some o => getOwnV o k
       | none => none) := rfl

/-- `find?` over an append when the first part misses. -/
theorem find?_append_none (l m : List (String × JSVal)) (p : String × JSVal → Bool)
    (h : l.find? p = none) : (l ++ m).find? p = m.find? p := by
  induction l with
  | nil => simp
  | cons a t ih =>
    by_cases ha : p a = true
    · rw [List.find?_cons_of_pos _ ha] at h
      exact absurd h (by simp)
    · rw [Bool.not_eq_true] at ha
      rw [List.find?_cons_of_neg _ (by simp [ha])] at h
      rw [List.cons_append, List.find?_cons_of_neg _ (by simp [ha])]
      exact ih h

/-- `find?` over an append when the first part hits. -/
theorem find?_append_some (l m : List (String × JSVal)) (p : String × JSVal → Bool)
    (x : String × JSVal) (h : l.find? p = some x) : (l ++ m).find? p = some x := by
  induction l with
  | nil => simp at h
  | cons a t ih =>
    by_cases ha : p a = true
    · rw [List.find?_cons_of_pos _ ha] at h
      rw [List.cons_append, List.find?_cons_of_pos _ ha]
      exact h
    · rw [Bool.not_eq_true] at ha
      rw [List.find?_cons_of_neg _ (by simp [ha])] at h
      rw [List.cons_append, List.find?_cons_of_neg _ (by simp [ha])]
      exact ih h

/-- Updating the entry at key `q` does not change the `find?` result at
a different key `k`. -/
theorem find?_key_map_set (l : List (String × JSVal)) (q k : String) (v : JSVal)
    (h : ¬ q = k) :
    (l.map (fun kv => if kv.1 == q then (q, v) else kv)).find? (fun kv => kv.1 == k)
      = l.find? (fun kv => kv.1 == k) := by
  induction l with
  | nil => rfl
  | cons kv t ih =>
    simp only [List.map_cons]
    by_cases hq : kv.1 = q
    · rw [if_pos (by simp [hq])]
      rw [List.find?_cons_of_neg _ (by simp [h]), List.find?_cons_of_neg _ (by simp [hq, h])]
      exact ih
    · rw [if_neg (by simp [hq])]
      by_cases hk : kv.1 = k
      · rw [List.find?_cons_of_pos _ (by simp [hk]), List.find?_cons_of_pos _ (by simp [hk])]
      · rw [List.find?_cons_of_neg _ (by simp [hk]), List.find?_cons_of_neg _ (by simp [hk])]
        exact ih

/-- Updating the entry at a present key makes `find?` return the new
entry. -/
theorem find?_key_map_set_self (l : List (String × JSVal)) (k : String) (v : JSVal)
    (h : (l.find? (fun kv => kv.1 == k)).isSome = true) :
    (l.map (fun kv => if kv.1 == k then (k, v) else kv)).find? (fun kv => kv.1 == k)
      = some (k, v) := by
  induction l with
  | nil => simp at h
  | cons kv t ih =>
    simp only [List.map_cons]
    by_cases hk : kv.1 = k
    · rw [if_pos (by simp [hk])]
      exact List.find?_cons_of_pos _ (by simp)
    · rw [if_neg (by simp [hk])]
      rw [List.find?_cons_of_neg _ (by simp [hk])]
      rw [List.find?_cons_of_neg _ (by simp [hk])] at h
      exact ih h

/-- Own lookup ignores a changed `prototype` slot at keys other than
`prototype`. -/
theorem getOwnV_protoProp_ne (o : JSObject) (fd : FuncData) (v : JSVal) (k : String)
    (hc : o.call = some fd) (hk : ¬ k = "prototype") :
    getOwnV ⟨o.props, o.nonEnum, o.proto, some ⟨fd.body, fd.length, v⟩⟩ k = getOwnV o k := by
  unfold getOwnV
  rw [hc]
  dsimp only
  cases o.props.find? (fun kv => kv.1 == k) with
  | some x => rfl
  | none =>
    cases o.nonEnum.find? (fun kv => kv.1 == k) with
    | some x => rfl
    | none =>
      dsimp only
      by_cases hkl : k = "length"
      · simp [hkl]
      · rw [if_neg (by simp [hkl]), if_neg (by simp [hk]),
          if_neg (by simp [hkl]), if_neg (by simp [hk])]

/-- Own lookup ignores an appended entry with a different key. -/
theorem getOwnV_append_ne (o : JSObject) (q k : String) (v : JSVal) (h : ¬ q = k)
    (c : Option FuncData) (hc : o.call = c) :
    getOwnV ⟨o.props ++ [(q, v)], o.nonEnum, o.proto, c⟩ k = getOwnV o k := by
  unfold getOwnV
  rw [hc]
  dsimp only
  cases hp : o.props.find? (fun kv => kv.1 == k) with
  | some x => rw [find?_append_some _ _ _ _ hp]
  | none =>
    rw [find?_append_none _ _ _ hp, List.find?_cons_of_neg _ (by simp [h]),
      List.find?_nil]

/-- Assignment at key `q` leaves the own property at `k ≠ q`
untouched. -/
theorem getOwnV_setObjProp_ne (o : JSObject) (q k : String) (v : JSVal) (h : ¬ q = k) :
    getOwnV (setObjProp o q v) k = getOwnV o k := by
  unfold setObjProp
  by_cases h1 : (o.props.find? (fun kv => kv.1 == q)).isSome = true
  · rw [if_pos h1]
    show getOwnV ⟨o.props.map (fun kv => if kv.1 == q then (q, v) else kv),
      o.nonEnum, o.proto, o.call⟩ k = getOwnV o k
    unfold getOwnV
    rw [find?_key_map_set o.props q k v h]
  · rw [if_neg h1]
    by_cases h2 : (o.nonEnum.find? (fun kv => kv.1 == q)).isSome = true
    · rw [if_pos h2]
      show getOwnV ⟨o.props,
        o.nonEnum.map (fun kv => if kv.1 == q then (q, v) else kv), o.proto, o.call⟩ k
        = getOwnV o k
      unfold getOwnV
      rw [find?_key_map_set o.nonEnum q k v h]
    · rw [if_neg h2]
      cases hc : o.call with
      | none => exact getOwnV_append_ne o q k v h none hc
      | some fd =>
        show getOwnV (if (q == "length") = true then o
          else if (q == "prototype") = true then
            ⟨o.props, o.nonEnum, o.proto, some ⟨fd.body, fd.length, v⟩⟩
          else ⟨o.props ++ [(q, v)], o.nonEnum, o.proto, some fd⟩) k = getOwnV o k
        by_cases hl : q = "length"
        · rw [if_pos (by simp [hl])]
        · rw [if_neg (by simp [hl])]
          by_cases hpr : q = "prototype"
          · rw [if_pos (by simp [hpr])]
            exact getOwnV_protoProp_ne o fd v k hc
              (fun hh => h (hpr.trans hh.symm))
          · rw [if_neg (by simp [hpr])]
            exact getOwnV_append_ne o q k v h (some fd) hc

/-- A write to an absent key lands in the appended enumerable slot and
becomes readable. -/
theorem getOwnV_setObjProp_fresh (o : JSObject) (k : String) (v : JSVal)
    (h : getOwnV o k = none) :
    getOwnV (setObjProp o k v) k = some v := by
  have hp : o.props.find? (fun kv => kv.1 == k) = none := by
    cases hp : o.props.find? (fun kv => kv.1 == k) with
    | none => rfl
    | some x =>
      unfold getOwnV at h
      rw [hp] at h
      simp at h
  have hn : o.nonEnum.find? (fun kv => kv.1 == k) = none := by
    cases hn : o.nonEnum.find? (fun kv => kv.1 == k) with
    | none => rfl
    | some x =>
      unfold getOwnV at h
      rw [hp, hn] at h
      simp at h
  unfold setObjProp
  rw [if_neg (by simp [hp]), if_neg (by simp [hn])]
  cases hc : o.call with
  | none =>
    show getOwnV ⟨o.props ++ [(k, v)], o.nonEnum, o.proto, none⟩ k = some v
    unfold getOwnV
    rw [find?_append_none _ _ _ hp, List.find?_cons_of_pos _ (by simp)]
  | some fd =>
    have hfacts : ¬ k = "length" ∧ ¬ k = "prototype" := by
      unfold getOwnV at h
      rw [hp, hn, hc] at h
      constructor
      · intro hh
        subst hh
        simp at h
      · intro hh
        subst hh
        simp at h
    show getOwnV (if (k == "length") = true then o
      else if (k == "prototype") = true then
        ⟨o.props, o.nonEnum, o.proto, some ⟨fd.body, fd.length, v⟩⟩
      else ⟨o.props ++ [(k, v)], o.nonEnum, o.proto, some fd⟩) k = some v
    rw [if_neg (by simp [hfacts.1]), if_neg (by simp [hfacts.2])]
    unfold getOwnV
    rw [find?_append_none _ _ _ hp, List.find?_cons_of_pos _ (by simp)]

/-- `setAt` preserves the heap's length. -/
theorem length_setAt (H : Heap) (c : Nat) (k : String) (v : JSVal) :
    (setAt H c k v).length = H.length := by
  unfold setAt
  cases H[c]? with
  | none => rfl
  | some o => exact List.length_set H c _

/-- `setAt` leaves other heap cells untouched. -/
theorem getElem?_setAt_ne (H : Heap) (c : Nat) (k : String) (v : JSVal) (r : Nat)
    (h : ¬ r = c) : (setAt H c k v)[r]? = H[r]? := by
  unfold setAt
  cases H[c]? with
  | none => rfl
  | some o => exact List.getElem?_set_ne (fun hh => h hh.symm)

/-- `setAt` updates the targeted cell. -/
theorem getElem?_setAt_self (H : Heap) (c : Nat) (k : String) (v : JSVal) (o : JSObject)
    (h : H[c]? = some o) :
    (setAt H c k v)[c]? = some (setObjProp o k v) := by
  unfold setAt
  rw [h]
  exact List.getElem?_set_self ((List.getElem?_eq_some_iff.mp h).1)

/-- An assignment at key `q` leaves every own property at `k ≠ q`
unchanged, at every reference. -/
theorem ownOf_setAt_ne (H : Heap) (c : Nat) (q k : String) (w : JSVal) (h : ¬ q = k)
    (r : Nat) : ownOf (setAt H c q w) (JSVal.ref r) k = ownOf H (JSVal.ref r) k := by
  by_cases hr : r = c
  · subst hr
    cases hco : H[r]? with
    | none => simp [ownOf_ref, setAt, hco]
    | some o =>
      rw [ownOf_ref, ownOf_ref, getElem?_setAt_self H r q w o hco, hco]
      exact getOwnV_setObjProp_ne o q k w h
  · rw [ownOf_ref, ownOf_ref, getElem?_setAt_ne H c q w r hr]

/-- `setV` version of `ownOf_setAt_ne`. -/
theorem ownOf_setV_ne (H : Heap) (c : JSVal) (q k : String) (w : JSVal) (h : ¬ q = k)
    (x : JSVal) : ownOf (setV H c q w) x k = ownOf H x k := by
  cases c with
  | ref rc =>
    cases x with
    | ref rx => exact ownOf_setAt_ne H rc q k w h rx
    | undef => rfl
    | null => rfl
    | bool b => rfl
    | num n => rfl
    | str s => rfl
    | lastArg => rfl
  | undef => rfl
  | null => rfl
  | bool b => rfl
  | num n => rfl
  | str s => rfl
  | lastArg => rfl

/-- `hasOwnProperty` agrees with the own-property read. -/
theorem hasOwnV_eq_isSome (H : Heap) (x : JSVal) (k : String) :
    hasOwnV H x k = (ownOf H x k).isSome := by
  cases x with
  | ref r =>
    show (match H[r]? with
      | some o => (getOwnV o k).isSome
      | none => false) =
      (match H[r]? with
       | some o => getOwnV o k
       | none => none).isSome
    cases H[r]? with
    | none => rfl
    | some o => rfl
  | undef => rfl
  | null => rfl
  | bool b => rfl
  | num n => rfl
  | str s => rfl
  | lastArg => rfl

/-! ## C5 -/

/-- The `mixin` copy loop never disturbs an own property the child
already has. -/
theorem copyKeys_own_preserved (ing c : JSVal) (k : String) (v : JSVal) :
    ∀ (ks : List String) (H : Heap), ownOf H c k = some v →
      ownOf (copyKeys ing c ks H) c k = some v := by
  intro ks
  induction ks with
  | nil => intro H h; exact h
  | cons q qs ih =>
    intro H h
    unfold copyKeys
    by_cases hq : hasOwnV H c q = true
    · rw [if_pos hq]
      exact ih H h
    · rw [if_neg hq]
      apply ih
      by_cases hqk : q = k
      · subst hqk
        rw [hasOwnV_eq_isSome, h] at hq
        simp at hq
      · rw [ownOf_setV_ne H c q k _ hqk c]
        exact h

/-- `mixinLoop` never disturbs an own property the child already has. -/
theorem mixinLoop_own_preserved (c : JSVal) (k : String) (v : JSVal) :
    ∀ (srcs : List JSVal) (H : Heap), ownOf H c k = some v →
      ownOf (mixinLoop c srcs H) c k = some v := by
  intro srcs
  induction srcs with
  | nil => intro H h; exact h
  | cons s ss ih =>
    intro H h
    unfold mixinLoop
    exact ih _ (copyKeys_own_preserved _ _ _ _ _ H h)

/-- Own-ness of a child key survives the copy loop. -/
theorem copyKeys_own_isSome (ing c : JSVal) (k : String) (ks : List String) (H : Heap)
    (h : (ownOf H c k).isSome = true) :
    (ownOf (copyKeys ing c ks H) c k).isSome = true := by
  obtain ⟨v, hv⟩ := Option.isSome_iff_exists.mp h
  rw [copyKeys_own_preserved ing c k v ks H hv]
  rfl

/-- Own-ness of a child key survives the whole mixin. -/
theorem mixinLoop_own_isSome (c : JSVal) (k : String) (srcs : List JSVal) (H : Heap)
    (h : (ownOf H c k).isSome = true) :
    (ownOf (mixinLoop c srcs H) c k).isSome = true := by
  obtain ⟨v, hv⟩ := Option.isSome_iff_exists.mp h
  rw [mixinLoop_own_preserved c k v srcs H hv]
  rfl

/-- After the copy loop over a key list, every listed key is an own
property of the (valid) child reference. -/
theorem copyKeys_covers (ing : JSVal) (rc : Nat) (k : String) :
    ∀ (ks : List String) (H : Heap), (H[rc]?).isSome = true → k ∈ ks →
      (ownOf (copyKeys ing (JSVal.ref rc) ks H) (JSVal.ref rc) k).isSome = true := by
  intro ks
  induction ks with
  | nil => intro H ho hk; simp at hk
  | cons q qs ih =>
    intro H ho hk
    obtain ⟨o, hoo⟩ := Option.isSome_iff_exists.mp ho
    unfold copyKeys
    by_cases hq : hasOwnV H (JSVal.ref rc) q = true
    · rw [if_pos hq]
      rcases List.mem_cons.mp hk with rfl | hk'
      · apply copyKeys_own_isSome
        rw [hasOwnV_eq_isSome] at hq
        exact hq
      · exact ih H ho hk'
    · rw [if_neg hq]
      have hset : (setV H (JSVal.ref rc) q (getPropV H ing q))[rc]?
          = some (setObjProp o q (getPropV H ing q)) :=
        getElem?_setAt_self H rc q _ o hoo
      rcases List.mem_cons.mp hk with rfl | hk'
      · have hnone : getOwnV o k = none := by
          rw [hasOwnV_eq_isSome, Bool.not_eq_true] at hq
          have hq2 : ownOf H (JSVal.ref rc) k = none := by
            cases hg : ownOf H (JSVal.ref rc) k with
            | none => rfl
            | some x => rw [hg] at hq; simp at hq
          rw [ownOf_ref, hoo] at hq2
          exact hq2
        apply copyKeys_own_isSome
        have : ownOf (setV H (JSVal.ref rc) k (getPropV H ing k)) (JSVal.ref rc) k
            = some (getPropV H ing k) := by
          rw [ownOf_ref, hset]
          exact getOwnV_setObjProp_fresh o k _ hnone
        rw [this]
        rfl
      · apply ih
        · rw [hset]
          rfl
        · exact hk'

/-- The heap of the claim's `mixin` example. -/
def heapC5 : Heap :=
  [⟨[], [], none, none⟩,
   ⟨[("a", JSVal.num 1)], [], none, none⟩,
   ⟨[("a", JSVal.num 2), ("b", JSVal.num 2)], [], none, none⟩]

/-! ## Prototype-chain lemmas -/

/-- Unfolding of one lookup step. -/
theorem getPropAux_succ (H : Heap) (f r : Nat) (k : String) :
    getPropAux H (f + 1) r k =
      (match H[r]? with
       | none => JSVal.undef
       | some o =>
         match getOwnV o k with
         | some v => v
         | none =>
           match o.proto with
           | some p => getPropAux H f p k
           | none => JSVal.undef) := rfl

/-- What `protoLtAux` checks, entry by entry. -/
theorem protoLtAux_spec (l : List JSObject) :
    ∀ (i : Nat), protoLtAux i l = true →
      ∀ (j : Nat) (o : JSObject), l[j]? = some o → ∀ p, o.proto = some p → p < i + j := by
  induction l with
  | nil =>
    intro i h j o hj p hp
    simp at hj
  | cons a t ih =>
    intro i h j o hj p hp
    rw [protoLtAux, Bool.and_eq_true] at h
    cases j with
    | zero =>
      have ha : a = o := by simpa using hj
      subst ha
      rw [hp] at h
      simpa using h.1
    | succ j' =>
      have := ih (i + 1) h.2 j' o (by simpa using hj) p hp
      omega

/-- In a well-formed heap, every prototype link strictly descends. -/
theorem protoLt_spec (H : Heap) (h : protoLt H = true) (r : Nat) (o : JSObject)
    (ho : H[r]? = some o) (p : Nat) (hp : o.proto = some p) : p < r := by
  have := protoLtAux_spec H 0 h r o ho p hp
  omega

/-- Chain lookup is insensitive to the fuel once it exceeds the start
reference (chains descend in a well-formed heap). -/
theorem getPropAux_fuel (H : Heap) (hwf : protoLt H = true) :
    ∀ (f r g : Nat) (k : String), r < f → r < g →
      getPropAux H f r k = getPropAux H g r k := by
  intro f
  induction f with
  | zero => intro r g k hf hg; exact absurd hf (Nat.not_lt_zero r)
  | succ f' ih =>
    intro r g k hf hg
    cases g with
    | zero => exact absurd hg (Nat.not_lt_zero r)
    | succ g' =>
      rw [getPropAux_succ, getPropAux_succ]
      cases ho : H[r]? with
      | none => rfl
      | some o =>
        show (match getOwnV o k with
          | some v => v
          | none =>
            match o.proto with
            | some p => getPropAux H f' p k
            | none => JSVal.undef)
          = (match getOwnV o k with
             | some v => v
             | none =>
               match o.proto with
               | some p => getPropAux H g' p k
               | none => JSVal.undef)
        cases getOwnV o k with
        | some v => rfl
        | none =>
          cases hp : o.proto with
          | none => rfl
          | some p =>
            have hpr : p < r := protoLt_spec H hwf r o ho p hp
            exact ih p g' k (by omega) (by omega)

/-- Chain lookup of an old reference ignores appended objects. -/
theorem getPropAux_append (H L : Heap) (hwf : protoLt H = true) :
    ∀ (f r : Nat) (k : String), r < H.length →
      getPropAux (H ++ L) f r k = getPropAux H f r k := by
  intro f
  induction f with
  | zero => intro r k hr; rfl
  | succ f' ih =>
    intro r k hr
    rw [getPropAux_succ, getPropAux_succ, List.getElem?_append_left hr]
    cases ho : H[r]? with
    | none => rfl
    | some o =>
      show (match getOwnV o k with
        | some v => v
        | none =>
          match o.proto with
          | some p => getPropAux (H ++ L) f' p k
          | none => JSVal.undef)
        = (match getOwnV o k with
           | some v => v
           | none =>
             match o.proto with
             | some p => getPropAux H f' p k
             | none => JSVal.undef)
      cases getOwnV o k with
      | some v => rfl
      | none =>
        cases hp : o.proto with
        | none => rfl
        | some p =>
          have hpr : p < r := protoLt_spec H hwf r o ho p hp
          exact ih p k (by omega)

/-- `setObjProp` never touches the internal prototype link. -/
theorem setObjProp_proto (o : JSObject) (q : String) (w : JSVal) :
    (setObjProp o q w).proto = o.proto := by
  unfold setObjProp
  repeat' split
  all_goals rfl

/-- A heap write at an absent cell is a no-op. -/
theorem setAt_none (H : Heap) (c : Nat) (k : String) (v : JSVal) (h : H[c]? = none) :
    setAt H c k v = H := by
  unfold setAt
  rw [h]

/-- Chain lookup at key `k` ignores a heap write at a different key
(at any cell of the heap). -/
theorem getPropAux_setAt_ne (H : Heap) (c : Nat) (q : String) (w : JSVal) (k : String)
    (hqk : ¬ q = k) :
    ∀ (f r : Nat), getPropAux (setAt H c q w) f r k = getPropAux H f r k := by
  intro f
  induction f with
  | zero => intro r; rfl
  | succ f' ih =>
    intro r
    rw [getPropAux_succ, getPropAux_succ]
    by_cases hr : r = c
    · subst hr
      cases ho : H[r]? with
      | none => rw [setAt_none H r q w ho, ho]
      | some o =>
        rw [getElem?_setAt_self H r q w o ho]
        show (match getOwnV (setObjProp o q w) k with
          | some v => v
          | none =>
            match (setObjProp o q w).proto with
            | some p => getPropAux (setAt H r q w) f' p k
            | none => JSVal.undef)
          = (match getOwnV o k with
             | some v => v
             | none =>
               match o.proto with
               | some p => getPropAux H f' p k
               | none => JSVal.undef)
        rw [getOwnV_setObjProp_ne o q k w hqk, setObjProp_proto]
        cases getOwnV o k with
        | some v => rfl
        | none =>
          cases o.proto with
          | none => rfl
          | some p => exact ih p
    · rw [getElem?_setAt_ne H c q w r hr]
      cases ho : H[r]? with
      | none => rfl
      | some o =>
        show (match getOwnV o k with
          | some v => v
          | none =>
            match o.proto with
            | some p => getPropAux (setAt H c q w) f' p k
            | none => JSVal.undef)
          = (match getOwnV o k with
             | some v => v
             | none =>
               match o.proto with
               | some p => getPropAux H f' p k
               | none => JSVal.undef)
        cases getOwnV o k with
        | some v => rfl
        | none =>
          cases o.proto with
          | none => rfl
          | some p => exact ih p

/-- Property read at key `k` ignores an assignment at a different key. -/
theorem getPropV_setV_ne (H : Heap) (c : JSVal) (q k : String) (w : JSVal)
    (hqk : ¬ q = k) (x : JSVal) :
    getPropV (setV H c q w) x k = getPropV H x k := by
  cases c with
  | ref rc =>
    cases x with
    | ref rx =>
      show getPropAux (setAt H rc q w) ((setAt H rc q w).length + 1) rx k
        = getPropAux H (H.length + 1) rx k
      rw [length_setAt]
      exact getPropAux_setAt_ne H rc q w k hqk (H.length + 1) rx
    | undef => rfl
    | null => rfl
    | bool b => rfl
    | num n => rfl
    | str s => rfl
    | lastArg => rfl
  | undef => rfl
  | null => rfl
  | bool b => rfl
  | num n => rfl
  | str s => rfl
  | lastArg => rfl

/-- `protoLtAux` only looks at prototype links, so a same-link update
preserves it. -/
theorem protoLtAux_set (l : List JSObject) :
    ∀ (i c : Nat) (o o' : JSObject), l[c]? = some o → o'.proto = o.proto →
      protoLtAux i (l.set c o') = protoLtAux i l := by
  induction l with
  | nil => intro i c o o' hc hp; rfl
  | cons a t ih =>
    intro i c o o' hc hp
    cases c with
    | zero =>
      have ha : a = o := by simpa using hc
      subst ha
      simp only [List.set, protoLtAux, hp]
    | succ c' =>
      simp only [List.set, protoLtAux]
      rw [ih (i + 1) c' o o' (by simpa using hc) hp]

/-- A heap write preserves the descending-prototype invariant. -/
theorem protoLt_setAt (H : Heap) (c : Nat) (q : String) (w : JSVal)
    (h : protoLt H = true) : protoLt (setAt H c q w) = true := by
  unfold setAt
  cases hc : H[c]? with
  | none => exact h
  | some o =>
    unfold protoLt
    rw [protoLtAux_set H 0 c o (setObjProp o q w) hc (setObjProp_proto o q w)]
    exact h

/-- `protoLtAux` over an append. -/
theorem protoLtAux_append (l₁ l₂ : List JSObject) :
    ∀ (i : Nat), protoLtAux i (l₁ ++ l₂)
      = (protoLtAux i l₁ && protoLtAux (i + l₁.length) l₂) := by
  induction l₁ with
  | nil => intro i; simp [protoLtAux]
  | cons a t ih =>
    intro i
    simp only [List.cons_append, protoLtAux, List.length_cons]
    rw [show protoLtAux (i + 1) (t.append l₂) = protoLtAux (i + 1) (t ++ l₂) from rfl]
    rw [ih (i + 1), Bool.and_assoc]
    have h2 : i + 1 + t.length = i + (t.length + 1) := by omega
    rw [h2]

/-- Allocating a delegate object (no prototype link) preserves the
invariant. -/
theorem protoLt_append_funcObj (H : Heap) (fd : FuncData) (h : protoLt H = true) :
    protoLt (H ++ [funcObj fd]) = true := by
  unfold protoLt
  rw [protoLtAux_append]
  unfold protoLt at h
  rw [h]
  rfl

/-- A non-null property read pins its reference inside the heap. -/
theorem getPropV_ref_bound (H : Heap) (rb : Nat) (k : String)
    (h : isNullish (getPropV H (JSVal.ref rb) k) = false) : rb < H.length := by
  by_contra hh
  have hnone : H[rb]? = none := List.getElem?_eq_none_iff.mpr (by omega)
  have : getPropV H (JSVal.ref rb) k = JSVal.undef := by
    show getPropAux H (H.length + 1) rb k = JSVal.undef
    rw [getPropAux_succ, hnone]
  rw [this] at h
  exact absurd h (by simp [isNullish])

/-- Property reads of old references ignore a delegate allocation
followed by an assignment at a different key. -/
theorem getPropV_alloc_setV_ne (H : Heap) (fd : FuncData) (c : JSVal) (q k : String)
    (w : JSVal) (hqk : ¬ q = k) (hwf : protoLt H = true) (rx : Nat) (hrx : rx < H.length) :
    getPropV (setV (H ++ [funcObj fd]) c q w) (JSVal.ref rx) k
      = getPropV H (JSVal.ref rx) k := by
  have happ : ∀ f, getPropAux (H ++ [funcObj fd]) f rx k = getPropAux H f rx k :=
    fun f => getPropAux_append H [funcObj fd] hwf f rx k hrx
  have hfuel : getPropAux H (H.length + 1 + 1) rx k = getPropAux H (H.length + 1) rx k :=
    getPropAux_fuel H hwf (H.length + 1 + 1) rx (H.length + 1) k (by omega) (by omega)
  cases c with
  | ref rc =>
    show getPropAux (setAt (H ++ [funcObj fd]) rc q w)
        ((setAt (H ++ [funcObj fd]) rc q w).length + 1) rx k
      = getPropAux H (H.length + 1) rx k
    rw [length_setAt, getPropAux_setAt_ne _ rc q w k hqk]
    rw [List.length_append]
    show getPropAux (H ++ [funcObj fd]) (H.length + 1 + 1) rx k
      = getPropAux H (H.length + 1) rx k
    rw [happ, hfuel]
  | undef =>
    show getPropAux (H ++ [funcObj fd]) ((H ++ [funcObj fd]).length + 1) rx k
      = getPropAux H (H.length + 1) rx k
    rw [List.length_append]
    show getPropAux (H ++ [funcObj fd]) (H.length + 1 + 1) rx k
      = getPropAux H (H.length + 1) rx k
    rw [happ, hfuel]
  | null =>
    rw [show setV (H ++ [funcObj fd]) JSVal.null q w = H ++ [funcObj fd] from rfl]
    show getPropAux (H ++ [funcObj fd]) ((H ++ [funcObj fd]).length + 1) rx k
      = getPropAux H (H.length + 1) rx k
    rw [List.length_append]
    show getPropAux (H ++ [funcObj fd]) (H.length + 1 + 1) rx k
      = getPropAux H (H.length + 1) rx k
    rw [happ, hfuel]
  | bool b =>
    show getPropAux (H ++ [funcObj fd]) ((H ++ [funcObj fd]).length + 1) rx k
      = getPropAux H (H.length + 1) rx k
    rw [List.length_append]
    show getPropAux (H ++ [funcObj fd]) (H.length + 1 + 1) rx k
      = getPropAux H (H.length + 1) rx k
    rw [happ, hfuel]
  | num n =>
    show getPropAux (H ++ [funcObj fd]) ((H ++ [funcObj fd]).length + 1) rx k
      = getPropAux H (H.length + 1) rx k
    rw [List.length_append]
    show getPropAux (H ++ [funcObj fd]) (H.length + 1 + 1) rx k
      = getPropAux H (H.length + 1) rx k
    rw [happ, hfuel]
  | str s =>
    show getPropAux (H ++ [funcObj fd]) ((H ++ [funcObj fd]).length + 1) rx k
      = getPropAux H (H.length + 1) rx k
    rw [List.length_append]
    show getPropAux (H ++ [funcObj fd]) (H.length + 1 + 1) rx k
      = getPropAux H (H.length + 1) rx k
    rw [happ, hfuel]
  | lastArg =>
    show getPropAux (H ++ [funcObj fd]) ((H ++ [funcObj fd]).length + 1) rx k
      = getPropAux H (H.length + 1) rx k
    rw [List.length_append]
    show getPropAux (H ++ [funcObj fd]) (H.length + 1 + 1) rx k
      = getPropAux H (H.length + 1) rx k
    rw [happ, hfuel]

/-- `setV` preserves the descending-prototype invariant. -/
theorem protoLt_setV (H : Heap) (c : JSVal) (q : String) (w : JSVal)
    (h : protoLt H = true) : protoLt (setV H c q w) = true := by
  cases c with
  | ref rc => exact protoLt_setAt H rc q w h
  | undef => exact h
  | null => exact h
  | bool b => exact h
  | num n => exact h
  | str s => exact h
  | lastArg => exact h

/-! ## C3 -/

/-- The `bless` loop never changes the resolution of a key that already
resolves to a non-null value on the blessee. -/
theorem blessLoop_preserves (bv nArg bl : JSVal) (k : String) :
    ∀ (ks : List String) (H H' : Heap) (e : Option JSErr),
      protoLt H = true →
      blessLoop bv nArg bl ks H = (H', e) →
      isNullish (getPropV H bl k) = false →
      getPropV H' bl k = getPropV H bl k := by
  intro ks
  induction ks with
  | nil =>
    intro H H' e hwf h hk
    unfold blessLoop at h
    cases h
    rfl
  | cons q qs ih =>
    intro H H' e hwf h hk
    unfold blessLoop at h
    by_cases hg : isNullish (getPropV H bl q) = true
    · rw [if_pos hg] at h
      have hqk : ¬ q = k := by
        intro hh
        subst hh
        rw [hg] at hk
        exact Bool.noConfusion hk
      by_cases hc : isCallable H (getPropV H bv q) = true
      · rw [if_pos hc] at h
        cases hub : unBindAt H bv (JSVal.str q) nArg with
        | error e2 =>
          rw [hub] at h
          cases h
          rfl
        | ok fd =>
          rw [hub] at h
          have hstep : getPropV (setV (H ++ [funcObj fd]) bl q (JSVal.ref H.length)) bl k
              = getPropV H bl k := by
            cases bl with
            | ref rb =>
              have hrb : rb < H.length := getPropV_ref_bound H rb k hk
              exact getPropV_alloc_setV_ne H fd (JSVal.ref rb) q k _ hqk hwf rb hrb
            | undef => rfl
            | null => rfl
            | bool b => rfl
            | num n => rfl
            | str s => rfl
            | lastArg => rfl
          have hwf1 : protoLt (setV (H ++ [funcObj fd]) bl q (JSVal.ref H.length)) = true :=
            protoLt_setV _ bl q _ (protoLt_append_funcObj H fd hwf)
          have hk1 : isNullish (getPropV
              (setV (H ++ [funcObj fd]) bl q (JSVal.ref H.length)) bl k) = false := by
            rw [hstep]
            exact hk
          rw [ih _ H' e hwf1 h hk1, hstep]
      · rw [if_neg hc] at h
        have hstep : getPropV (setV H bl q (getPropV H bv q)) bl k = getPropV H bl k :=
          getPropV_setV_ne H bl q k _ hqk bl
        have hwf1 : protoLt (setV H bl q (getPropV H bv q)) = true :=
          protoLt_setV H bl q _ hwf
        have hk1 : isNullish (getPropV (setV H bl q (getPropV H bv q)) bl k) = false := by
          rw [hstep]
          exact hk
        rw [ih _ H' e hwf1 h hk1, hstep]
    · rw [if_neg hg] at h
      exact ih H H' e hwf h hk

/-- C3: on a heap with descending prototype links, `bless` never
overwrites an existing property of the (resolved) blessee: whatever
`blessee[p]` resolved to before the call — own or merely inherited
through the blessee's prototype chain — provided it was not
null/undefined, it resolves to exactly the same value afterwards, even
when the call ends in an error. -/
theorem bless_preserves_existing (H : Heap) (blessee benediction inWhichArg : JSVal)
    (H' : Heap) (e : Option JSErr) (p : String)
    (hwf : protoLt H = true)
    (h : bless H blessee benediction inWhichArg = (H', e))
    (hp : isNullish (getPropV H (objOrPrototype H blessee) p) = false) :
    getPropV H' (objOrPrototype H blessee) p
      = getPropV H (objOrPrototype H blessee) p := by
  unfold bless at h
  by_cases h1 : isNullish benediction = true
  · rw [if_pos h1] at h
    cases h
    rfl
  · rw [if_neg h1] at h
    by_cases h2 : isNullish blessee = true
    · rw [if_pos h2] at h
      cases h
      rfl
    · rw [if_neg h2] at h
      exact blessLoop_preserves _ inWhichArg _ p _ H H' e hwf h hp

/-- The C3 witness heap: `ref 1` is the blessee, owning `dat` and
inheriting `inh` through its prototype `ref 0`; the benediction `ref 2`
offers conflicting values for both plus a fresh key. -/
def heapC3 : Heap :=
  [⟨[("inh", JSVal.num 7)], [], none, none⟩,
   ⟨[("dat", JSVal.num 5)], [], some 0, none⟩,
   ⟨[("dat", JSVal.num 9), ("inh", JSVal.num 8), ("x", JSVal.num 1)], [], none, none⟩]

/-- C3 witness: the preservation law at a concrete own property and at a
concrete merely-inherited property. -/
theorem bless_preserves_existing_witness :
    getPropV ((bless heapC3 (JSVal.ref 1) (JSVal.ref 2) JSVal.null).1)
        (objOrPrototype heapC3 (JSVal.ref 1)) "dat"
      = getPropV heapC3 (objOrPrototype heapC3 (JSVal.ref 1)) "dat" ∧
    getPropV ((bless heapC3 (JSVal.ref 1) (JSVal.ref 2) JSVal.null).1)
        (objOrPrototype heapC3 (JSVal.ref 1)) "inh"
      = getPropV heapC3 (objOrPrototype heapC3 (JSVal.ref 1)) "inh" ∧
    getPropV heapC3 (objOrPrototype heapC3 (JSVal.ref 1)) "inh" = JSVal.num 7 :=
  ⟨bless_preserves_existing heapC3 (JSVal.ref 1) (JSVal.ref 2) JSVal.null
      (bless heapC3 (JSVal.ref 1) (JSVal.ref 2) JSVal.null).1
      (bless heapC3 (JSVal.ref 1) (JSVal.ref 2) JSVal.null).2 "dat"
      (by decide) rfl (by decide),
   bless_preserves_existing heapC3 (JSVal.ref 1) (JSVal.ref 2) JSVal.null
      (bless heapC3 (JSVal.ref 1) (JSVal.ref 2) JSVal.null).1
      (bless heapC3 (JSVal.ref 1) (JSVal.ref 2) JSVal.null).2 "inh"
      (by decide) rfl (by decide),
   by decide⟩

/-! ## C2 -/

/-- Assignment preserves an object's callable shape (presence and
declared arity). -/
theorem setObjProp_call_shape (o : JSObject) (q : String) (w : JSVal) :
    (setObjProp o q w).call.isSome = o.call.isSome ∧
      ((setObjProp o q w).call.map FuncData.length = o.call.map FuncData.length) := by
  unfold setObjProp
  repeat' split
  all_goals simp_all

/-- Unfolding of `funcDataOf` at a reference. -/
theorem funcDataOf_ref (H : Heap) (r : Nat) :
    funcDataOf H (JSVal.ref r) =
      (match H[r]? with
       | some o => o.call
       | none => none) := rfl

/-- Assignment through a value preserves every reference's callable
shape. -/
theorem funcDataOf_setV_shape (H : Heap) (cv : JSVal) (q : String) (w : JSVal) (v : JSVal) :
    (funcDataOf (setV H cv q w) v).isSome = (funcDataOf H v).isSome ∧
      ((funcDataOf (setV H cv q w) v).map FuncData.length
        = (funcDataOf H v).map FuncData.length) := by
  cases cv with
  | ref rc =>
    cases v with
    | ref rv =>
      show (funcDataOf (setAt H rc q w) (JSVal.ref rv)).isSome
          = (funcDataOf H (JSVal.ref rv)).isSome ∧
        ((funcDataOf (setAt H rc q w) (JSVal.ref rv)).map FuncData.length
          = (funcDataOf H (JSVal.ref rv)).map FuncData.length)
      rw [funcDataOf_ref, funcDataOf_ref]
      by_cases hr : rv = rc
      · subst hr
        cases ho : H[rv]? with
        | none => rw [setAt_none H rv q w ho, ho]; exact ⟨rfl, rfl⟩
        | some o =>
          rw [getElem?_setAt_self H rv q w o ho]
          exact setObjProp_call_shape o q w
      · rw [getElem?_setAt_ne H rc q w rv hr]
        exact ⟨rfl, rfl⟩
    | undef => exact ⟨rfl, rfl⟩
    | null => exact ⟨rfl, rfl⟩
    | bool b => exact ⟨rfl, rfl⟩
    | num n => exact ⟨rfl, rfl⟩
    | str s => exact ⟨rfl, rfl⟩
    | lastArg => exact ⟨rfl, rfl⟩
  | undef => exact ⟨rfl, rfl⟩
  | null => exact ⟨rfl, rfl⟩
  | bool b => exact ⟨rfl, rfl⟩
  | num n => exact ⟨rfl, rfl⟩
  | str s => exact ⟨rfl, rfl⟩
  | lastArg => exact ⟨rfl, rfl⟩

/-- Delegate allocation plus assignment preserves the callable shape of
in-bounds references. -/
theorem funcDataOf_alloc_setV_shape (H : Heap) (fd : FuncData) (cv : JSVal) (q : String)
    (w : JSVal) (rv : Nat) (hrv : rv < H.length) :
    (funcDataOf (setV (H ++ [funcObj fd]) cv q w) (JSVal.ref rv)).isSome
      = (funcDataOf H (JSVal.ref rv)).isSome ∧
    ((funcDataOf (setV (H ++ [funcObj fd]) cv q w) (JSVal.ref rv)).map FuncData.length
      = (funcDataOf H (JSVal.ref rv)).map FuncData.length) := by
  have happ : funcDataOf (H ++ [funcObj fd]) (JSVal.ref rv) = funcDataOf H (JSVal.ref rv) := by
    rw [funcDataOf_ref, funcDataOf_ref, List.getElem?_append_left hrv]
  have h1 := funcDataOf_setV_shape (H ++ [funcObj fd]) cv q w (JSVal.ref rv)
  rw [happ] at h1
  exact h1

/-- `valBound` is monotone in the heap size. -/
theorem valBound_mono (m n : Nat) (h : m ≤ n) (v : JSVal) (hv : valBound m v = true) :
    valBound n v = true := by
  cases v with
  | ref r =>
    have hr : r < m := by simpa [valBound] using hv
    simp [valBound]
    omega
  | undef => rfl
  | null => rfl
  | bool b => rfl
  | num k => rfl
  | str s => rfl
  | lastArg => rfl

/-- `setV` preserves the heap's length. -/
theorem length_setV (H : Heap) (cv : JSVal) (q : String) (w : JSVal) :
    (setV H cv q w).length = H.length := by
  cases cv with
  | ref rc => exact length_setAt H rc q w
  | undef => rfl
  | null => rfl
  | bool b => rfl
  | num k => rfl
  | str s => rfl
  | lastArg => rfl

/-- A reference is never nullish. -/
theorem isNullish_ref (r : Nat) : isNullish (JSVal.ref r) = false := rfl

/-- Value-level form of `getPropV_alloc_setV_ne`: any in-bounds receiver. -/
theorem getPropV_alloc_setV_ne_val (H : Heap) (fd : FuncData) (cw : JSVal) (q k : String)
    (w : JSVal) (hqk : ¬ q = k) (hwf : protoLt H = true) (x : JSVal)
    (hx : valBound H.length x = true) :
    getPropV (setV (H ++ [funcObj fd]) cw q w) x k = getPropV H x k := by
  cases x with
  | ref rx =>
    have hrx : rx < H.length := by simpa [valBound] using hx
    exact getPropV_alloc_setV_ne H fd cw q k w hqk hwf rx hrx
  | undef => rfl
  | null => rfl
  | bool b => rfl
  | num n => rfl
  | str s => rfl
  | lastArg => rfl

/-- Value-level form of `funcDataOf_alloc_setV_shape`. -/
theorem funcDataOf_alloc_setV_shape_val (H : Heap) (fd : FuncData) (cw : JSVal) (q : String)
    (w : JSVal) (x : JSVal) (hx : valBound H.length x = true) :
    (funcDataOf (setV (H ++ [funcObj fd]) cw q w) x).isSome
      = (funcDataOf H x).isSome ∧
    ((funcDataOf (setV (H ++ [funcObj fd]) cw q w) x).map FuncData.length
      = (funcDataOf H x).map FuncData.length) := by
  cases x with
  | ref rx =>
    have hrx : rx < H.length := by simpa [valBound] using hx
    exact funcDataOf_alloc_setV_shape H fd cw q w rx hrx
  | undef => exact ⟨rfl, rfl⟩
  | null => exact ⟨rfl, rfl⟩
  | bool b => exact ⟨rfl, rfl⟩
  | num n => exact ⟨rfl, rfl⟩
  | str s => exact ⟨rfl, rfl⟩
  | lastArg => exact ⟨rfl, rfl⟩

/-- A write at a key whose own slot is absent or holds a nullish value
becomes the new own value: this is every write `bless` performs. -/
theorem getOwnV_setObjProp_write (o : JSObject) (p : String) (v : JSVal)
    (hn : ∀ w, getOwnV o p = some w → isNullish w = true) :
    getOwnV (setObjProp o p v) p = some v := by
  cases hw : getOwnV o p with
  | none => exact getOwnV_setObjProp_fresh o p v hw
  | some w =>
    have hwn : isNullish w = true := hn w hw
    unfold setObjProp
    by_cases h1 : (o.props.find? (fun kv => kv.1 == p)).isSome = true
    · rw [if_pos h1]
      show getOwnV ⟨o.props.map (fun kv => if kv.1 == p then (p, v) else kv),
        o.nonEnum, o.proto, o.call⟩ p = some v
      unfold getOwnV
      rw [find?_key_map_set_self o.props p v h1]
    · rw [if_neg h1]
      have hp0 : o.props.find? (fun kv => kv.1 == p) = none := by
        cases hp : o.props.find? (fun kv => kv.1 == p) with
        | none => rfl
        | some x => rw [hp] at h1; simp at h1
      by_cases h2 : (o.nonEnum.find? (fun kv => kv.1 == p)).isSome = true
      · rw [if_pos h2]
        show getOwnV ⟨o.props,
          o.nonEnum.map (fun kv => if kv.1 == p then (p, v) else kv), o.proto, o.call⟩ p
          = some v
        unfold getOwnV
        rw [hp0, find?_key_map_set_self o.nonEnum p v h2]
      · rw [if_neg h2]
        have hn0 : o.nonEnum.find? (fun kv => kv.1 == p) = none := by
          cases hh : o.nonEnum.find? (fun kv => kv.1 == p) with
          | none => rfl
          | some x => rw [hh] at h2; simp at h2
        unfold getOwnV at hw
        rw [hp0, hn0] at hw
        cases hc : o.call with
        | none =>
          rw [hc] at hw
          have hw2 : (none : Option JSVal) = some w := hw
          exact absurd hw2 (by simp)
        | some fd =>
          rw [hc] at hw
          have hw2 : (if (p == "length") = true then some (JSVal.num (Int.ofNat fd.length))
              else if (p == "prototype") = true then some fd.protoProp
              else none) = some w := hw
          show getOwnV (if (p == "length") = true then o
            else if (p == "prototype") = true then
              ⟨o.props, o.nonEnum, o.proto, some ⟨fd.body, fd.length, v⟩⟩
            else ⟨o.props ++ [(p, v)], o.nonEnum, o.proto, some fd⟩) p = some v
          by_cases hl : p = "length"
          · exfalso
            subst hl
            rw [if_pos (by simp)] at hw2
            cases hw2
            simp [isNullish] at hwn
          · rw [if_neg (by simp [hl])]
            rw [if_neg (by simp [hl])] at hw2
            by_cases hpr : p = "prototype"
            · subst hpr
              rw [if_pos (by simp)]
              unfold getOwnV
              rw [hp0, hn0]
              rfl
            · rw [if_neg (by simp [hpr])] at hw2
              exact absurd hw2 (by simp)

/-- When a property resolves to a nullish value, the own slot (if any)
at that key is itself nullish. -/
theorem ownNullish_of_propNullish (H : Heap) (c : Nat) (p : String) (o : JSObject)
    (ho : H[c]? = some o)
    (hnull : isNullish (getPropV H (JSVal.ref c) p) = true) :
    ∀ w, getOwnV o p = some w → isNullish w = true := by
  intro w hw
  have hv : getPropV H (JSVal.ref c) p = w := by
    show getPropAux H (H.length + 1) c p = w
    rw [getPropAux_succ, ho]
    show (match getOwnV o p with
      | some x => x
      | none =>
        match o.proto with
        | some pp => getPropAux H H.length pp p
        | none => JSVal.undef) = w
    rw [hw]
  rw [hv] at hnull
  exact hnull

/-- A `bless`-style write (own slot absent or nullish) becomes the value
the property resolves to. -/
theorem getPropV_setAt_write (H : Heap) (c : Nat) (p : String) (v : JSVal) (o : JSObject)
    (ho : H[c]? = some o)
    (hn : ∀ w, getOwnV o p = some w → isNullish w = true) :
    getPropV (setAt H c p v) (JSVal.ref c) p = v := by
  show getPropAux (setAt H c p v) ((setAt H c p v).length + 1) c p = v
  rw [getPropAux_succ, getElem?_setAt_self H c p v o ho]
  show (match getOwnV (setObjProp o p v) p with
    | some x => x
    | none =>
      match (setObjProp o p v).proto with
      | some pp => getPropAux (setAt H c p v) (setAt H c p v).length pp p
      | none => JSVal.undef) = v
  rw [getOwnV_setObjProp_write o p v hn]

/-- Position resolution transports along heaps that agree on the
declared arity and (when `LAST_ARG` is used) on `_applyLength`. -/
theorem resolveArgPos_ok_back (H₁ H : Heap) (rv : JSVal) (fd₁ fd₀ : FuncData) (t : JSVal)
    (k : Nat)
    (hlen : fd₁.length = fd₀.length)
    (hap : jsStrictEq t LAST_ARG = true →
      getPropV H₁ rv "_applyLength" = getPropV H rv "_applyLength")
    (h : resolveArgPos H₁ rv fd₁ t = Except.ok k) :
    resolveArgPos H rv fd₀ t = Except.ok k := by
  unfold resolveArgPos at h ⊢
  by_cases h0 : isNullish t = true
  · rw [if_pos h0] at h ⊢
    exact h
  · rw [if_neg h0] at h ⊢
    by_cases hL : jsStrictEq t LAST_ARG = true
    · rw [if_pos hL] at h ⊢
      rw [hap hL, hlen] at h
      exact h
    · rw [if_neg hL] at h ⊢
      cases ht : toNum t with
      | none =>
        rw [ht] at h
        exact Except.noConfusion h
      | some m =>
        rw [ht] at h
        exact h

/-- A successful `unBindAt` transports back from a stepped heap to the
original one, given stability of everything the source reads: the
resolved function value, its callability, its declared arity, and (for
`LAST_ARG` only) its `_applyLength` attribute. -/
theorem unBindAt_ok_back (H₁ H : Heap) (bv : JSVal) (p : String) (t : JSVal) (fd : FuncData)
    (h1 : getPropV H₁ bv p = getPropV H bv p)
    (h2 : isCallable H₁ (getPropV H bv p) = isCallable H (getPropV H bv p))
    (h3 : (funcDataOf H₁ (resolveF H bv (JSVal.str p))).isSome
        = (funcDataOf H (resolveF H bv (JSVal.str p))).isSome)
    (h4 : (funcDataOf H₁ (resolveF H bv (JSVal.str p))).map FuncData.length
        = (funcDataOf H (resolveF H bv (JSVal.str p))).map FuncData.length)
    (h5 : jsStrictEq t LAST_ARG = true →
        getPropV H₁ (resolveF H bv (JSVal.str p)) "_applyLength"
          = getPropV H (resolveF H bv (JSVal.str p)) "_applyLength")
    (h : unBindAt H₁ bv (JSVal.str p) t = Except.ok fd) :
    unBindAt H bv (JSVal.str p) t = Except.ok fd := by
  have hres : resolveF H₁ bv (JSVal.str p) = resolveF H bv (JSVal.str p) := by
    show (if isCallable H₁ (getPropV H₁ bv p) then getPropV H₁ bv p else JSVal.str p)
      = (if isCallable H (getPropV H bv p) then getPropV H bv p else JSVal.str p)
    rw [h1, h2]
  unfold unBindAt at h ⊢
  by_cases hb : isNullish bv = true
  · rw [if_pos hb] at h
    exact Except.noConfusion h
  · rw [if_neg hb] at h ⊢
    rw [if_neg (by simp [isNullish] : ¬ isNullish (JSVal.str p) = true)] at h ⊢
    rw [hres] at h
    cases hfd : funcDataOf H (resolveF H bv (JSVal.str p)) with
    | none =>
      rw [hfd] at h3
      have hnone : funcDataOf H₁ (resolveF H bv (JSVal.str p)) = none := by
        cases hx : funcDataOf H₁ (resolveF H bv (JSVal.str p)) with
        | none => rfl
        | some fd₁ => rw [hx] at h3; simp at h3
      rw [hnone] at h
      exact Except.noConfusion h
    | some fd₀ =>
      rw [hfd] at h4
      cases hx : funcDataOf H₁ (resolveF H bv (JSVal.str p)) with
      | none =>
        rw [hfd] at h3
        rw [hx] at h3
        simp at h3
      | some fd₁ =>
        rw [hx] at h h4
        have hlen : fd₁.length = fd₀.length := by simpa using h4
        have h6 : (match resolveArgPos H₁ (resolveF H bv (JSVal.str p)) fd₁ t with
            | Except.error e => Except.error e
            | Except.ok k =>
              Except.ok (⟨FuncBody.delegate bv (resolveF H bv (JSVal.str p)) k, 0,
                JSVal.undef⟩ : FuncData)) = Except.ok fd := h
        show (match resolveArgPos H (resolveF H bv (JSVal.str p)) fd₀ t with
          | Except.error e => Except.error e
          | Except.ok k =>
            Except.ok (⟨FuncBody.delegate bv (resolveF H bv (JSVal.str p)) k, 0,
              JSVal.undef⟩ : FuncData)) = Except.ok fd
        cases hra : resolveArgPos H₁ (resolveF H bv (JSVal.str p)) fd₁ t with
        | error e =>
          rw [hra] at h6
          exact Except.noConfusion h6
        | ok k =>
          rw [hra] at h6
          rw [resolveArgPos_ok_back H₁ H (resolveF H bv (JSVal.str p)) fd₁ fd₀ t k hlen h5 hra]
          exact h6

/-- When every key already resolves non-null on the blessee, the
`bless` loop does nothing at all. -/
theorem blessLoop_skips (bv nArg bl : JSVal) :
    ∀ (ks : List String) (H : Heap),
      (∀ p ∈ ks, isNullish (getPropV H bl p) = false) →
      blessLoop bv nArg bl ks H = (H, none) := by
  intro ks
  induction ks with
  | nil => intro H _; rfl
  | cons q qs ih =>
    intro H hall
    unfold blessLoop
    rw [if_neg (by simp [hall q (List.mem_cons_self q qs)])]
    exact ih H (fun p hp => hall p (List.mem_cons_of_mem q hp))

/-- The `bless` loop leaves the blessee's resolution at any key it never
writes unchanged. -/
theorem blessLoop_frame_key (bv nArg : JSVal) (c : Nat) (p : String) :
    ∀ (ks : List String) (H H' : Heap) (e : Option JSErr),
      protoLt H = true → c < H.length →
      (∀ q ∈ ks, ¬ q = p) →
      blessLoop bv nArg (JSVal.ref c) ks H = (H', e) →
      getPropV H' (JSVal.ref c) p = getPropV H (JSVal.ref c) p := by
  intro ks
  induction ks with
  | nil =>
    intro H H' e _ _ _ h
    unfold blessLoop at h
    cases h
    rfl
  | cons q qs ih =>
    intro H H' e hwf hc hkp h
    unfold blessLoop at h
    have hqp : ¬ q = p := hkp q (List.mem_cons_self q qs)
    have hkp2 : ∀ x ∈ qs, ¬ x = p := fun x hx => hkp x (List.mem_cons_of_mem q hx)
    by_cases hg : isNullish (getPropV H (JSVal.ref c) q) = true
    · rw [if_pos hg] at h
      by_cases hcb : isCallable H (getPropV H bv q) = true
      · rw [if_pos hcb] at h
        cases hub : unBindAt H bv (JSVal.str q) nArg with
        | error e2 =>
          rw [hub] at h
          cases h
          rfl
        | ok fd =>
          rw [hub] at h
          have hstep : getPropV (setV (H ++ [funcObj fd]) (JSVal.ref c) q (JSVal.ref H.length))
              (JSVal.ref c) p = getPropV H (JSVal.ref c) p :=
            getPropV_alloc_setV_ne H fd (JSVal.ref c) q p (JSVal.ref H.length) hqp hwf c hc
          have hwf1 : protoLt (setV (H ++ [funcObj fd]) (JSVal.ref c) q
              (JSVal.ref H.length)) = true :=
            protoLt_setV _ _ q _ (protoLt_append_funcObj H fd hwf)
          have hc1 : c < (setV (H ++ [funcObj fd]) (JSVal.ref c) q
              (JSVal.ref H.length)).length := by
            rw [length_setV, List.length_append]
            simp
            omega
          rw [ih _ H' e hwf1 hc1 hkp2 h, hstep]
      · rw [if_neg hcb] at h
        have hstep : getPropV (setV H (JSVal.ref c) q (getPropV H bv q)) (JSVal.ref c) p
            = getPropV H (JSVal.ref c) p :=
          getPropV_setV_ne H (JSVal.ref c) q p (getPropV H bv q) hqp (JSVal.ref c)
        have hwf1 : protoLt (setV H (JSVal.ref c) q (getPropV H bv q)) = true :=
          protoLt_setV H (JSVal.ref c) q (getPropV H bv q) hwf
        have hc1 : c < (setV H (JSVal.ref c) q (getPropV H bv q)).length := by
          rw [length_setV]
          exact hc
        rw [ih _ H' e hwf1 hc1 hkp2 h, hstep]
    · rw [if_neg hg] at h
      exact ih H H' e hwf hc hkp2 h

/-- The `bless` loop leaves every pre-existing heap cell other than the
blessee's own cell untouched. -/
theorem blessLoop_get_frame (bv nArg : JSVal) (c : Nat) (r : Nat) (hrc : ¬ r = c) :
    ∀ (ks : List String) (H H' : Heap) (e : Option JSErr),
      r < H.length →
      blessLoop bv nArg (JSVal.ref c) ks H = (H', e) →
      H'[r]? = H[r]? := by
  intro ks
  induction ks with
  | nil =>
    intro H H' e _ h
    unfold blessLoop at h
    cases h
    rfl
  | cons q qs ih =>
    intro H H' e hr h
    unfold blessLoop at h
    by_cases hg : isNullish (getPropV H (JSVal.ref c) q) = true
    · rw [if_pos hg] at h
      by_cases hcb : isCallable H (getPropV H bv q) = true
      · rw [if_pos hcb] at h
        cases hub : unBindAt H bv (JSVal.str q) nArg with
        | error e2 =>
          rw [hub] at h
          cases h
          rfl
        | ok fd =>
          rw [hub] at h
          have hstep : (setV (H ++ [funcObj fd]) (JSVal.ref c) q (JSVal.ref H.length))[r]?
              = H[r]? := by
            show (setAt (H ++ [funcObj fd]) c q (JSVal.ref H.length))[r]? = H[r]?
            rw [getElem?_setAt_ne _ c q _ r hrc]
            exact List.getElem?_append_left hr
          have hr1 : r < (setV (H ++ [funcObj fd]) (JSVal.ref c) q
              (JSVal.ref H.length)).length := by
            rw [length_setV, List.length_append]
            simp
            omega
          rw [ih _ H' e hr1 h, hstep]
      · rw [if_neg hcb] at h
        have hstep : (setV H (JSVal.ref c) q (getPropV H bv q))[r]? = H[r]? := by
          show (setAt H c q (getPropV H bv q))[r]? = H[r]?
          exact getElem?_setAt_ne H c q _ r hrc
        have hr1 : r < (setV H (JSVal.ref c) q (getPropV H bv q)).length := by
          rw [length_setV]
          exact hr
        rw [ih _ H' e hr1 h, hstep]
    · rw [if_neg hg] at h
      exact ih H H' e hr h

/-- The `bless` loop can only grow the heap. -/
theorem blessLoop_length_mono (bv nArg bl : JSVal) :
    ∀ (ks : List String) (H H' : Heap) (e : Option JSErr),
      blessLoop bv nArg bl ks H = (H', e) → H.length ≤ H'.length := by
  intro ks
  induction ks with
  | nil =>
    intro H H' e h
    unfold blessLoop at h
    cases h
    exact Nat.le_refl _
  | cons q qs ih =>
    intro H H' e h
    unfold blessLoop at h
    by_cases hg : isNullish (getPropV H bl q) = true
    · rw [if_pos hg] at h
      by_cases hcb : isCallable H (getPropV H bv q) = true
      · rw [if_pos hcb] at h
        cases hub : unBindAt H bv (JSVal.str q) nArg with
        | error e2 =>
          rw [hub] at h
          cases h
          exact Nat.le_refl _
        | ok fd =>
          rw [hub] at h
          have := ih _ H' e h
          rw [length_setV, List.length_append] at this
          omega
      · rw [if_neg hcb] at h
        have := ih _ H' e h
        rw [length_setV] at this
        omega
    · rw [if_neg hg] at h
      exact ih H H' e h

/-- The `bless` loop preserves the descending-prototype invariant. -/
theorem blessLoop_protoLt (bv nArg bl : JSVal) :
    ∀ (ks : List String) (H H' : Heap) (e : Option JSErr),
      protoLt H = true →
      blessLoop bv nArg bl ks H = (H', e) → protoLt H' = true := by
  intro ks
  induction ks with
  | nil =>
    intro H H' e hwf h
    unfold blessLoop at h
    cases h
    exact hwf
  | cons q qs ih =>
    intro H H' e hwf h
    unfold blessLoop at h
    by_cases hg : isNullish (getPropV H bl q) = true
    · rw [if_pos hg] at h
      by_cases hcb : isCallable H (getPropV H bv q) = true
      · rw [if_pos hcb] at h
        cases hub : unBindAt H bv (JSVal.str q) nArg with
        | error e2 =>
          rw [hub] at h
          cases h
          exact hwf
        | ok fd =>
          rw [hub] at h
          exact ih _ H' e (protoLt_setV _ bl q _ (protoLt_append_funcObj H fd hwf)) h
      · rw [if_neg hcb] at h
        exact ih _ H' e (protoLt_setV H bl q _ hwf) h
    · rw [if_neg hg] at h
      exact ih H H' e hwf h

/-- A plain (non-callable) blessee stays plain through the `bless`
loop. -/
theorem blessLoop_callNone (bv nArg : JSVal) (c : Nat) :
    ∀ (ks : List String) (H H' : Heap) (e : Option JSErr) (o : JSObject),
      H[c]? = some o → o.call = none →
      blessLoop bv nArg (JSVal.ref c) ks H = (H', e) →
      ∃ o2, H'[c]? = some o2 ∧ o2.call = none := by
  intro ks
  induction ks with
  | nil =>
    intro H H' e o ho hcall h
    unfold blessLoop at h
    cases h
    exact ⟨o, ho, hcall⟩
  | cons q qs ih =>
    intro H H' e o ho hcall h
    unfold blessLoop at h
    have hshape : ∀ w, (setObjProp o q w).call = none := by
      intro w
      have hs := (setObjProp_call_shape o q w).1
      rw [hcall] at hs
      cases hx : (setObjProp o q w).call with
      | none => rfl
      | some fd2 => rw [hx] at hs; simp at hs
    by_cases hg : isNullish (getPropV H (JSVal.ref c) q) = true
    · rw [if_pos hg] at h
      by_cases hcb : isCallable H (getPropV H bv q) = true
      · rw [if_pos hcb] at h
        cases hub : unBindAt H bv (JSVal.str q) nArg with
        | error e2 =>
          rw [hub] at h
          cases h
          exact ⟨o, ho, hcall⟩
        | ok fd =>
          rw [hub] at h
          have hc : c < H.length := (List.getElem?_eq_some_iff.mp ho).1
          have hoapp : (H ++ [funcObj fd])[c]? = some o := by
            rw [List.getElem?_append_left hc]
            exact ho
          have ho1 : (setV (H ++ [funcObj fd]) (JSVal.ref c) q (JSVal.ref H.length))[c]?
              = some (setObjProp o q (JSVal.ref H.length)) :=
            getElem?_setAt_self (H ++ [funcObj fd]) c q (JSVal.ref H.length) o hoapp
          exact ih _ H' e (setObjProp o q (JSVal.ref H.length)) ho1 (hshape _) h
      · rw [if_neg hcb] at h
        have ho1 : (setV H (JSVal.ref c) q (getPropV H bv q))[c]?
            = some (setObjProp o q (getPropV H bv q)) :=
          getElem?_setAt_self H c q (getPropV H bv q) o ho
        exact ih _ H' e (setObjProp o q (getPropV H bv q)) ho1 (hshape _) h
    · rw [if_neg hg] at h
      exact ih H H' e o ho hcall h

/-- Own slots of in-bounds cells ignore appended cells. -/
theorem ownOf_append_left (H L : Heap) (c : Nat) (hc : c < H.length) (k : String) :
    ownOf (H ++ L) (JSVal.ref c) k = ownOf H (JSVal.ref c) k := by
  rw [ownOf_ref, ownOf_ref, List.getElem?_append_left hc]

/-- The `bless` loop leaves the blessee's own slot at an unlisted key
unchanged. -/
theorem blessLoop_ownOf_frame (bv nArg : JSVal) (c : Nat) (p : String) :
    ∀ (ks : List String) (H H' : Heap) (e : Option JSErr),
      c < H.length →
      (∀ q ∈ ks, ¬ q = p) →
      blessLoop bv nArg (JSVal.ref c) ks H = (H', e) →
      ownOf H' (JSVal.ref c) p = ownOf H (JSVal.ref c) p := by
  intro ks
  induction ks with
  | nil =>
    intro H H' e _ _ h
    unfold blessLoop at h
    cases h
    rfl
  | cons q qs ih =>
    intro H H' e hc hkp h
    unfold blessLoop at h
    have hqp : ¬ q = p := hkp q (List.mem_cons_self q qs)
    have hkp2 : ∀ x ∈ qs, ¬ x = p := fun x hx => hkp x (List.mem_cons_of_mem q hx)
    by_cases hg : isNullish (getPropV H (JSVal.ref c) q) = true
    · rw [if_pos hg] at h
      by_cases hcb : isCallable H (getPropV H bv q) = true
      · rw [if_pos hcb] at h
        cases hub : unBindAt H bv (JSVal.str q) nArg with
        | error e2 =>
          rw [hub] at h
          cases h
          rfl
        | ok fd =>
          rw [hub] at h
          have hstep : ownOf (setV (H ++ [funcObj fd]) (JSVal.ref c) q (JSVal.ref H.length))
              (JSVal.ref c) p = ownOf H (JSVal.ref c) p := by
            rw [ownOf_setV_ne _ (JSVal.ref c) q p _ hqp (JSVal.ref c)]
            exact ownOf_append_left H _ c hc p
          have hc1 : c < (setV (H ++ [funcObj fd]) (JSVal.ref c) q
              (JSVal.ref H.length)).length := by
            rw [length_setV, List.length_append]
            simp
            omega
          rw [ih _ H' e hc1 hkp2 h, hstep]
      · rw [if_neg hcb] at h
        have hstep : ownOf (setV H (JSVal.ref c) q (getPropV H bv q)) (JSVal.ref c) p
            = ownOf H (JSVal.ref c) p :=
          ownOf_setV_ne H (JSVal.ref c) q p _ hqp (JSVal.ref c)
        have hc1 : c < (setV H (JSVal.ref c) q (getPropV H bv q)).length := by
          rw [length_setV]
          exact hc
        rw [ih _ H' e hc1 hkp2 h, hstep]
    · rw [if_neg hg] at h
      exact ih H H' e hc hkp2 h

/-- The `bless` loop installs every key that starts out nullish on the
blessee: a callable benediction property becomes a freshly allocated
delegate built by `unBindAt` against the entry heap, and any other
property value is copied verbatim. -/
theorem blessLoop_installs (bv nArg : JSVal) (c : Nat) (p : String) :
    ∀ (ks : List String) (H H' : Heap),
      protoLt H = true →
      c < H.length →
      valBound H.length bv = true →
      valBound H.length (getPropV H bv p) = true →
      (jsStrictEq nArg LAST_ARG = true → ¬ "_applyLength" ∈ ks) →
      ks.Nodup →
      blessLoop bv nArg (JSVal.ref c) ks H = (H', none) →
      p ∈ ks →
      isNullish (getPropV H (JSVal.ref c) p) = true →
      ((isCallable H (getPropV H bv p) = true →
          ∃ r fd, unBindAt H bv (JSVal.str p) nArg = Except.ok fd ∧
            getPropV H' (JSVal.ref c) p = JSVal.ref r ∧
            H'[r]? = some (funcObj fd)) ∧
       (isCallable H (getPropV H bv p) = false →
          getPropV H' (JSVal.ref c) p = getPropV H bv p ∧
          ownOf H' (JSVal.ref c) p = some (getPropV H bv p))) := by
  intro ks
  induction ks with
  | nil =>
    intro H H' _ _ _ _ _ _ _ hp _
    exact absurd hp (List.not_mem_nil p)
  | cons q qs ih =>
    intro H H' hwf hc hbv hg hap hnd h hp hnull
    unfold blessLoop at h
    by_cases hqp : q = p
    · subst hqp
      rw [if_pos hnull] at h
      obtain ⟨o, ho⟩ : ∃ o, H[c]? = some o := ⟨H[c], List.getElem?_eq_getElem hc⟩
      have hown := ownNullish_of_propNullish H c q o ho hnull
      have hqs : ∀ x ∈ qs, ¬ x = q := by
        intro x hx hxq
        subst hxq
        exact (List.nodup_cons.mp hnd).1 hx
      constructor
      · intro hcg
        rw [if_pos hcg] at h
        cases hub : unBindAt H bv (JSVal.str q) nArg with
        | error e2 =>
          rw [hub] at h
          injection h with h1 h2
          exact Option.noConfusion h2
        | ok fd =>
          rw [hub] at h
          have hoapp : (H ++ [funcObj fd])[c]? = some o := by
            rw [List.getElem?_append_left hc]
            exact ho
          have hw1 : getPropV (setV (H ++ [funcObj fd]) (JSVal.ref c) q (JSVal.ref H.length))
              (JSVal.ref c) q = JSVal.ref H.length :=
            getPropV_setAt_write (H ++ [funcObj fd]) c q (JSVal.ref H.length) o hoapp hown
          have hwf1 : protoLt (setV (H ++ [funcObj fd]) (JSVal.ref c) q
              (JSVal.ref H.length)) = true :=
            protoLt_setV _ _ q _ (protoLt_append_funcObj H fd hwf)
          have hnn : isNullish (getPropV (setV (H ++ [funcObj fd]) (JSVal.ref c) q
              (JSVal.ref H.length)) (JSVal.ref c) q) = false := by
            rw [hw1]
            rfl
          have hpres := blessLoop_preserves bv nArg (JSVal.ref c) q qs _ H' none hwf1 h hnn
          have hcellstep : (setV (H ++ [funcObj fd]) (JSVal.ref c) q
              (JSVal.ref H.length))[H.length]? = some (funcObj fd) := by
            show (setAt (H ++ [funcObj fd]) c q (JSVal.ref H.length))[H.length]?
              = some (funcObj fd)
            rw [getElem?_setAt_ne _ c q _ H.length (by omega)]
            exact List.getElem?_concat_length H (funcObj fd)
          have hlen1 : H.length < (setV (H ++ [funcObj fd]) (JSVal.ref c) q
              (JSVal.ref H.length)).length := by
            rw [length_setV, List.length_append]
            simp
          have hcell : H'[H.length]? = some (funcObj fd) := by
            rw [blessLoop_get_frame bv nArg c H.length (by omega) qs _ H' none hlen1 h]
            exact hcellstep
          exact ⟨H.length, fd, rfl, by rw [hpres, hw1], hcell⟩
      · intro hncg
        rw [if_neg (by simp [hncg])] at h
        have hw1 : getPropV (setV H (JSVal.ref c) q (getPropV H bv q)) (JSVal.ref c) q
            = getPropV H bv q :=
          getPropV_setAt_write H c q (getPropV H bv q) o ho hown
        have hwf1 : protoLt (setV H (JSVal.ref c) q (getPropV H bv q)) = true :=
          protoLt_setV H (JSVal.ref c) q (getPropV H bv q) hwf
        have hc1 : c < (setV H (JSVal.ref c) q (getPropV H bv q)).length := by
          rw [length_setV]
          exact hc
        have hfr := blessLoop_frame_key bv nArg c q qs _ H' none hwf1 hc1 hqs h
        have hwown : ownOf (setV H (JSVal.ref c) q (getPropV H bv q)) (JSVal.ref c) q
            = some (getPropV H bv q) := by
          show (match (setAt H c q (getPropV H bv q))[c]? with
            | some o2 => getOwnV o2 q
            | none => none) = some (getPropV H bv q)
          rw [getElem?_setAt_self H c q _ o ho]
          show getOwnV (setObjProp o q (getPropV H bv q)) q = some (getPropV H bv q)
          exact getOwnV_setObjProp_write o q _ hown
        have hofr := blessLoop_ownOf_frame bv nArg c q qs _ H' none hc1 hqs h
        exact ⟨by rw [hfr, hw1], by rw [hofr, hwown]⟩
    · have hpqs : p ∈ qs := (List.mem_cons.mp hp).resolve_left (fun hh => hqp hh.symm)
      have hndq : qs.Nodup := (List.nodup_cons.mp hnd).2
      have hapq : jsStrictEq nArg LAST_ARG = true → ¬ "_applyLength" ∈ qs :=
        fun hL hm => hap hL (List.mem_cons_of_mem q hm)
      have hrvb : valBound H.length (resolveF H bv (JSVal.str p)) = true := by
        show valBound H.length
          (if isCallable H (getPropV H bv p) then getPropV H bv p else JSVal.str p) = true
        by_cases hcg : isCallable H (getPropV H bv p) = true
        · rw [if_pos hcg]
          exact hg
        · rw [if_neg hcg]
          rfl
      have hqa : jsStrictEq nArg LAST_ARG = true → ¬ q = "_applyLength" := by
        intro hL hh
        exact hap hL (by rw [← hh]; exact List.mem_cons_self q qs)
      by_cases hgq : isNullish (getPropV H (JSVal.ref c) q) = true
      · rw [if_pos hgq] at h
        by_cases hcq : isCallable H (getPropV H bv q) = true
        · rw [if_pos hcq] at h
          cases hub : unBindAt H bv (JSVal.str q) nArg with
          | error e2 =>
            rw [hub] at h
            injection h with h1 h2
            exact Option.noConfusion h2
          | ok fd =>
            rw [hub] at h
            have h9 : blessLoop bv nArg (JSVal.ref c) qs
                (setV (H ++ [funcObj fd]) (JSVal.ref c) q (JSVal.ref H.length))
                = (H', none) := h
            clear h
            revert h9
            generalize hH1 : setV (H ++ [funcObj fd]) (JSVal.ref c) q (JSVal.ref H.length) = H₁
            intro h
            have hlen1 : H₁.length = H.length + 1 := by
              rw [← hH1, length_setV, List.length_append]
              simp
            have t1 : getPropV H₁ bv p = getPropV H bv p := by
              rw [← hH1]
              exact getPropV_alloc_setV_ne_val H fd (JSVal.ref c) q p (JSVal.ref H.length)
                hqp hwf bv hbv
            have t2 : getPropV H₁ (JSVal.ref c) p = getPropV H (JSVal.ref c) p := by
              rw [← hH1]
              exact getPropV_alloc_setV_ne H fd (JSVal.ref c) q p (JSVal.ref H.length)
                hqp hwf c hc
            have t3 : isCallable H₁ (getPropV H bv p) = isCallable H (getPropV H bv p) := by
              rw [← hH1]
              exact (funcDataOf_alloc_setV_shape_val H fd (JSVal.ref c) q (JSVal.ref H.length)
                (getPropV H bv p) hg).1
            have t4a : (funcDataOf H₁ (resolveF H bv (JSVal.str p))).isSome
                = (funcDataOf H (resolveF H bv (JSVal.str p))).isSome := by
              rw [← hH1]
              exact (funcDataOf_alloc_setV_shape_val H fd (JSVal.ref c) q (JSVal.ref H.length)
                _ hrvb).1
            have t4b : (funcDataOf H₁ (resolveF H bv (JSVal.str p))).map FuncData.length
                = (funcDataOf H (resolveF H bv (JSVal.str p))).map FuncData.length := by
              rw [← hH1]
              exact (funcDataOf_alloc_setV_shape_val H fd (JSVal.ref c) q (JSVal.ref H.length)
                _ hrvb).2
            have t5 : jsStrictEq nArg LAST_ARG = true →
                getPropV H₁ (resolveF H bv (JSVal.str p)) "_applyLength"
                  = getPropV H (resolveF H bv (JSVal.str p)) "_applyLength" := by
              intro hL
              rw [← hH1]
              exact getPropV_alloc_setV_ne_val H fd (JSVal.ref c) q "_applyLength"
                (JSVal.ref H.length) (hqa hL) hwf _ hrvb
            have hwf1 : protoLt H₁ = true := by
              rw [← hH1]
              exact protoLt_setV _ _ q _ (protoLt_append_funcObj H fd hwf)
            have hc1 : c < H₁.length := by omega
            have hbv1 : valBound H₁.length bv = true :=
              valBound_mono H.length H₁.length (by omega) bv hbv
            have hg1 : valBound H₁.length (getPropV H₁ bv p) = true := by
              rw [t1]
              exact valBound_mono H.length H₁.length (by omega) _ hg
            have hnull1 : isNullish (getPropV H₁ (JSVal.ref c) p) = true := by
              rw [t2]
              exact hnull
            have hIH := ih H₁ H' hwf1 hc1 hbv1 hg1 hapq hndq h hpqs hnull1
            constructor
            · intro hcp
              have hcp1 : isCallable H₁ (getPropV H₁ bv p) = true := by
                rw [t1, t3]
                exact hcp
              obtain ⟨r, fd2, hub2, hv2, hcell2⟩ := hIH.1 hcp1
              exact ⟨r, fd2, unBindAt_ok_back H₁ H bv p nArg fd2 t1 t3 t4a t4b t5 hub2,
                hv2, hcell2⟩
            · intro hncp
              have hncp1 : isCallable H₁ (getPropV H₁ bv p) = false := by
                rw [t1, t3]
                exact hncp
              obtain ⟨hv2, ho2⟩ := hIH.2 hncp1
              rw [t1] at hv2 ho2
              exact ⟨hv2, ho2⟩
        · rw [if_neg hcq] at h
          revert h
          generalize hH1 : setV H (JSVal.ref c) q (getPropV H bv q) = H₁
          intro h
          have hlen1 : H₁.length = H.length := by
            rw [← hH1, length_setV]
          have t1 : getPropV H₁ bv p = getPropV H bv p := by
            rw [← hH1]
            exact getPropV_setV_ne H (JSVal.ref c) q p (getPropV H bv q) hqp bv
          have t2 : getPropV H₁ (JSVal.ref c) p = getPropV H (JSVal.ref c) p := by
            rw [← hH1]
            exact getPropV_setV_ne H (JSVal.ref c) q p (getPropV H bv q) hqp (JSVal.ref c)
          have t3 : isCallable H₁ (getPropV H bv p) = isCallable H (getPropV H bv p) := by
            rw [← hH1]
            exact (funcDataOf_setV_shape H (JSVal.ref c) q (getPropV H bv q)
              (getPropV H bv p)).1
          have t4a : (funcDataOf H₁ (resolveF H bv (JSVal.str p))).isSome
              = (funcDataOf H (resolveF H bv (JSVal.str p))).isSome := by
            rw [← hH1]
            exact (funcDataOf_setV_shape H (JSVal.ref c) q (getPropV H bv q) _).1
          have t4b : (funcDataOf H₁ (resolveF H bv (JSVal.str p))).map FuncData.length
              = (funcDataOf H (resolveF H bv (JSVal.str p))).map FuncData.length := by
            rw [← hH1]
            exact (funcDataOf_setV_shape H (JSVal.ref c) q (getPropV H bv q) _).2
          have t5 : jsStrictEq nArg LAST_ARG = true →
              getPropV H₁ (resolveF H bv (JSVal.str p)) "_applyLength"
                = getPropV H (resolveF H bv (JSVal.str p)) "_applyLength" := by
            intro hL
            rw [← hH1]
            exact getPropV_setV_ne H (JSVal.ref c) q "_applyLength" (getPropV H bv q)
              (hqa hL) _
          have hwf1 : protoLt H₁ = true := by
            rw [← hH1]
            exact protoLt_setV H (JSVal.ref c) q (getPropV H bv q) hwf
          have hc1 : c < H₁.length := by omega
          have hbv1 : valBound H₁.length bv = true := by
            rw [hlen1]
            exact hbv
          have hg1 : valBound H₁.length (getPropV H₁ bv p) = true := by
            rw [t1, hlen1]
            exact hg
          have hnull1 : isNullish (getPropV H₁ (JSVal.ref c) p) = true := by
            rw [t2]
            exact hnull
          have hIH := ih H₁ H' hwf1 hc1 hbv1 hg1 hapq hndq h hpqs hnull1
          constructor
          · intro hcp
            have hcp1 : isCallable H₁ (getPropV H₁ bv p) = true := by
              rw [t1, t3]
              exact hcp
            obtain ⟨r, fd2, hub2, hv2, hcell2⟩ := hIH.1 hcp1
            exact ⟨r, fd2, unBindAt_ok_back H₁ H bv p nArg fd2 t1 t3 t4a t4b t5 hub2,
              hv2, hcell2⟩
          · intro hncp
            have hncp1 : isCallable H₁ (getPropV H₁ bv p) = false := by
              rw [t1, t3]
              exact hncp
            obtain ⟨hv2, ho2⟩ := hIH.2 hncp1
            rw [t1] at hv2 ho2
            exact ⟨hv2, ho2⟩
      · rw [if_neg hgq] at h
        exact ih H H' hwf hc hbv hg hapq hndq h hpqs hnull

/-- C2: for a benediction and a blessee (each put through the
object-or-prototype resolution) on a well-formed heap, and any
enumerated property `p` of the resolved benediction whose resolution on
the blessee is null or undefined before the call, a successful
`bless(blessee, benediction, inWhichArg)` installs `p` on the blessee:
when `benediction[p]` is callable, `blessee[p]` afterwards points at a
fresh delegate object holding exactly the closure that
`unBindAt(benediction, p, inWhichArg)` builds; otherwise `blessee[p]`
afterwards equals `benediction[p]`, copied verbatim.  (Side conditions:
the heap's references are in bounds, the enumerated keys are distinct,
and when `inWhichArg` is the `LAST_ARG` sentinel the key list does not
itself contain `_applyLength`.) -/
theorem bless_installs_missing (H : Heap) (blessee benediction inWhichArg : JSVal)
    (H' : Heap) (c : Nat) (p : String)
    (hwf : protoLt H = true)
    (hbl : objOrPrototype H blessee = JSVal.ref c)
    (hc : c < H.length)
    (hbv : valBound H.length (objOrPrototype H benediction) = true)
    (hg : valBound H.length (getPropV H (objOrPrototype H benediction) p) = true)
    (hap : jsStrictEq inWhichArg LAST_ARG = true →
      ¬ "_applyLength" ∈ enumKeysV H (objOrPrototype H benediction))
    (hnd : (enumKeysV H (objOrPrototype H benediction)).Nodup)
    (h : bless H blessee benediction inWhichArg = (H', none))
    (hp : p ∈ enumKeysV H (objOrPrototype H benediction))
    (hnull : isNullish (getPropV H (objOrPrototype H blessee) p) = true) :
    (isCallable H (getPropV H (objOrPrototype H benediction) p) = true →
        ∃ r fd, unBindAt H (objOrPrototype H benediction) (JSVal.str p) inWhichArg
            = Except.ok fd ∧
          getPropV H' (objOrPrototype H blessee) p = JSVal.ref r ∧
          H'[r]? = some (funcObj fd)) ∧
    (isCallable H (getPropV H (objOrPrototype H benediction) p) = false →
        getPropV H' (objOrPrototype H blessee) p
          = getPropV H (objOrPrototype H benediction) p) := by
  unfold bless at h
  by_cases h1 : isNullish benediction = true
  · rw [if_pos h1] at h
    injection h with ha hb
    exact Option.noConfusion hb
  · rw [if_neg h1] at h
    by_cases h2 : isNullish blessee = true
    · rw [if_pos h2] at h
      injection h with ha hb
      exact Option.noConfusion hb
    · rw [if_neg h2] at h
      rw [hbl] at h hnull ⊢
      have hh := blessLoop_installs (objOrPrototype H benediction) inWhichArg c p
        (enumKeysV H (objOrPrototype H benediction)) H H' hwf hc hbv hg hap hnd h hp hnull
      exact ⟨hh.1, fun hx => (hh.2 hx).1⟩

/-- The C2 witness heap: benediction `ref 0` owns a method `m` (the
function object `ref 1`, declared arity 2) and a data property `d`; the
blessee `ref 2` is a fresh plain object. -/
def heapC2w : Heap :=
  [⟨[("m", JSVal.ref 1), ("d", JSVal.num 5)], [], none, none⟩,
   ⟨[], [], none, some ⟨FuncBody.native 0, 2, JSVal.null⟩⟩,
   ⟨[], [], none, none⟩]

/-- C2 witness: blessing the empty object with `heapC2w`'s benediction
at position 0 installs the method key as a fresh delegate cell holding
what `unBindAt` returns. -/
theorem bless_installs_missing_witness :
    ∃ r fd,
      unBindAt heapC2w (objOrPrototype heapC2w (JSVal.ref 0)) (JSVal.str "m") (JSVal.num 0)
        = Except.ok fd ∧
      getPropV (bless heapC2w (JSVal.ref 2) (JSVal.ref 0) (JSVal.num 0)).1
          (objOrPrototype heapC2w (JSVal.ref 2)) "m" = JSVal.ref r ∧
      ((bless heapC2w (JSVal.ref 2) (JSVal.ref 0) (JSVal.num 0)).1)[r]?
        = some (funcObj fd) :=
  (bless_installs_missing heapC2w (JSVal.ref 2) (JSVal.ref 0) (JSVal.num 0)
      (bless heapC2w (JSVal.ref 2) (JSVal.ref 0) (JSVal.num 0)).1 2 "m"
      (by decide) (by decide) (by decide) (by decide) (by decide)
      (fun hh => absurd hh (by decide)) (by decide) (by decide) (by decide)
      (by decide)).1 (by decide)

/-- The references a prototype-chain walk starting at `ro` visits, with
fuel. -/
def chainRefs (H : Heap) : Nat → Option Nat → List Nat
  | _, none => []
  | 0, some _ => []
  | f + 1, some r =>
    r :: (match H[r]? with
          | none => []
          | some o => chainRefs H f o.proto)

/-- A chain walk from nothing visits nothing. -/
theorem chainRefs_none (H : Heap) (f : Nat) : chainRefs H f none = [] := by
  cases f with
  | zero => rfl
  | succ fp => rfl

/-- Enumeration from nothing yields nothing. -/
theorem enumKeysAux_none (H : Heap) (f : Nat) (b : List String) :
    enumKeysAux H f none b = [] := by
  cases f with
  | zero => rfl
  | succ fp => rfl

/-- On a heap with descending prototype links, every visited reference
stays below the heap's length once the start does. -/
theorem chainRefs_bounded (H : Heap) (hwf : protoLt H = true) :
    ∀ (f : Nat) (r : Nat) (x : Nat), r < H.length →
      x ∈ chainRefs H f (some r) → x < H.length := by
  intro f
  induction f with
  | zero =>
    intro r x hr hx
    exact absurd hx (List.not_mem_nil x)
  | succ fp ih =>
    intro r x hr hx
    rw [show chainRefs H (fp + 1) (some r)
        = r :: (match H[r]? with
                | none => []
                | some o => chainRefs H fp o.proto) from rfl] at hx
    rcases List.mem_cons.mp hx with h1 | h2
    · omega
    · cases ho : H[r]? with
      | none =>
        rw [ho] at h2
        exact absurd h2 (List.not_mem_nil x)
      | some o =>
        rw [ho] at h2
        have h3 : x ∈ chainRefs H fp o.proto := h2
        cases hpp : o.proto with
        | none =>
          rw [hpp, chainRefs_none] at h3
          exact absurd h3 (List.not_mem_nil x)
        | some pp =>
          rw [hpp] at h3
          have hpr : pp < r := protoLt_spec H hwf r o ho pp hpp
          exact ih pp x (by omega) h3

/-- `for..in` enumeration only reads the cells the chain walk visits, so
heaps that agree there enumerate identically. -/
theorem enumKeysAux_congr (H₁ H : Heap) :
    ∀ (f : Nat) (ro : Option Nat) (blocked : List String),
      (∀ x ∈ chainRefs H f ro, H₁[x]? = H[x]?) →
      enumKeysAux H₁ f ro blocked = enumKeysAux H f ro blocked := by
  intro f
  induction f with
  | zero =>
    intro ro blocked hx
    cases ro with
    | none => rfl
    | some r => rfl
  | succ fp ih =>
    intro ro blocked hx
    cases ro with
    | none => rfl
    | some r =>
      have hr : H₁[r]? = H[r]? :=
        hx r (by
          rw [show chainRefs H (fp + 1) (some r)
              = r :: (match H[r]? with
                      | none => []
                      | some o => chainRefs H fp o.proto) from rfl]
          exact List.mem_cons_self r _)
      show (match H₁[r]? with
        | none => []
        | some o =>
          (o.props.map Prod.fst).filter (fun k => !blocked.contains k) ++
            enumKeysAux H₁ fp o.proto (blocked ++ allOwnKeys o))
        = (match H[r]? with
           | none => []
           | some o =>
             (o.props.map Prod.fst).filter (fun k => !blocked.contains k) ++
               enumKeysAux H fp o.proto (blocked ++ allOwnKeys o))
      rw [hr]
      cases ho : H[r]? with
      | none => rfl
      | some o =>
        have htail : enumKeysAux H₁ fp o.proto (blocked ++ allOwnKeys o)
            = enumKeysAux H fp o.proto (blocked ++ allOwnKeys o) := by
          refine ih o.proto (blocked ++ allOwnKeys o) (fun x hxm => hx x ?_)
          rw [show chainRefs H (fp + 1) (some r)
              = r :: (match H[r]? with
                      | none => []
                      | some o => chainRefs H fp o.proto) from rfl, ho]
          exact List.mem_cons_of_mem r hxm
        show (o.props.map Prod.fst).filter (fun k => !blocked.contains k) ++
            enumKeysAux H₁ fp o.proto (blocked ++ allOwnKeys o)
          = (o.props.map Prod.fst).filter (fun k => !blocked.contains k) ++
            enumKeysAux H fp o.proto (blocked ++ allOwnKeys o)
        rw [htail]

/-- `for..in` enumeration is insensitive to the fuel once it exceeds the
start reference. -/
theorem enumKeysAux_fuel (H : Heap) (hwf : protoLt H = true) :
    ∀ (f r g : Nat) (blocked : List String), r < f → r < g →
      enumKeysAux H f (some r) blocked = enumKeysAux H g (some r) blocked := by
  intro f
  induction f with
  | zero =>
    intro r g blocked hf hg
    exact absurd hf (Nat.not_lt_zero r)
  | succ fp ih =>
    intro r g blocked hf hg
    cases g with
    | zero => exact absurd hg (Nat.not_lt_zero r)
    | succ gp =>
      show (match H[r]? with
        | none => []
        | some o =>
          (o.props.map Prod.fst).filter (fun k => !blocked.contains k) ++
            enumKeysAux H fp o.proto (blocked ++ allOwnKeys o))
        = (match H[r]? with
           | none => []
           | some o =>
             (o.props.map Prod.fst).filter (fun k => !blocked.contains k) ++
               enumKeysAux H gp o.proto (blocked ++ allOwnKeys o))
      cases ho : H[r]? with
      | none => rfl
      | some o =>
        show (o.props.map Prod.fst).filter (fun k => !blocked.contains k) ++
            enumKeysAux H fp o.proto (blocked ++ allOwnKeys o)
          = (o.props.map Prod.fst).filter (fun k => !blocked.contains k) ++
            enumKeysAux H gp o.proto (blocked ++ allOwnKeys o)
        cases hpp : o.proto with
        | none => rw [enumKeysAux_none, enumKeysAux_none]
        | some pp =>
          have hpr : pp < r := protoLt_spec H hwf r o ho pp hpp
          rw [ih pp gp (blocked ++ allOwnKeys o) (by omega) (by omega)]

/-- `objOrPrototype` only reads the target's own cell. -/
theorem objOrPrototype_congr (H₁ H : Heap) (r : Nat) (h : H₁[r]? = H[r]?) :
    objOrPrototype H₁ (JSVal.ref r) = objOrPrototype H (JSVal.ref r) := by
  show (match H₁[r]? with
    | some o =>
      match o.call with
      | some fd => if isNullish fd.protoProp then JSVal.ref r else fd.protoProp
      | none => JSVal.ref r
    | none => JSVal.ref r)
    = (match H[r]? with
       | some o =>
         match o.call with
         | some fd => if isNullish fd.protoProp then JSVal.ref r else fd.protoProp
         | none => JSVal.ref r
       | none => JSVal.ref r)
  rw [h]

/-- A plain object resolves to itself under `objOrPrototype`. -/
theorem objOrPrototype_callNone (H : Heap) (r : Nat) (o : JSObject)
    (ho : H[r]? = some o) (hc : o.call = none) :
    objOrPrototype H (JSVal.ref r) = JSVal.ref r := by
  show (match H[r]? with
    | some o =>
      match o.call with
      | some fd => if isNullish fd.protoProp then JSVal.ref r else fd.protoProp
      | none => JSVal.ref r
    | none => JSVal.ref r) = JSVal.ref r
  rw [ho]
  show (match o.call with
    | some fd => if isNullish fd.protoProp then JSVal.ref r else fd.protoProp
    | none => JSVal.ref r) = JSVal.ref r
  rw [hc]

/-- The C9 counterexample heap: the blessee `ref 0` is a constructor
function whose `prototype` is still null, and the benediction `ref 1`
enumerably carries a `prototype` property (pointing at `ref 2`) besides
a plain `foo`. -/
def heapC9 : Heap :=
  [⟨[], [], none, some ⟨FuncBody.native 0, 0, JSVal.null⟩⟩,
   ⟨[("prototype", JSVal.ref 2), ("foo", JSVal.num 1)], [], none, none⟩,
   ⟨[], [], none, none⟩]

/-- C9 counterexample: `bless` is not idempotent on a fixed
`(blessee, benediction, inWhichArg)` triple.  On `heapC9` the first call
resolves the function blessee to itself (its `prototype` is null) and,
among other keys, fills in its `prototype`; the second call with the
identical arguments therefore resolves the blessee to that new
prototype object and mutates the heap again. -/
theorem bless_not_idempotent :
    ¬ ((bless (bless heapC9 (JSVal.ref 0) (JSVal.ref 1) JSVal.null).1
          (JSVal.ref 0) (JSVal.ref 1) JSVal.null).1
        = (bless heapC9 (JSVal.ref 0) (JSVal.ref 1) JSVal.null).1) := by
  decide

/-- The C9 witness heap: a plain benediction `ref 0` with a method and a
data property, and a plain empty blessee `ref 2`. -/
def heapC9w : Heap :=
  [⟨[("m", JSVal.ref 1), ("d", JSVal.num 5)], [], none, none⟩,
   ⟨[], [], none, some ⟨FuncBody.native 0, 2, JSVal.null⟩⟩,
   ⟨[], [], none, none⟩]

/-- Setting a cell to the value it already holds leaves the list
unchanged. -/
theorem set_self_of_getElem (l : List JSObject) :
    ∀ (i : Nat) (a : JSObject), l[i]? = some a → l.set i a = l := by
  induction l with
  | nil => intro i a h; simp at h
  | cons x t ih =>
    intro i a h
    cases i with
    | zero =>
      have hx : x = a := by simpa using h
      subst hx
      rfl
    | succ j =>
      show x :: t.set j a = x :: t
      rw [ih j a (by simpa using h)]

/-- A map that fixes every member is the identity. -/
theorem map_eq_self_of (l : List (String × JSVal)) (f : String × JSVal → String × JSVal)
    (h : ∀ x ∈ l, f x = x) : l.map f = l := by
  induction l with
  | nil => rfl
  | cons x t ih =>
    show f x :: t.map f = x :: t
    rw [h x (List.mem_cons_self x t), ih (fun y hy => h y (List.mem_cons_of_mem x hy))]

/-- With distinct keys, two entries sharing a key coincide. -/
theorem nodup_keys_unique (l : List (String × JSVal)) (hnd : (l.map Prod.fst).Nodup)
    (kv kw : String × JSVal) (hkv : kv ∈ l) (hkw : kw ∈ l) (hk : kv.1 = kw.1) : kv = kw := by
  induction l with
  | nil => simp at hkv
  | cons a t ih =>
    rw [List.map_cons, List.nodup_cons] at hnd
    rcases List.mem_cons.mp hkv with h1 | h1 <;> rcases List.mem_cons.mp hkw with h2 | h2
    · rw [h1, h2]
    · exfalso
      apply hnd.1
      rw [← h1, hk]
      exact List.mem_map_of_mem Prod.fst h2
    · exfalso
      apply hnd.1
      rw [← h2, ← hk]
      exact List.mem_map_of_mem Prod.fst h1
    · exact ih hnd.2 h1 h2

/-- An in-place update at a key leaves the key list untouched. -/
theorem keys_map_set (l : List (String × JSVal)) (q : String) (v : JSVal) :
    (l.map (fun kv => if kv.1 == q then (q, v) else kv)).map Prod.fst = l.map Prod.fst := by
  induction l with
  | nil => rfl
  | cons kv t ih =>
    simp only [List.map_cons]
    by_cases h : kv.1 = q
    · rw [if_pos (by simp [h])]
      show q :: (t.map (fun kv => if kv.1 == q then (q, v) else kv)).map Prod.fst
        = kv.1 :: t.map Prod.fst
      rw [ih, h]
    · rw [if_neg (by simp [h])]
      show kv.1 :: (t.map (fun kv => if kv.1 == q then (q, v) else kv)).map Prod.fst
        = kv.1 :: t.map Prod.fst
      rw [ih]

/-- A nullish value is never callable, on any heap. -/
theorem isCallable_nullish (K : Heap) (v : JSVal) (h : isNullish v = true) :
    isCallable K v = false := by
  cases v with
  | undef => rfl
  | null => rfl
  | bool b => simp [isNullish] at h
  | num n => simp [isNullish] at h
  | str s => simp [isNullish] at h
  | lastArg => simp [isNullish] at h
  | ref r => simp [isNullish] at h

/-- Reads of in-bounds references ignore appended cells. -/
theorem getPropV_append (H L : Heap) (hwf : protoLt H = true) (rb : Nat)
    (hrb : rb < H.length) (k : String) :
    getPropV (H ++ L) (JSVal.ref rb) k = getPropV H (JSVal.ref rb) k := by
  show getPropAux (H ++ L) ((H ++ L).length + 1) rb k = getPropAux H (H.length + 1) rb k
  rw [getPropAux_append H L hwf ((H ++ L).length + 1) rb k hrb]
  exact getPropAux_fuel H hwf ((H ++ L).length + 1) rb (H.length + 1) k
    (by rw [List.length_append]; omega) (by omega)

/-- How one object can grow into another during a copy loop: the
prototype link, the non-enumerable keys and the callability are fixed,
and the enumerable key set only gains keys satisfying `P`. -/
def cellGrewP (P : String → Prop) (o o₁ : JSObject) : Prop :=
  o₁.proto = o.proto ∧
  o₁.nonEnum.map Prod.fst = o.nonEnum.map Prod.fst ∧
  o₁.call.isSome = o.call.isSome ∧
  (∀ k, k ∈ o.props.map Prod.fst → k ∈ o₁.props.map Prod.fst) ∧
  (∀ k, k ∈ o₁.props.map Prod.fst → k ∈ o.props.map Prod.fst ∨ P k)

/-- `cellGrewP` is reflexive. -/
theorem cellGrewP_refl (P : String → Prop) (o : JSObject) : cellGrewP P o o :=
  ⟨rfl, rfl, rfl, fun _ h => h, fun _ h => Or.inl h⟩

/-- `cellGrewP` is transitive. -/
theorem cellGrewP_trans (P : String → Prop) (o o₁ o₂ : JSObject)
    (h1 : cellGrewP P o o₁) (h2 : cellGrewP P o₁ o₂) : cellGrewP P o o₂ := by
  obtain ⟨a1, b1, c1, d1, e1⟩ := h1
  obtain ⟨a2, b2, c2, d2, e2⟩ := h2
  refine ⟨a2.trans a1, b2.trans b1, c2.trans c1, fun k hk => d2 k (d1 k hk), fun k hk => ?_⟩
  rcases e2 k hk with h | h
  · exact e1 k h
  · exact Or.inr h

/-- One assignment grows a cell by at most its own key. -/
theorem cellGrewP_setObjProp (P : String → Prop) (o : JSObject) (q : String) (w : JSVal)
    (hq : P q) : cellGrewP P o (setObjProp o q w) := by
  unfold setObjProp
  by_cases h1 : (o.props.find? (fun kv => kv.1 == q)).isSome = true
  · rw [if_pos h1]
    exact ⟨rfl, rfl, rfl,
      fun k hk => by rw [keys_map_set]; exact hk,
      fun k hk => by rw [keys_map_set] at hk; exact Or.inl hk⟩
  · rw [if_neg h1]
    by_cases h2 : (o.nonEnum.find? (fun kv => kv.1 == q)).isSome = true
    · rw [if_pos h2]
      exact ⟨rfl, by rw [keys_map_set], rfl, fun _ h => h, fun _ h => Or.inl h⟩
    · rw [if_neg h2]
      cases hc : o.call with
      | none =>
        refine ⟨rfl, rfl, by rw [hc], fun k hk => ?_, fun k hk => ?_⟩
        · show k ∈ (o.props ++ [(q, w)]).map Prod.fst
          rw [List.map_append]
          exact List.mem_append_left _ hk
        · rw [show (⟨o.props ++ [(q, w)], o.nonEnum, o.proto, none⟩ : JSObject).props
              = o.props ++ [(q, w)] from rfl, List.map_append] at hk
          rcases List.mem_append.mp hk with h | h
          · exact Or.inl h
          · right
            have : k = q := by simpa using h
            rw [this]
            exact hq
      | some fd =>
        show cellGrewP P o (if (q == "length") = true then o
          else if (q == "prototype") = true then
            ⟨o.props, o.nonEnum, o.proto, some ⟨fd.body, fd.length, w⟩⟩
          else ⟨o.props ++ [(q, w)], o.nonEnum, o.proto, some fd⟩)
        by_cases hl : q = "length"
        · rw [if_pos (by simp [hl])]
          exact cellGrewP_refl P o
        · rw [if_neg (by simp [hl])]
          by_cases hpr : q = "prototype"
          · rw [if_pos (by simp [hpr])]
            exact ⟨rfl, rfl, by rw [hc]; rfl, fun _ h => h, fun _ h => Or.inl h⟩
          · rw [if_neg (by simp [hpr])]
            refine ⟨rfl, rfl, by rw [hc], fun k hk => ?_, fun k hk => ?_⟩
            · show k ∈ (o.props ++ [(q, w)]).map Prod.fst
              rw [List.map_append]
              exact List.mem_append_left _ hk
            · rw [show (⟨o.props ++ [(q, w)], o.nonEnum, o.proto, some fd⟩ : JSObject).props
                  = o.props ++ [(q, w)] from rfl, List.map_append] at hk
              rcases List.mem_append.mp hk with h | h
              · exact Or.inl h
              · right
                have : k = q := by simpa using h
                rw [this]
                exact hq

/-- Growth keeps every own key (enumerable or not, built-ins included). -/
theorem cellGrewP_allOwn_sub (P : String → Prop) (o o₁ : JSObject)
    (h : cellGrewP P o o₁) (k : String) (hk : k ∈ allOwnKeys o) : k ∈ allOwnKeys o₁ := by
  obtain ⟨_, hne, hcall, hmono, _⟩ := h
  unfold allOwnKeys at hk ⊢
  rcases List.mem_append.mp hk with h1 | h1
  · rcases List.mem_append.mp h1 with h2 | h2
    · exact List.mem_append_left _ (List.mem_append_left _ (hmono k h2))
    · rw [← hne] at h2
      exact List.mem_append_left _ (List.mem_append_right _ h2)
  · rw [← hcall] at h1
    exact List.mem_append_right _ h1

/-- Growth adds own keys only from `P`. -/
theorem cellGrewP_allOwn_grow (P : String → Prop) (o o₁ : JSObject)
    (h : cellGrewP P o o₁) (k : String) (hk : k ∈ allOwnKeys o₁) :
    k ∈ allOwnKeys o ∨ P k := by
  obtain ⟨_, hne, hcall, _, hgrow⟩ := h
  unfold allOwnKeys at hk ⊢
  rcases List.mem_append.mp hk with h1 | h1
  · rcases List.mem_append.mp h1 with h2 | h2
    · rcases hgrow k h2 with h3 | h3
      · exact Or.inl (List.mem_append_left _ (List.mem_append_left _ h3))
      · exact Or.inr h3
    · rw [hne] at h2
      exact Or.inl (List.mem_append_left _ (List.mem_append_right _ h2))
  · rw [hcall] at h1
    exact Or.inl (List.mem_append_right _ h1)

/-- Enumeration sees exactly the same keys outside `P` on two heaps
whose cells agree up to `P`-growth: blocked keys only shadow more, and
new enumerable keys all lie in `P`. -/
theorem enumKeysAux_grewP_iff (H H₁ : Heap) (P : String → Prop)
    (hwf : protoLt H = true)
    (hrel : ∀ x, x < H.length →
      ∃ o o₁, H[x]? = some o ∧ H₁[x]? = some o₁ ∧ cellGrewP P o o₁)
    (k : String) (hk : ¬ P k) :
    ∀ (f : Nat) (r : Nat) (b b₁ : List String), r < H.length →
      (∀ k2 ∈ b, k2 ∈ b₁) → (∀ k2 ∈ b₁, k2 ∈ b ∨ P k2) →
      (k ∈ enumKeysAux H₁ f (some r) b₁ ↔ k ∈ enumKeysAux H f (some r) b) := by
  intro f
  induction f with
  | zero =>
    intro r b b₁ hr hbb hb1
    constructor <;> intro hx <;> exact absurd hx (List.not_mem_nil k)
  | succ fp ih =>
    intro r b b₁ hr hbb hb1
    obtain ⟨o, o₁, ho, ho1, hgr⟩ := hrel r hr
    have e1 : enumKeysAux H₁ (fp + 1) (some r) b₁
        = (o₁.props.map Prod.fst).filter (fun k2 => !b₁.contains k2) ++
          enumKeysAux H₁ fp o₁.proto (b₁ ++ allOwnKeys o₁) := by
      show (match H₁[r]? with
        | none => []
        | some o2 => (o2.props.map Prod.fst).filter (fun k2 => !b₁.contains k2) ++
            enumKeysAux H₁ fp o2.proto (b₁ ++ allOwnKeys o2)) = _
      rw [ho1]
    have e2 : enumKeysAux H (fp + 1) (some r) b
        = (o.props.map Prod.fst).filter (fun k2 => !b.contains k2) ++
          enumKeysAux H fp o.proto (b ++ allOwnKeys o) := by
      show (match H[r]? with
        | none => []
        | some o2 => (o2.props.map Prod.fst).filter (fun k2 => !b.contains k2) ++
            enumKeysAux H fp o2.proto (b ++ allOwnKeys o2)) = _
      rw [ho]
    rw [e1, e2]
    have hhead : k ∈ (o₁.props.map Prod.fst).filter (fun k2 => !b₁.contains k2)
        ↔ k ∈ (o.props.map Prod.fst).filter (fun k2 => !b.contains k2) := by
      constructor
      · intro hx
        obtain ⟨hxm, hxp⟩ := List.mem_filter.mp hx
        rcases hgr.2.2.2.2 k hxm with hko | hPk
        · refine List.mem_filter.mpr ⟨hko, ?_⟩
          have hnb1 : ¬ k ∈ b₁ := by simpa using hxp
          simp
          exact fun hm => hnb1 (hbb k hm)
        · exact absurd hPk hk
      · intro hx
        obtain ⟨hxm, hxp⟩ := List.mem_filter.mp hx
        refine List.mem_filter.mpr ⟨hgr.2.2.2.1 k hxm, ?_⟩
        have hnb : ¬ k ∈ b := by simpa using hxp
        simp
        intro hm
        rcases hb1 k hm with h | h
        · exact absurd h hnb
        · exact absurd h hk
    have htail : k ∈ enumKeysAux H₁ fp o₁.proto (b₁ ++ allOwnKeys o₁)
        ↔ k ∈ enumKeysAux H fp o.proto (b ++ allOwnKeys o) := by
      rw [hgr.1]
      cases hpp : o.proto with
      | none =>
        rw [enumKeysAux_none, enumKeysAux_none]
      | some pp =>
        have hplt : pp < r := protoLt_spec H hwf r o ho pp hpp
        refine ih pp (b ++ allOwnKeys o) (b₁ ++ allOwnKeys o₁) (by omega) ?_ ?_
        · intro k2 hk2
          rcases List.mem_append.mp hk2 with h | h
          · exact List.mem_append_left _ (hbb k2 h)
          · exact List.mem_append_right _ (cellGrewP_allOwn_sub P o o₁ hgr k2 h)
        · intro k2 hk2
          rcases List.mem_append.mp hk2 with h | h
          · rcases hb1 k2 h with h2 | h2
            · exact Or.inl (List.mem_append_left _ h2)
            · exact Or.inr h2
          · rcases cellGrewP_allOwn_grow P o o₁ hgr k2 h with h2 | h2
            · exact Or.inl (List.mem_append_right _ h2)
            · exact Or.inr h2
    simp only [List.mem_append]
    exact or_congr hhead htail

/-- The copy loop preserves the heap's length. -/
theorem copyKeys_length (ing c : JSVal) :
    ∀ (ks : List String) (K : Heap), (copyKeys ing c ks K).length = K.length := by
  intro ks
  induction ks with
  | nil => intro K; rfl
  | cons q qs ih =>
    intro K
    unfold copyKeys
    by_cases hq : hasOwnV K c q = true
    · rw [if_pos hq]
      exact ih K
    · rw [if_neg hq]
      rw [ih _, length_setV]

/-- The copy loop touches only the child's cell. -/
theorem copyKeys_get_frame (ing : JSVal) (rc : Nat) (x : Nat) (hx : ¬ x = rc) :
    ∀ (ks : List String) (K : Heap),
      (copyKeys ing (JSVal.ref rc) ks K)[x]? = K[x]? := by
  intro ks
  induction ks with
  | nil => intro K; rfl
  | cons q qs ih =>
    intro K
    unfold copyKeys
    by_cases hq : hasOwnV K (JSVal.ref rc) q = true
    · rw [if_pos hq]
      exact ih K
    · rw [if_neg hq]
      rw [ih _]
      exact getElem?_setAt_ne K rc q _ x hx

/-- The copy loop over keys other than `k` does not change how any value
resolves at `k`. -/
theorem copyKeys_read_ne (ing : JSVal) (rc : Nat) (k : String) (x : JSVal) :
    ∀ (ks : List String) (K : Heap), ¬ k ∈ ks →
      getPropV (copyKeys ing (JSVal.ref rc) ks K) x k = getPropV K x k := by
  intro ks
  induction ks with
  | nil => intro K _; rfl
  | cons q qs ih =>
    intro K hk
    have hqk : ¬ q = k := fun hh => hk (by rw [hh]; exact List.mem_cons_self k qs)
    have hk2 : ¬ k ∈ qs := fun hh => hk (List.mem_cons_of_mem q hh)
    unfold copyKeys
    by_cases hq : hasOwnV K (JSVal.ref rc) q = true
    · rw [if_pos hq]
      exact ih K hk2
    · rw [if_neg hq]
      rw [ih _ hk2]
      exact getPropV_setV_ne K (JSVal.ref rc) q k _ hqk x

/-- The copy loop over keys other than `k` leaves the own slot at `k`
alone, at any receiver. -/
theorem copyKeys_own_ne (ing : JSVal) (rc : Nat) (k : String) (x : JSVal) :
    ∀ (ks : List String) (K : Heap), ¬ k ∈ ks →
      ownOf (copyKeys ing (JSVal.ref rc) ks K) x k = ownOf K x k := by
  intro ks
  induction ks with
  | nil => intro K _; rfl
  | cons q qs ih =>
    intro K hk
    have hqk : ¬ q = k := fun hh => hk (by rw [hh]; exact List.mem_cons_self k qs)
    have hk2 : ¬ k ∈ qs := fun hh => hk (List.mem_cons_of_mem q hh)
    unfold copyKeys
    by_cases hq : hasOwnV K (JSVal.ref rc) q = true
    · rw [if_pos hq]
      exact ih K hk2
    · rw [if_neg hq]
      rw [ih _ hk2]
      exact ownOf_setV_ne K (JSVal.ref rc) q k _ hqk x

/-- The copy loop grows the child's cell only by keys from its list. -/
theorem copyKeys_cellGrewP (ing : JSVal) (rc : Nat) (P : String → Prop) :
    ∀ (ks : List String) (K : Heap) (o : JSObject),
      (∀ q ∈ ks, P q) → K[rc]? = some o →
      ∃ o₁, (copyKeys ing (JSVal.ref rc) ks K)[rc]? = some o₁ ∧ cellGrewP P o o₁ := by
  intro ks
  induction ks with
  | nil => intro K o _ ho; exact ⟨o, ho, cellGrewP_refl P o⟩
  | cons q qs ih =>
    intro K o hP ho
    have hP2 : ∀ x ∈ qs, P x := fun x hx => hP x (List.mem_cons_of_mem q hx)
    unfold copyKeys
    by_cases hq : hasOwnV K (JSVal.ref rc) q = true
    · rw [if_pos hq]
      exact ih K o hP2 ho
    · rw [if_neg hq]
      have hstep : (setV K (JSVal.ref rc) q (getPropV K ing q))[rc]?
          = some (setObjProp o q (getPropV K ing q)) :=
        getElem?_setAt_self K rc q _ o ho
      obtain ⟨o₁, ho₁, hgr⟩ := ih _ (setObjProp o q (getPropV K ing q)) hP2 hstep
      exact ⟨o₁, ho₁, cellGrewP_trans P _ _ _
        (cellGrewP_setObjProp P o q _ (hP q (List.mem_cons_self q qs))) hgr⟩

/-- The copy loop writes a listed key that is missing from the child:
the first occurrence installs the value the ingredient resolves to at
that point, and the key then stays own with that value. -/
theorem copyKeys_installs (ing : JSVal) (rc : Nat) (k : String) :
    ∀ (ks : List String) (K : Heap),
      (K[rc]?).isSome = true →
      k ∈ ks →
      ownOf K (JSVal.ref rc) k = none →
      ownOf (copyKeys ing (JSVal.ref rc) ks K) (JSVal.ref rc) k
        = some (getPropV K ing k) := by
  intro ks
  induction ks with
  | nil => intro K _ hk _; exact absurd hk (List.not_mem_nil k)
  | cons q qs ih =>
    intro K hsome hk hown
    obtain ⟨o, ho⟩ := Option.isSome_iff_exists.mp hsome
    unfold copyKeys
    by_cases hq : hasOwnV K (JSVal.ref rc) q = true
    · rw [if_pos hq]
      by_cases hqk : q = k
      · subst hqk
        rw [hasOwnV_eq_isSome, hown] at hq
        simp at hq
      · have hk2 : k ∈ qs := (List.mem_cons.mp hk).resolve_left (fun h => hqk h.symm)
        exact ih K hsome hk2 hown
    · rw [if_neg hq]
      by_cases hqk : q = k
      · subst hqk
        have hoknone : getOwnV o q = none := by
          have h9 := hown
          rw [ownOf_ref, ho] at h9
          exact h9
        have hwr : ownOf (setV K (JSVal.ref rc) q (getPropV K ing q)) (JSVal.ref rc) q
            = some (getPropV K ing q) := by
          show (match (setAt K rc q (getPropV K ing q))[rc]? with
            | some o2 => getOwnV o2 q
            | none => none) = some (getPropV K ing q)
          rw [getElem?_setAt_self K rc q _ o ho]
          show getOwnV (setObjProp o q (getPropV K ing q)) q = some (getPropV K ing q)
          exact getOwnV_setObjProp_fresh o q _ hoknone
        exact copyKeys_own_preserved ing (JSVal.ref rc) q _ qs _ hwr
      · have hk2 : k ∈ qs := (List.mem_cons.mp hk).resolve_left (fun h => hqk h.symm)
        have hsome2 : ((setV K (JSVal.ref rc) q (getPropV K ing q))[rc]?).isSome = true := by
          show ((setAt K rc q (getPropV K ing q))[rc]?).isSome = true
          rw [getElem?_setAt_self K rc q _ o ho]
          rfl
        have hown2 : ownOf (setV K (JSVal.ref rc) q (getPropV K ing q)) (JSVal.ref rc) k
            = none := by
          rw [ownOf_setV_ne K (JSVal.ref rc) q k _ hqk (JSVal.ref rc)]
          exact hown
        rw [ih _ hsome2 hk2 hown2]
        rw [getPropV_setV_ne K (JSVal.ref rc) q k _ hqk ing]

/-- First writer wins in `mixin`: with the child resolved to `ref rc`,
the sources before `s` enumerating nothing at `k`, and `s` enumerating
`k`, the loop ends with `k` own on the child holding exactly the value
`s`'s resolution gives `k` at entry.  The invariant carried through the
earlier sources: the heap differs from the entry heap only at the
child's cell, which has grown by keys other than `k`. -/
theorem mixinLoop_first_writer (H : Heap) (rc : Nat) (k : String) (s : JSVal)
    (post : List JSVal)
    (hplt : protoLt H = true) (orc : JSObject) (horc : H[rc]? = some orc)
    (hsref : ∀ b, s = JSVal.ref b → ¬ b = rc)
    (hsvb : valBound H.length (objOrPrototype H s) = true)
    (hks : k ∈ enumKeysV H (objOrPrototype H s)) :
    ∀ (pre : List JSVal) (K : Heap),
      K.length = H.length →
      (∀ x, ¬ x = rc → K[x]? = H[x]?) →
      (∃ o₁, K[rc]? = some o₁ ∧ cellGrewP (fun k2 => ¬ k2 = k) orc o₁) →
      ownOf K (JSVal.ref rc) k = none →
      (∀ x, getPropV K x k = getPropV H x k) →
      (∀ s2 ∈ pre, ∀ b, s2 = JSVal.ref b → ¬ b = rc) →
      (∀ s2 ∈ pre, valBound H.length (objOrPrototype H s2) = true) →
      (∀ s2 ∈ pre, ¬ k ∈ enumKeysV H (objOrPrototype H s2)) →
      ownOf (mixinLoop (JSVal.ref rc) (pre ++ s :: post) K) (JSVal.ref rc) k
        = some (getPropV H (objOrPrototype H s) k) := by
  intro pre
  induction pre with
  | nil =>
    intro K hlen hframe hcell hown hreads _ _ _
    obtain ⟨o₁, ho₁, hgrew⟩ := hcell
    have hrel : ∀ x, x < H.length →
        ∃ o2 o3, H[x]? = some o2 ∧ K[x]? = some o3 ∧
          cellGrewP (fun k2 => ¬ k2 = k) o2 o3 := by
      intro x hx
      by_cases hxc : x = rc
      · subst hxc
        exact ⟨orc, o₁, horc, ho₁, hgrew⟩
      · exact ⟨H[x], H[x], List.getElem?_eq_getElem hx,
          by rw [hframe x hxc]; exact List.getElem?_eq_getElem hx, cellGrewP_refl _ _⟩
    have hing : objOrPrototype K s = objOrPrototype H s := by
      cases s with
      | ref b => exact objOrPrototype_congr K H b (hframe b (hsref b rfl))
      | undef => rfl
      | null => rfl
      | bool b => rfl
      | num n => rfl
      | str t => rfl
      | lastArg => rfl
    show ownOf (mixinLoop (JSVal.ref rc) post
        (copyKeys (objOrPrototype K s) (JSVal.ref rc)
          (enumKeysV K (objOrPrototype K s)) K)) (JSVal.ref rc) k
      = some (getPropV H (objOrPrototype H s) k)
    cases hingv : objOrPrototype H s with
    | ref rbs =>
      have hrbs : rbs < H.length := by
        rw [hingv] at hsvb
        simpa [valBound] using hsvb
      have hks2 : k ∈ enumKeysAux H (H.length + 1) (some rbs) [] := by
        have h9 := hks
        rw [hingv] at h9
        exact h9
      have hlive : k ∈ enumKeysV K (objOrPrototype K s) := by
        rw [hing, hingv]
        show k ∈ enumKeysAux K (K.length + 1) (some rbs) []
        rw [hlen]
        exact (enumKeysAux_grewP_iff H K (fun k2 => ¬ k2 = k) hplt hrel k
          (fun hh => hh rfl) (H.length + 1) rbs [] [] hrbs (by simp) (by simp)).mpr hks2
      have hsomec : (K[rc]?).isSome = true := by
        rw [ho₁]
        rfl
      rw [mixinLoop_own_preserved (JSVal.ref rc) k _ post _
        (copyKeys_installs (objOrPrototype K s) rc k
          (enumKeysV K (objOrPrototype K s)) K hsomec hlive hown)]
      rw [hing, hreads (objOrPrototype H s), hingv]
    | undef => rw [hingv] at hks; exact absurd hks (List.not_mem_nil k)
    | null => rw [hingv] at hks; exact absurd hks (List.not_mem_nil k)
    | bool b => rw [hingv] at hks; exact absurd hks (List.not_mem_nil k)
    | num n => rw [hingv] at hks; exact absurd hks (List.not_mem_nil k)
    | str t => rw [hingv] at hks; exact absurd hks (List.not_mem_nil k)
    | lastArg => rw [hingv] at hks; exact absurd hks (List.not_mem_nil k)
  | cons s2 pre2 ih =>
    intro K hlen hframe hcell hown hreads hpreref hprevb hprek
    obtain ⟨o₁, ho₁, hgrew⟩ := hcell
    have hrel : ∀ x, x < H.length →
        ∃ o2 o3, H[x]? = some o2 ∧ K[x]? = some o3 ∧
          cellGrewP (fun k2 => ¬ k2 = k) o2 o3 := by
      intro x hx
      by_cases hxc : x = rc
      · subst hxc
        exact ⟨orc, o₁, horc, ho₁, hgrew⟩
      · exact ⟨H[x], H[x], List.getElem?_eq_getElem hx,
          by rw [hframe x hxc]; exact List.getElem?_eq_getElem hx, cellGrewP_refl _ _⟩
    have hing2 : objOrPrototype K s2 = objOrPrototype H s2 := by
      cases hs2 : s2 with
      | ref b =>
        exact objOrPrototype_congr K H b
          (hframe b (hpreref s2 (List.mem_cons_self s2 pre2) b hs2))
      | undef => rfl
      | null => rfl
      | bool b => rfl
      | num n => rfl
      | str t => rfl
      | lastArg => rfl
    have hnk : ¬ k ∈ enumKeysV K (objOrPrototype K s2) := by
      rw [hing2]
      cases hv2 : objOrPrototype H s2 with
      | ref rb2 =>
        intro hmem
        have hrb2 : rb2 < H.length := by
          have h9 := hprevb s2 (List.mem_cons_self s2 pre2)
          rw [hv2] at h9
          simpa [valBound] using h9
        have hmem2 : k ∈ enumKeysAux K (H.length + 1) (some rb2) [] := by
          have h9 : k ∈ enumKeysAux K (K.length + 1) (some rb2) [] := hmem
          rw [hlen] at h9
          exact h9
        have h10 := (enumKeysAux_grewP_iff H K (fun k2 => ¬ k2 = k) hplt hrel k
          (fun hh => hh rfl) (H.length + 1) rb2 [] [] hrb2 (by simp) (by simp)).mp hmem2
        apply hprek s2 (List.mem_cons_self s2 pre2)
        rw [hv2]
        exact h10
      | undef => exact List.not_mem_nil k
      | null => exact List.not_mem_nil k
      | bool b => exact List.not_mem_nil k
      | num n => exact List.not_mem_nil k
      | str t => exact List.not_mem_nil k
      | lastArg => exact List.not_mem_nil k
    have hPlist : ∀ q ∈ enumKeysV K (objOrPrototype K s2), ¬ q = k :=
      fun q hq hqeq => hnk (hqeq ▸ hq)
    obtain ⟨o₃, ho₃, hgr₂⟩ := copyKeys_cellGrewP (objOrPrototype K s2) rc
      (fun k2 => ¬ k2 = k) (enumKeysV K (objOrPrototype K s2)) K o₁ hPlist ho₁
    show ownOf (mixinLoop (JSVal.ref rc) (pre2 ++ s :: post)
        (copyKeys (objOrPrototype K s2) (JSVal.ref rc)
          (enumKeysV K (objOrPrototype K s2)) K)) (JSVal.ref rc) k
      = some (getPropV H (objOrPrototype H s) k)
    refine ih (copyKeys (objOrPrototype K s2) (JSVal.ref rc)
        (enumKeysV K (objOrPrototype K s2)) K)
      ((copyKeys_length (objOrPrototype K s2) (JSVal.ref rc) _ K).trans hlen)
      (fun x hx => by
        rw [copyKeys_get_frame (objOrPrototype K s2) rc x hx _ K]
        exact hframe x hx)
      ⟨o₃, ho₃, cellGrewP_trans _ _ _ _ hgrew hgr₂⟩
      (by
        rw [copyKeys_own_ne (objOrPrototype K s2) rc k (JSVal.ref rc) _ K hnk]
        exact hown)
      (fun x => by
        rw [copyKeys_read_ne (objOrPrototype K s2) rc k x _ K hnk]
        exact hreads x)
      (fun x hx => hpreref x (List.mem_cons_of_mem s2 hx))
      (fun x hx => hprevb x (List.mem_cons_of_mem s2 hx))
      (fun x hx => hprek x (List.mem_cons_of_mem s2 hx))

/-- C5: a successful `mixin(child, ...)` returns the resolved child,
mutated in place; an own property the resolved child already has is
never overwritten by any source (so the child wins every conflict);
every key the first source enumerates ends up as an own property of the
child; in general, for every key `k` the child is missing, the first
source (left to right) whose resolution enumerates `k` at entry writes
its entry value of `k` onto the child, and that value survives all the
later sources — first writer wins among sources, with every other
source's value for `k` discarded (side conditions: prototype links
descend, the sources involved do not alias the child's own cell, and
their resolutions are in bounds); and on the claim's concrete example
`mixin({}, {a:1}, {a:2, b:2})` the child ends up exactly `{a:1, b:2}`. -/
theorem mixin_spec :
    (∀ (H : Heap) (child : JSVal) (srcs : List JSVal) (H' : Heap) (cv : JSVal),
      mixin H child srcs = (H', Except.ok cv) →
      cv = objOrPrototype H child ∧
      (∀ k v, ownOf H cv k = some v → ownOf H' cv k = some v) ∧
      (∀ s ss rc, srcs = s :: ss → cv = JSVal.ref rc → rc < H.length →
        ∀ k, k ∈ enumKeysV H (objOrPrototype H s) →
          (ownOf H' cv k).isSome = true) ∧
      (∀ (pre : List JSVal) (s : JSVal) (post : List JSVal) (rc : Nat) (k : String),
        srcs = pre ++ s :: post →
        cv = JSVal.ref rc → rc < H.length →
        protoLt H = true →
        (∀ s2 ∈ pre, ∀ b, s2 = JSVal.ref b → ¬ b = rc) →
        (∀ b, s = JSVal.ref b → ¬ b = rc) →
        (∀ s2 ∈ pre, valBound H.length (objOrPrototype H s2) = true) →
        valBound H.length (objOrPrototype H s) = true →
        hasOwnV H cv k = false →
        (∀ s2 ∈ pre, ¬ k ∈ enumKeysV H (objOrPrototype H s2)) →
        k ∈ enumKeysV H (objOrPrototype H s) →
        ownOf H' cv k = some (getPropV H (objOrPrototype H s) k))) ∧
    mixin heapC5 (JSVal.ref 0) [JSVal.ref 1, JSVal.ref 2]
      = ([⟨[("a", JSVal.num 1), ("b", JSVal.num 2)], [], none, none⟩,
          ⟨[("a", JSVal.num 1)], [], none, none⟩,
          ⟨[("a", JSVal.num 2), ("b", JSVal.num 2)], [], none, none⟩],
         Except.ok (JSVal.ref 0)) := by
  constructor
  · intro H child srcs H' cv h
    unfold mixin at h
    by_cases hn : isNullish child = true
    · rw [if_pos hn] at h
      simp at h
    · rw [if_neg hn] at h
      have hH : mixinLoop (objOrPrototype H child) srcs H = H' := congrArg Prod.fst h
      have hcv : objOrPrototype H child = cv := by
        have := congrArg Prod.snd h
        simpa using this
      refine ⟨hcv.symm, ?_, ?_, ?_⟩
      · intro k v hv
        rw [← hH, ← hcv]
        rw [← hcv] at hv
        exact mixinLoop_own_preserved _ k v srcs H hv
      · intro s ss rc hsrcs hcv' hrc k hk
        subst hsrcs
        rw [← hH]
        unfold mixinLoop
        rw [← hcv] at hcv' ⊢
        rw [hcv']
        apply mixinLoop_own_isSome
        exact copyKeys_covers _ rc k _ H
          (by rw [List.getElem?_eq_getElem hrc]; rfl) hk
      · intro pre s post rc k hsrcs hcv' hrc hplt hpreref hsref hprevb hsvb hnown hprek hkss
        subst hsrcs
        rw [← hH, hcv, hcv']
        obtain ⟨orc, horc⟩ : ∃ o, H[rc]? = some o := ⟨H[rc], List.getElem?_eq_getElem hrc⟩
        have hon : ownOf H (JSVal.ref rc) k = none := by
          have h9 := hnown
          rw [hcv', hasOwnV_eq_isSome] at h9
          cases hz : ownOf H (JSVal.ref rc) k with
          | none => rfl
          | some x => rw [hz] at h9; simp at h9
        exact mixinLoop_first_writer H rc k s post hplt orc horc hsref hsvb hkss pre H rfl
          (fun x hx => rfl) ⟨orc, horc, cellGrewP_refl _ orc⟩ hon (fun x => rfl)
          hpreref hprevb hprek
  · decide

/-- The C5 witness heap: the child owns `a`, the source provides `a`
and `b`. -/
def heapC5b : Heap :=
  [⟨[("a", JSVal.num 9)], [], none, none⟩,
   ⟨[("a", JSVal.num 1), ("b", JSVal.num 2)], [], none, none⟩]

/-- C5 witness: the general clauses applied at concrete conflicts — the
child's own `a` survives, the source's `b` is installed, and on a
two-source heap the second source is the first writer of `b` while the
first source wins `a`. -/
theorem mixin_spec_witness :
    ownOf ((mixin heapC5b (JSVal.ref 0) [JSVal.ref 1]).1) (JSVal.ref 0) "a"
      = some (JSVal.num 9) ∧
    (ownOf ((mixin heapC5b (JSVal.ref 0) [JSVal.ref 1]).1) (JSVal.ref 0) "b").isSome
      = true ∧
    ownOf ((mixin heapC5 (JSVal.ref 0) [JSVal.ref 1, JSVal.ref 2]).1) (JSVal.ref 0) "b"
      = some (getPropV heapC5 (objOrPrototype heapC5 (JSVal.ref 2)) "b") ∧
    ownOf ((mixin heapC5 (JSVal.ref 0) [JSVal.ref 1, JSVal.ref 2]).1) (JSVal.ref 0) "a"
      = some (getPropV heapC5 (objOrPrototype heapC5 (JSVal.ref 1)) "a") :=
  ⟨(mixin_spec.1 heapC5b (JSVal.ref 0) [JSVal.ref 1]
      (mixin heapC5b (JSVal.ref 0) [JSVal.ref 1]).1 (JSVal.ref 0) (by decide)).2.1
      "a" (JSVal.num 9) (by decide),
   (mixin_spec.1 heapC5b (JSVal.ref 0) [JSVal.ref 1]
      (mixin heapC5b (JSVal.ref 0) [JSVal.ref 1]).1 (JSVal.ref 0) (by decide)).2.2.1
      (JSVal.ref 1) [] 0 rfl rfl (by decide) "b" (by decide),
   (mixin_spec.1 heapC5 (JSVal.ref 0) [JSVal.ref 1, JSVal.ref 2]
      (mixin heapC5 (JSVal.ref 0) [JSVal.ref 1, JSVal.ref 2]).1 (JSVal.ref 0)
      (by decide)).2.2.2
      [JSVal.ref 1] (JSVal.ref 2) [] 0 "b" rfl rfl (by decide) (by decide)
      (by
        intro s2 hs2 b hb
        have hs : s2 = JSVal.ref 1 := by simpa using hs2
        subst hs
        injection hb with h9
        subst h9
        decide)
      (by
        intro b hb
        injection hb with h9
        subst h9
        decide)
      (by decide) (by decide) (by decide) (by decide) (by decide),
   (mixin_spec.1 heapC5 (JSVal.ref 0) [JSVal.ref 1, JSVal.ref 2]
      (mixin heapC5 (JSVal.ref 0) [JSVal.ref 1, JSVal.ref 2]).1 (JSVal.ref 0)
      (by decide)).2.2.2
      [] (JSVal.ref 1) [JSVal.ref 2] 0 "a" rfl rfl (by decide) (by decide)
      (fun s2 hs2 => absurd hs2 (List.not_mem_nil s2))
      (by
        intro b hb
        injection hb with h9
        subst h9
        decide)
      (by decide) (by decide) (by decide) (by decide) (by decide)⟩


/-- After any single assignment, either the own slot at the written key
holds exactly the written value, or the object is unchanged (the silent
write to a function's `length`). -/
theorem setObjProp_own_after (o : JSObject) (p : String) (w : JSVal) :
    getOwnV (setObjProp o p w) p = some w ∨ setObjProp o p w = o := by
  cases hown : getOwnV o p with
  | none => exact Or.inl (getOwnV_setObjProp_fresh o p w hown)
  | some y =>
    unfold setObjProp
    by_cases h1 : (o.props.find? (fun kv => kv.1 == p)).isSome = true
    · left
      rw [if_pos h1]
      show getOwnV ⟨o.props.map (fun kv => if kv.1 == p then (p, w) else kv),
        o.nonEnum, o.proto, o.call⟩ p = some w
      unfold getOwnV
      rw [find?_key_map_set_self o.props p w h1]
    · rw [if_neg h1]
      have hp0 : o.props.find? (fun kv => kv.1 == p) = none := by
        cases hp : o.props.find? (fun kv => kv.1 == p) with
        | none => rfl
        | some x => rw [hp] at h1; simp at h1
      by_cases h2 : (o.nonEnum.find? (fun kv => kv.1 == p)).isSome = true
      · left
        rw [if_pos h2]
        show getOwnV ⟨o.props, o.nonEnum.map (fun kv => if kv.1 == p then (p, w) else kv),
          o.proto, o.call⟩ p = some w
        unfold getOwnV
        rw [hp0, find?_key_map_set_self o.nonEnum p w h2]
      · rw [if_neg h2]
        have hn0 : o.nonEnum.find? (fun kv => kv.1 == p) = none := by
          cases hh : o.nonEnum.find? (fun kv => kv.1 == p) with
          | none => rfl
          | some x => rw [hh] at h2; simp at h2
        unfold getOwnV at hown
        rw [hp0, hn0] at hown
        cases hc : o.call with
        | none =>
          rw [hc] at hown
          have hw2 : (none : Option JSVal) = some y := hown
          exact absurd hw2 (by simp)
        | some fd =>
          rw [hc] at hown
          have hw2 : (if (p == "length") = true then some (JSVal.num (Int.ofNat fd.length))
              else if (p == "prototype") = true then some fd.protoProp
              else none) = some y := hown
          show getOwnV (if (p == "length") = true then o
            else if (p == "prototype") = true then
              ⟨o.props, o.nonEnum, o.proto, some ⟨fd.body, fd.length, w⟩⟩
            else ⟨o.props ++ [(p, w)], o.nonEnum, o.proto, some fd⟩) p = some w
            ∨ (if (p == "length") = true then o
              else if (p == "prototype") = true then
                ⟨o.props, o.nonEnum, o.proto, some ⟨fd.body, fd.length, w⟩⟩
              else ⟨o.props ++ [(p, w)], o.nonEnum, o.proto, some fd⟩) = o
          by_cases hl : p = "length"
          · right
            rw [if_pos (by simp [hl])]
          · rw [if_neg (by simp [hl])]
            rw [if_neg (by simp [hl])] at hw2
            by_cases hpr : p = "prototype"
            · left
              rw [if_pos (by simp [hpr])]
              unfold getOwnV
              rw [hp0, hn0]
              show (if (p == "length") = true then some (JSVal.num (Int.ofNat fd.length))
                else if (p == "prototype") = true then some w else none) = some w
              rw [if_neg (by simp [hl]), if_pos (by simp [hpr])]
            · rw [if_neg (by simp [hpr])] at hw2
              exact absurd hw2 (by simp)

/-- Effect of one heap write on any later chain walk at the same key:
the walk is either untouched (the writing cell is absent from the walk
or shadowed) or returns the written value, and in that case the walk
used to return exactly what the written cell's chain resolved to. -/
theorem getPropAux_setAt_or (H : Heap) (hwf : protoLt H = true) (c : Nat) (p : String)
    (w : JSVal) :
    ∀ (f r : Nat), r < f →
      getPropAux (setAt H c p w) f r p = getPropAux H f r p ∨
      (getPropAux (setAt H c p w) f r p = w ∧
        getPropAux H f r p = getPropV H (JSVal.ref c) p) := by
  intro f
  induction f with
  | zero => intro r hr; exact absurd hr (Nat.not_lt_zero r)
  | succ fp ih =>
    intro r hr
    by_cases hrc : r = c
    · subst hrc
      cases ho : H[r]? with
      | none =>
        left
        rw [setAt_none H r p w ho]
      | some o =>
        rcases setObjProp_own_after o p w with hsw | hid
        · right
          constructor
          · rw [getPropAux_succ, getElem?_setAt_self H r p w o ho]
            show (match getOwnV (setObjProp o p w) p with
              | some v => v
              | none =>
                match (setObjProp o p w).proto with
                | some pp => getPropAux (setAt H r p w) fp pp p
                | none => JSVal.undef) = w
            rw [hsw]
          · show getPropAux H (fp + 1) r p = getPropAux H (H.length + 1) r p
            exact getPropAux_fuel H hwf (fp + 1) r (H.length + 1) p hr
              (by
                have : r < H.length := (List.getElem?_eq_some_iff.mp ho).1
                omega)
        · left
          have hAt : setAt H r p w = H := by
            unfold setAt
            rw [ho]
            show H.set r (setObjProp o p w) = H
            rw [hid]
            exact set_self_of_getElem H r o ho
          rw [hAt]
    · cases ho : H[r]? with
      | none =>
        left
        rw [getPropAux_succ, getPropAux_succ, getElem?_setAt_ne H c p w r hrc, ho]
      | some o =>
        have hL1 : getPropAux (setAt H c p w) (fp + 1) r p
            = (match getOwnV o p with
               | some v => v
               | none =>
                 match o.proto with
                 | some pp => getPropAux (setAt H c p w) fp pp p
                 | none => JSVal.undef) := by
          rw [getPropAux_succ, getElem?_setAt_ne H c p w r hrc, ho]
        have hR1 : getPropAux H (fp + 1) r p
            = (match getOwnV o p with
               | some v => v
               | none =>
                 match o.proto with
                 | some pp => getPropAux H fp pp p
                 | none => JSVal.undef) := by
          rw [getPropAux_succ, ho]
        rw [hL1, hR1]
        cases hog : getOwnV o p with
        | some v => exact Or.inl rfl
        | none =>
          cases hpp : o.proto with
          | none => exact Or.inl rfl
          | some pp =>
            have hplt2 : pp < r := protoLt_spec H hwf r o ho pp hpp
            exact ih pp (by omega)

/-- How any value resolves on the (resolved) benediction is stable
across the whole `bless` loop, even when the benediction's chain passes
through the blessee: writes at other keys are invisible, a verbatim copy
writes back exactly what the chain already resolved to, and a delegate
install can only shadow a slot the guard just saw as nullish — which a
callable value never is. -/
theorem blessLoop_bv_read_stable (bv nArg : JSVal) (c : Nat) (p : String) :
    ∀ (ks : List String) (H H' : Heap) (e : Option JSErr),
      protoLt H = true → c < H.length → valBound H.length bv = true →
      blessLoop bv nArg (JSVal.ref c) ks H = (H', e) →
      getPropV H' bv p = getPropV H bv p := by
  intro ks
  induction ks with
  | nil =>
    intro H H' e _ _ _ h
    unfold blessLoop at h
    cases h
    rfl
  | cons q qs ih =>
    intro H H' e hwf hc hbv h
    unfold blessLoop at h
    by_cases hg : isNullish (getPropV H (JSVal.ref c) q) = true
    · rw [if_pos hg] at h
      by_cases hcb : isCallable H (getPropV H bv q) = true
      · rw [if_pos hcb] at h
        cases hub : unBindAt H bv (JSVal.str q) nArg with
        | error e2 =>
          rw [hub] at h
          cases h
          rfl
        | ok fd =>
          rw [hub] at h
          have hwfA : protoLt (H ++ [funcObj fd]) = true := protoLt_append_funcObj H fd hwf
          have hstep : getPropV (setV (H ++ [funcObj fd]) (JSVal.ref c) q
              (JSVal.ref H.length)) bv p = getPropV H bv p := by
            by_cases hqp : q = p
            · subst hqp
              cases bv with
              | ref rb =>
                have hrb : rb < H.length := by simpa [valBound] using hbv
                have happ : getPropV (H ++ [funcObj fd]) (JSVal.ref rb) q
                    = getPropV H (JSVal.ref rb) q := getPropV_append H _ hwf rb hrb q
                have happc : getPropV (H ++ [funcObj fd]) (JSVal.ref c) q
                    = getPropV H (JSVal.ref c) q := getPropV_append H _ hwf c hc q
                show getPropAux (setAt (H ++ [funcObj fd]) c q (JSVal.ref H.length))
                    ((setV (H ++ [funcObj fd]) (JSVal.ref c) q
                      (JSVal.ref H.length)).length + 1) rb q
                  = getPropV H (JSVal.ref rb) q
                rw [length_setV]
                rcases getPropAux_setAt_or (H ++ [funcObj fd]) hwfA c q (JSVal.ref H.length)
                    ((H ++ [funcObj fd]).length + 1) rb
                    (by rw [List.length_append]; omega) with h1 | ⟨h1, h2⟩
                · rw [h1]
                  show getPropV (H ++ [funcObj fd]) (JSVal.ref rb) q
                    = getPropV H (JSVal.ref rb) q
                  exact happ
                · exfalso
                  have h2v : getPropV (H ++ [funcObj fd]) (JSVal.ref rb) q
                      = getPropV (H ++ [funcObj fd]) (JSVal.ref c) q := h2
                  rw [happ, happc] at h2v
                  have hnl : isNullish (getPropV H (JSVal.ref rb) q) = true := by
                    rw [h2v]
                    exact hg
                  have hnc := isCallable_nullish H _ hnl
                  rw [hnc] at hcb
                  exact Bool.noConfusion hcb
              | undef => rfl
              | null => rfl
              | bool b => rfl
              | num n => rfl
              | str s => rfl
              | lastArg => rfl
            · exact getPropV_alloc_setV_ne_val H fd (JSVal.ref c) q p (JSVal.ref H.length)
                hqp hwf bv hbv
          have hwf1 : protoLt (setV (H ++ [funcObj fd]) (JSVal.ref c) q
              (JSVal.ref H.length)) = true := protoLt_setV _ _ _ _ hwfA
          have hc1 : c < (setV (H ++ [funcObj fd]) (JSVal.ref c) q
              (JSVal.ref H.length)).length := by
            rw [length_setV, List.length_append]
            simp
            omega
          have hbv1 : valBound (setV (H ++ [funcObj fd]) (JSVal.ref c) q
              (JSVal.ref H.length)).length bv = true :=
            valBound_mono H.length _
              (by rw [length_setV, List.length_append]; simp) bv hbv
          rw [ih _ H' e hwf1 hc1 hbv1 h, hstep]
      · rw [if_neg hcb] at h
        have hstep : getPropV (setV H (JSVal.ref c) q (getPropV H bv q)) bv p
            = getPropV H bv p := by
          by_cases hqp : q = p
          · subst hqp
            cases bv with
            | ref rb =>
              have hrb : rb < H.length := by simpa [valBound] using hbv
              show getPropAux (setAt H c q (getPropV H (JSVal.ref rb) q))
                  ((setV H (JSVal.ref c) q (getPropV H (JSVal.ref rb) q)).length + 1) rb q
                = getPropV H (JSVal.ref rb) q
              rw [length_setV]
              rcases getPropAux_setAt_or H hwf c q (getPropV H (JSVal.ref rb) q)
                  (H.length + 1) rb (by omega) with h1 | ⟨h1, h2⟩
              · exact h1
              · exact h1
            | undef => rfl
            | null => rfl
            | bool b => rfl
            | num n => rfl
            | str s => rfl
            | lastArg => rfl
          · exact getPropV_setV_ne H (JSVal.ref c) q p _ hqp bv
        have hwf1 : protoLt (setV H (JSVal.ref c) q (getPropV H bv q)) = true :=
          protoLt_setV H _ _ _ hwf
        have hc1 : c < (setV H (JSVal.ref c) q (getPropV H bv q)).length := by
          rw [length_setV]
          exact hc
        have hbv1 : valBound (setV H (JSVal.ref c) q (getPropV H bv q)).length bv = true := by
          rw [length_setV]
          exact hbv
        rw [ih _ H' e hwf1 hc1 hbv1 h, hstep]
    · rw [if_neg hg] at h
      exact ih H H' e hwf hc hbv h

/-- Distinctness of one object's own keys (per slot). -/
def objKeysNodup (o : JSObject) : Bool :=
  decide ((o.props.map Prod.fst).Nodup) && decide ((o.nonEnum.map Prod.fst).Nodup)

/-- Distinctness of own keys across the whole heap. -/
def heapKeysNodup (H : Heap) : Bool := H.all objKeysNodup

/-- Reading the per-cell key distinctness out of the heap invariant. -/
theorem heapKeysNodup_cell (H : Heap) (h : heapKeysNodup H = true) (x : Nat) (o : JSObject)
    (ho : H[x]? = some o) :
    (o.props.map Prod.fst).Nodup ∧ (o.nonEnum.map Prod.fst).Nodup := by
  have hmem : o ∈ H := List.getElem?_mem ho
  have h2 := List.all_eq_true.mp h o hmem
  unfold objKeysNodup at h2
  simpa using h2

/-- One assignment preserves per-object key distinctness. -/
theorem setObjProp_keysNodup (o : JSObject) (q : String) (w : JSVal)
    (h : objKeysNodup o = true) : objKeysNodup (setObjProp o q w) = true := by
  unfold setObjProp
  by_cases h1 : (o.props.find? (fun kv => kv.1 == q)).isSome = true
  · rw [if_pos h1]
    show (decide (((o.props.map (fun kv => if kv.1 == q then (q, w) else kv)).map
        Prod.fst).Nodup) && decide ((o.nonEnum.map Prod.fst).Nodup)) = true
    rw [keys_map_set]
    exact h
  · rw [if_neg h1]
    have hp0 : o.props.find? (fun kv => kv.1 == q) = none := by
      cases hp : o.props.find? (fun kv => kv.1 == q) with
      | none => rfl
      | some x => rw [hp] at h1; simp at h1
    have hfresh : ¬ q ∈ o.props.map Prod.fst := by
      intro hm
      obtain ⟨kv, hkv, hkq⟩ := List.mem_map.mp hm
      exact (List.find?_eq_none.mp hp0 kv hkv) (by simp [hkq])
    by_cases h2 : (o.nonEnum.find? (fun kv => kv.1 == q)).isSome = true
    · rw [if_pos h2]
      show (decide ((o.props.map Prod.fst).Nodup) &&
        decide (((o.nonEnum.map (fun kv => if kv.1 == q then (q, w) else kv)).map
          Prod.fst).Nodup)) = true
      rw [keys_map_set]
      exact h
    · rw [if_neg h2]
      unfold objKeysNodup at h
      simp at h
      cases hc : o.call with
      | none =>
        show objKeysNodup ⟨o.props ++ [(q, w)], o.nonEnum, o.proto, none⟩ = true
        unfold objKeysNodup
        simp [List.map_append, List.nodup_append, h.1, h.2, hfresh]
      | some fd =>
        show objKeysNodup (if (q == "length") = true then o
          else if (q == "prototype") = true then
            ⟨o.props, o.nonEnum, o.proto, some ⟨fd.body, fd.length, w⟩⟩
          else ⟨o.props ++ [(q, w)], o.nonEnum, o.proto, some fd⟩) = true
        by_cases hl : q = "length"
        · rw [if_pos (by simp [hl])]
          unfold objKeysNodup
          simp [h.1, h.2]
        · rw [if_neg (by simp [hl])]
          by_cases hpr : q = "prototype"
          · rw [if_pos (by simp [hpr])]
            unfold objKeysNodup
            simp [h.1, h.2]
          · rw [if_neg (by simp [hpr])]
            unfold objKeysNodup
            simp [List.map_append, List.nodup_append, h.1, h.2, hfresh]

/-- Heap-level writes preserve key distinctness. -/
theorem setAt_keysNodup (H : Heap) (c : Nat) (q : String) (w : JSVal)
    (h : heapKeysNodup H = true) : heapKeysNodup (setAt H c q w) = true := by
  unfold setAt
  cases ho : H[c]? with
  | none => exact h
  | some o =>
    apply List.all_eq_true.mpr
    intro x hx
    rcases List.mem_or_eq_of_mem_set hx with hm | he
    · exact List.all_eq_true.mp h x hm
    · rw [he]
      exact setObjProp_keysNodup o q w (List.all_eq_true.mp h o (List.getElem?_mem ho))

/-- `setV` version. -/
theorem setV_keysNodup (H : Heap) (cv : JSVal) (q : String) (w : JSVal)
    (h : heapKeysNodup H = true) : heapKeysNodup (setV H cv q w) = true := by
  cases cv with
  | ref rc => exact setAt_keysNodup H rc q w h
  | undef => exact h
  | null => exact h
  | bool b => exact h
  | num n => exact h
  | str s => exact h
  | lastArg => exact h

/-- Appending a fresh delegate cell preserves key distinctness. -/
theorem append_funcObj_keysNodup (H : Heap) (fd : FuncData)
    (h : heapKeysNodup H = true) : heapKeysNodup (H ++ [funcObj fd]) = true := by
  unfold heapKeysNodup
  rw [List.all_append]
  unfold heapKeysNodup at h
  rw [h]
  rfl

/-- The `bless` loop preserves key distinctness. -/
theorem blessLoop_keysNodup (bv nArg bl : JSVal) :
    ∀ (ks : List String) (H H' : Heap) (e : Option JSErr),
      heapKeysNodup H = true →
      blessLoop bv nArg bl ks H = (H', e) → heapKeysNodup H' = true := by
  intro ks
  induction ks with
  | nil =>
    intro H H' e hnd h
    unfold blessLoop at h
    cases h
    exact hnd
  | cons q qs ih =>
    intro H H' e hnd h
    unfold blessLoop at h
    by_cases hg : isNullish (getPropV H bl q) = true
    · rw [if_pos hg] at h
      by_cases hcb : isCallable H (getPropV H bv q) = true
      · rw [if_pos hcb] at h
        cases hub : unBindAt H bv (JSVal.str q) nArg with
        | error e2 =>
          rw [hub] at h
          cases h
          exact hnd
        | ok fd =>
          rw [hub] at h
          exact ih _ H' e (setV_keysNodup _ bl q _ (append_funcObj_keysNodup H fd hnd)) h
      · rw [if_neg hcb] at h
        exact ih _ H' e (setV_keysNodup H bl q _ hnd) h
    · rw [if_neg hg] at h
      exact ih H H' e hnd h

/-- Writing back a present own value is the identity on an object with
distinct keys. -/
theorem setObjProp_id_nodup (o : JSObject) (p : String) (w : JSVal)
    (hnp : (o.props.map Prod.fst).Nodup) (hnn : (o.nonEnum.map Prod.fst).Nodup)
    (hw : getOwnV o p = some w) : setObjProp o p w = o := by
  unfold setObjProp
  by_cases h1 : (o.props.find? (fun kv => kv.1 == p)).isSome = true
  · rw [if_pos h1]
    obtain ⟨kv0, hfind⟩ := Option.isSome_iff_exists.mp h1
    obtain ⟨a, b⟩ := kv0
    have hkv1 : a = p := by simpa using List.find?_some hfind
    have hmem : (a, b) ∈ o.props := List.mem_of_find?_eq_some hfind
    have hkv2 : b = w := by
      unfold getOwnV at hw
      rw [hfind] at hw
      have h9 : some b = some w := hw
      exact Option.some.inj h9
    have hprops : o.props.map (fun kv => if kv.1 == p then (p, w) else kv) = o.props := by
      apply map_eq_self_of
      intro kv hkv
      by_cases hk : kv.1 = p
      · rw [if_pos (by simp [hk])]
        have heq : kv = (a, b) :=
          nodup_keys_unique o.props hnp kv (a, b) hkv hmem (by rw [hk, hkv1])
        rw [heq, hkv1, hkv2]
      · rw [if_neg (by simp [hk])]
    show ({ o with props := o.props.map (fun kv => if kv.1 == p then (p, w) else kv) }
      : JSObject) = o
    rw [hprops]
  · rw [if_neg h1]
    have hp0 : o.props.find? (fun kv => kv.1 == p) = none := by
      cases hp : o.props.find? (fun kv => kv.1 == p) with
      | none => rfl
      | some x => rw [hp] at h1; simp at h1
    by_cases h2 : (o.nonEnum.find? (fun kv => kv.1 == p)).isSome = true
    · rw [if_pos h2]
      obtain ⟨kv0, hfind⟩ := Option.isSome_iff_exists.mp h2
      obtain ⟨a, b⟩ := kv0
      have hkv1 : a = p := by simpa using List.find?_some hfind
      have hmem : (a, b) ∈ o.nonEnum := List.mem_of_find?_eq_some hfind
      have hkv2 : b = w := by
        unfold getOwnV at hw
        rw [hp0, hfind] at hw
        have h9 : some b = some w := hw
        exact Option.some.inj h9
      have hne : o.nonEnum.map (fun kv => if kv.1 == p then (p, w) else kv) = o.nonEnum := by
        apply map_eq_self_of
        intro kv hkv
        by_cases hk : kv.1 = p
        · rw [if_pos (by simp [hk])]
          have heq : kv = (a, b) :=
            nodup_keys_unique o.nonEnum hnn kv (a, b) hkv hmem (by rw [hk, hkv1])
          rw [heq, hkv1, hkv2]
        · rw [if_neg (by simp [hk])]
      show ({ o with nonEnum := o.nonEnum.map (fun kv => if kv.1 == p then (p, w) else kv) }
        : JSObject) = o
      rw [hne]
    · rw [if_neg h2]
      have hn0 : o.nonEnum.find? (fun kv => kv.1 == p) = none := by
        cases hh : o.nonEnum.find? (fun kv => kv.1 == p) with
        | none => rfl
        | some x => rw [hh] at h2; simp at h2
      unfold getOwnV at hw
      rw [hp0, hn0] at hw
      cases hc : o.call with
      | none =>
        rw [hc] at hw
        have h9 : (none : Option JSVal) = some w := hw
        exact absurd h9 (by simp)
      | some fd =>
        rw [hc] at hw
        have hw2 : (if (p == "length") = true then some (JSVal.num (Int.ofNat fd.length))
            else if (p == "prototype") = true then some fd.protoProp
            else none) = some w := hw
        show (if (p == "length") = true then o
          else if (p == "prototype") = true then
            ⟨o.props, o.nonEnum, o.proto, some ⟨fd.body, fd.length, w⟩⟩
          else ⟨o.props ++ [(p, w)], o.nonEnum, o.proto, some fd⟩) = o
        by_cases hl : p = "length"
        · rw [if_pos (by simp [hl])]
        · rw [if_neg (by simp [hl])]
          rw [if_neg (by simp [hl])] at hw2
          by_cases hpr : p = "prototype"
          · rw [if_pos (by simp [hpr])]
            rw [if_pos (by simp [hpr])] at hw2
            have h9 : fd.protoProp = w := Option.some.inj hw2
            show (⟨o.props, o.nonEnum, o.proto, some ⟨fd.body, fd.length, w⟩⟩ : JSObject) = o
            rw [← h9,
              (rfl : some (⟨fd.body, fd.length, fd.protoProp⟩ : FuncData) = some fd).trans
                hc.symm]
          · rw [if_neg (by simp [hpr])] at hw2
            exact absurd hw2 (by simp)


/-- The `bless` loop grows the blessee's cell by at most the listed
keys. -/
theorem blessLoop_cellGrewP (bv nArg : JSVal) (c : Nat) (P : String → Prop) :
    ∀ (ks : List String) (H H' : Heap) (e : Option JSErr) (o : JSObject),
      (∀ q ∈ ks, P q) →
      H[c]? = some o →
      blessLoop bv nArg (JSVal.ref c) ks H = (H', e) →
      ∃ o₁, H'[c]? = some o₁ ∧ cellGrewP P o o₁ := by
  intro ks
  induction ks with
  | nil =>
    intro H H' e o _ ho h
    unfold blessLoop at h
    cases h
    exact ⟨o, ho, cellGrewP_refl P o⟩
  | cons q qs ih =>
    intro H H' e o hP ho h
    unfold blessLoop at h
    have hPq : P q := hP q (List.mem_cons_self q qs)
    have hPqs : ∀ x ∈ qs, P x := fun x hx => hP x (List.mem_cons_of_mem q hx)
    by_cases hg : isNullish (getPropV H (JSVal.ref c) q) = true
    · rw [if_pos hg] at h
      by_cases hcb : isCallable H (getPropV H bv q) = true
      · rw [if_pos hcb] at h
        cases hub : unBindAt H bv (JSVal.str q) nArg with
        | error e2 =>
          rw [hub] at h
          cases h
          exact ⟨o, ho, cellGrewP_refl P o⟩
        | ok fd =>
          rw [hub] at h
          have hc : c < H.length := (List.getElem?_eq_some_iff.mp ho).1
          have hoapp : (H ++ [funcObj fd])[c]? = some o := by
            rw [List.getElem?_append_left hc]
            exact ho
          have ho1 : (setV (H ++ [funcObj fd]) (JSVal.ref c) q (JSVal.ref H.length))[c]?
              = some (setObjProp o q (JSVal.ref H.length)) :=
            getElem?_setAt_self (H ++ [funcObj fd]) c q (JSVal.ref H.length) o hoapp
          obtain ⟨o₁, ho2, hgr⟩ :=
            ih _ H' e (setObjProp o q (JSVal.ref H.length)) hPqs ho1 h
          exact ⟨o₁, ho2, cellGrewP_trans P _ _ _ (cellGrewP_setObjProp P o q _ hPq) hgr⟩
      · rw [if_neg hcb] at h
        have ho1 : (setV H (JSVal.ref c) q (getPropV H bv q))[c]?
            = some (setObjProp o q (getPropV H bv q)) :=
          getElem?_setAt_self H c q (getPropV H bv q) o ho
        obtain ⟨o₁, ho2, hgr⟩ :=
          ih _ H' e (setObjProp o q (getPropV H bv q)) hPqs ho1 h
        exact ⟨o₁, ho2, cellGrewP_trans P _ _ _ (cellGrewP_setObjProp P o q _ hPq) hgr⟩
    · rw [if_neg hg] at h
      exact ih H H' e o hPqs ho h

/-- The `bless` loop is the identity when every listed key is either
already non-nullish on the blessee or is rewritten with its present
value by an identity assignment. -/
theorem blessLoop_noop (bv nArg cl : JSVal) :
    ∀ (ks : List String) (K : Heap),
      (∀ p ∈ ks, isNullish (getPropV K cl p) = false ∨
        (isCallable K (getPropV K bv p) = false ∧
         setV K cl p (getPropV K bv p) = K)) →
      blessLoop bv nArg cl ks K = (K, none) := by
  intro ks
  induction ks with
  | nil => intro K _; rfl
  | cons q qs ih =>
    intro K hall
    have htail : ∀ p ∈ qs, isNullish (getPropV K cl p) = false ∨
        (isCallable K (getPropV K bv p) = false ∧
         setV K cl p (getPropV K bv p) = K) :=
      fun p hp => hall p (List.mem_cons_of_mem q hp)
    unfold blessLoop
    by_cases hg : isNullish (getPropV K cl q) = true
    · rw [if_pos hg]
      rcases hall q (List.mem_cons_self q qs) with hg2 | ⟨hcb, hid⟩
      · rw [hg2] at hg
        exact absurd hg (by simp)
      · rw [if_neg (by simp [hcb]), hid]
        exact ih K htail
    · rw [if_neg hg]
      exact ih K htail

/-- C9: `bless` is idempotent whenever the blessee's and the
benediction's `objOrPrototype` resolutions are unchanged by the first
call (in particular for any plain, non-callable blessee), on a heap with
descending prototype links and distinct per-object keys, with the
benediction's enumerated values in bounds, its key list duplicate-free,
and no `_applyLength` key when the position marker is `LAST_ARG`: a
second call with the same arguments returns the same heap and no error,
because every key the second enumeration visits is either already
non-nullish on the blessee or is rewritten with the very value the first
call stored. -/
theorem bless_idempotent (H H₁ : Heap) (blessee benediction t : JSVal) (c rbv : Nat)
    (hwf : protoLt H = true)
    (hknd : heapKeysNodup H = true)
    (hbl : objOrPrototype H blessee = JSVal.ref c)
    (hc : c < H.length)
    (hbv : objOrPrototype H benediction = JSVal.ref rbv)
    (hrbv : rbv < H.length)
    (hvb : ∀ p ∈ enumKeysV H (JSVal.ref rbv),
      valBound H.length (getPropV H (JSVal.ref rbv) p) = true)
    (hnd : (enumKeysV H (JSVal.ref rbv)).Nodup)
    (hap : jsStrictEq t LAST_ARG = true → ¬ "_applyLength" ∈ enumKeysV H (JSVal.ref rbv))
    (hst1 : objOrPrototype H₁ blessee = objOrPrototype H blessee)
    (hst2 : objOrPrototype H₁ benediction = objOrPrototype H benediction)
    (h1 : bless H blessee benediction t = (H₁, none)) :
    bless H₁ blessee benediction t = (H₁, none) := by
  have hnben : ¬ isNullish benediction = true := by
    intro hx
    unfold bless at h1
    rw [if_pos hx] at h1
    injection h1 with h1a h1b
    exact Option.noConfusion h1b
  have hnbl : ¬ isNullish blessee = true := by
    intro hx
    unfold bless at h1
    rw [if_neg hnben, if_pos hx] at h1
    injection h1 with h1a h1b
    exact Option.noConfusion h1b
  unfold bless at h1 ⊢
  rw [if_neg hnben, if_neg hnbl] at h1
  rw [if_neg hnben, if_neg hnbl]
  rw [hbv, hbl] at h1
  rw [hst2, hst1, hbv, hbl]
  have hwf1 : protoLt H₁ = true :=
    blessLoop_protoLt (JSVal.ref rbv) t (JSVal.ref c) _ H H₁ none hwf h1
  have hknd1 : heapKeysNodup H₁ = true :=
    blessLoop_keysNodup (JSVal.ref rbv) t (JSVal.ref c) _ H H₁ none hknd h1
  have hlen : H.length ≤ H₁.length :=
    blessLoop_length_mono (JSVal.ref rbv) t (JSVal.ref c) _ H H₁ none h1
  have hc1 : c < H₁.length := Nat.lt_of_lt_of_le hc hlen
  have hvbv : valBound H.length (JSVal.ref rbv) = true := by
    show decide (rbv < H.length) = true
    exact decide_eq_true hrbv
  have hrel : ∀ x, x < H.length →
      ∃ o o₁, H[x]? = some o ∧ H₁[x]? = some o₁ ∧
        cellGrewP (fun k => k ∈ enumKeysV H (JSVal.ref rbv)) o o₁ := by
    intro x hx
    by_cases hxc : x = c
    · subst hxc
      obtain ⟨o, ho⟩ : ∃ o, H[x]? = some o := ⟨H[x], List.getElem?_eq_getElem hx⟩
      obtain ⟨o₁, ho1, hgr⟩ :=
        blessLoop_cellGrewP (JSVal.ref rbv) t x
          (fun k => k ∈ enumKeysV H (JSVal.ref rbv)) _ H H₁ none o
          (fun q hq => hq) ho h1
      exact ⟨o, o₁, ho, ho1, hgr⟩
    · obtain ⟨o, ho⟩ : ∃ o, H[x]? = some o := ⟨H[x], List.getElem?_eq_getElem hx⟩
      have hfr : H₁[x]? = H[x]? :=
        blessLoop_get_frame (JSVal.ref rbv) t c x hxc _ H H₁ none hx h1
      exact ⟨o, o, ho, hfr.trans ho, cellGrewP_refl _ o⟩
  have hsub : ∀ k ∈ enumKeysV H₁ (JSVal.ref rbv), k ∈ enumKeysV H (JSVal.ref rbv) := by
    intro k hk
    by_cases hkin : k ∈ enumKeysV H (JSVal.ref rbv)
    · exact hkin
    · exfalso
      have hiff := enumKeysAux_grewP_iff H H₁
        (fun k2 => k2 ∈ enumKeysV H (JSVal.ref rbv)) hwf hrel k hkin
        (H₁.length + 1) rbv [] [] hrbv (fun k2 h => h) (fun k2 h => Or.inl h)
      have hk2 : k ∈ enumKeysAux H (H₁.length + 1) (some rbv) [] := hiff.mp hk
      rw [enumKeysAux_fuel H hwf (H₁.length + 1) rbv (H.length + 1) []
        (by omega) (by omega)] at hk2
      exact hkin hk2
  have hcond : ∀ p ∈ enumKeysV H₁ (JSVal.ref rbv),
      isNullish (getPropV H₁ (JSVal.ref c) p) = false ∨
      (isCallable H₁ (getPropV H₁ (JSVal.ref rbv) p) = false ∧
       setV H₁ (JSVal.ref c) p (getPropV H₁ (JSVal.ref rbv) p) = H₁) := by
    intro p hp1
    have hp : p ∈ enumKeysV H (JSVal.ref rbv) := hsub p hp1
    have hbvst : getPropV H₁ (JSVal.ref rbv) p = getPropV H (JSVal.ref rbv) p :=
      blessLoop_bv_read_stable (JSVal.ref rbv) t c p _ H H₁ none hwf hc hvbv h1
    by_cases hg : isNullish (getPropV H (JSVal.ref c) p) = true
    · have hinst := blessLoop_installs (JSVal.ref rbv) t c p _ H H₁ hwf hc hvbv
        (hvb p hp) hap hnd h1 hp hg
      by_cases hcb : isCallable H (getPropV H (JSVal.ref rbv) p) = true
      · obtain ⟨r, fd, hub, hval, hfr⟩ := hinst.1 hcb
        left
        rw [hval]
        rfl
      · have hcb2 : isCallable H (getPropV H (JSVal.ref rbv) p) = false := by
          simpa using hcb
        obtain ⟨hval, hown⟩ := hinst.2 hcb2
        by_cases hvn : isNullish (getPropV H (JSVal.ref rbv) p) = true
        · right
          constructor
          · rw [hbvst]
            exact isCallable_nullish H₁ _ hvn
          · rw [hbvst]
            obtain ⟨o₁, ho1⟩ : ∃ o₁, H₁[c]? = some o₁ :=
              ⟨H₁[c], List.getElem?_eq_getElem hc1⟩
            have hgown : getOwnV o₁ p = some (getPropV H (JSVal.ref rbv) p) := by
              rw [ownOf_ref, ho1] at hown
              exact hown
            have hnods := heapKeysNodup_cell H₁ hknd1 c o₁ ho1
            show (match H₁[c]? with
              | some o => H₁.set c (setObjProp o p (getPropV H (JSVal.ref rbv) p))
              | none => H₁) = H₁
            rw [ho1]
            show H₁.set c (setObjProp o₁ p (getPropV H (JSVal.ref rbv) p)) = H₁
            rw [setObjProp_id_nodup o₁ p _ hnods.1 hnods.2 hgown]
            exact set_self_of_getElem H₁ c o₁ ho1
        · left
          rw [hval]
          simpa using hvn
    · have hg2 : isNullish (getPropV H (JSVal.ref c) p) = false := by simpa using hg
      left
      rw [blessLoop_preserves (JSVal.ref rbv) t (JSVal.ref c) p _ H H₁ none hwf h1 hg2]
      exact hg2
  exact blessLoop_noop (JSVal.ref rbv) t (JSVal.ref c) _ H₁ hcond

/-- Witness for C9: on the three-cell heap `heapC9w` a first `bless` of
the plain blessee `ref 2` with the benediction `ref 0` (one method, one
data property) succeeds, the resolutions are stable, and the second call
is the identity on the resulting heap. -/
theorem bless_idempotent_witness :
    bless (bless heapC9w (JSVal.ref 2) (JSVal.ref 0) JSVal.null).1
        (JSVal.ref 2) (JSVal.ref 0) JSVal.null
      = ((bless heapC9w (JSVal.ref 2) (JSVal.ref 0) JSVal.null).1, none) :=
  bless_idempotent heapC9w (bless heapC9w (JSVal.ref 2) (JSVal.ref 0) JSVal.null).1
    (JSVal.ref 2) (JSVal.ref 0) JSVal.null 2 0
    (by decide) (by decide) (by decide) (by decide) (by decide) (by decide)
    (by decide) (by decide) (by decide) (by decide) (by decide) (by decide)

end Blessed
